import Mathlib

/-!
# Verification of the SuMPF connector runtime specification

This file formalises the reactive dataflow ("connector") runtime of SuMPF
and several leaf modules, and proves or refutes the frozen claims about it.

The connector machinery itself (`_base/_connectors/functions.py`,
`decorators.py`, `dummydecorators.py`) is not present in the source tree;
only its switch module `_base/connectors.py`, its callers and the
specification are.  Following the ground rules, the graph/propagation
machinery below is modelled from the specification (each such definition
says so in its doc comment), while `connectors.py`, the nonlinear
Thiele-Small auralization module and the noise generator are translated
directly from the source.
-/

set_option maxHeartbeats 1000000

namespace SuMPF

/-! ## Part 1: the connector data model

Modelled from the spec: the four connector roles (Input, Trigger, Output,
MultiInput), connectors bound to one owning object and one method, a
process-wide registry of directed edges, per-Output cache/dirty/active
state, and per-MultiInput ordered contributions keyed by connection
identity. -/

/-- Payload values are opaque to the core; we use `Nat`. -/
abbrev Val := Nat

/-- Connector identifiers. -/
abbrev CId := Nat

/-- Modelled from the spec: the four kinds of typed attachment points. -/
inductive Role where
  | input
  | trigger
  | output
  | multiInput
deriving DecidableEq, Repr

/-- State of one processing object: the slots written by Input setters and,
per MultiInput connector, the ordered contribution list (contribution id,
value). Modelled from the spec ("bound getter/setter/adder methods" of the
owning object; the MultiInput "logically holds an ordered collection"). -/
structure ObjState where
  slots : List (Nat × Val)
  multis : List (CId × List (Nat × Val))

/-- Static declaration of a connector: its owner, role, declared value type
(`none` = "accepts anything"), the Output-role connectors on the same object
that depend on it, the slot its setter writes, and (for Outputs) the bound
getter.  Modelled from the spec (§3 Data model). -/
structure ConnDecl where
  owner : Nat
  role : Role
  typ : Option Nat
  dependents : List CId
  slot : Nat
  getter : ObjState → Val

/-- Dynamic state of an Output connector: cached value, dirty flag and
active flag.  Modelled from the spec. -/
structure OutSt where
  cache : Option Val
  dirty : Bool
  active : Bool

/-- A directed edge from an Output to an Input/Trigger/MultiInput, with its
registration identity `eid`.  Modelled from the spec (§3 Connection). -/
structure Edge where
  src : CId
  dst : CId
  eid : Nat
deriving DecidableEq, Repr

/-- Observable events of a run, used to state the claims: a connector
firing, one getter call (a recomputation) of an Output, and one value
delivery along an edge. -/
inductive Event where
  | fired (c : CId)
  | getterCall (o : CId)
  | delivered (eid : Nat)
deriving DecidableEq, Repr

/-- The whole runtime state: connector declarations, per-Output dynamic
state, the ordered edge registry, per-object state, the destroyed marks and
the next fresh connection identity.  Modelled from the spec. -/
structure Graph where
  decls : CId → Option ConnDecl
  outs : CId → OutSt
  edges : List Edge
  objs : Nat → ObjState
  destroyed : CId → Bool
  nextId : Nat

/-- Read an input slot (latest write wins; unwritten slots read 0). -/
def slotVal (l : List (Nat × Val)) (k : Nat) : Val :=
  match l.find? (fun p => p.1 == k) with
  | some p => p.2
  | none => 0

/-- Write an input slot. -/
def setSlotL (l : List (Nat × Val)) (k : Nat) (v : Val) : List (Nat × Val) :=
  (k, v) :: l

/-- The ordered contribution list of a MultiInput connector. -/
def getContribs (s : ObjState) (c : CId) : List (Nat × Val) :=
  match s.multis.find? (fun p => p.1 == c) with
  | some p => p.2
  | none => []

/-- Replace the contribution list of a MultiInput connector. -/
def setContribs (s : ObjState) (c : CId) (l : List (Nat × Val)) : ObjState :=
  { s with multis := (c, l) :: s.multis }

/-- Update the contribution keyed `id` in place if present (preserving the
order of the collection), else append it. -/
def putContrib (l : List (Nat × Val)) (id : Nat) (v : Val) : List (Nat × Val) :=
  if l.any (fun p => p.1 == id) then
    l.map (fun p => if p.1 == id then (p.1, v) else p)
  else
    l ++ [(id, v)]

/-- Remove the contribution keyed `id`. -/
def removeContrib (l : List (Nat × Val)) (id : Nat) : List (Nat × Val) :=
  l.filter (fun p => p.1 ≠ id)

/-- The dependent Outputs declared by a connector. -/
def depsOf (g : Graph) (c : CId) : List CId :=
  match g.decls c with
  | some d => d.dependents
  | none => []

/-- The owner of a connector, when declared. -/
def ownerOf (g : Graph) (c : CId) : Option Nat :=
  (g.decls c).map (·.owner)

/-- The role of a connector, when declared. -/
def roleOf (g : Graph) (c : CId) : Option Role :=
  (g.decls c).map (·.role)

/-- The outgoing edges of an Output, in registration order. -/
def outEdges (g : Graph) (o : CId) : List Edge :=
  g.edges.filter (fun e => e.src == o)

/-- Invoke the bound getter of an Output on its owner's current state. -/
def computeOutput (g : Graph) (o : CId) : Val :=
  match g.decls o with
  | some d => d.getter (g.objs d.owner)
  | none => 0

/-- Replace one object's state. -/
def updObj (g : Graph) (n : Nat) (s : ObjState) : Graph :=
  { g with objs := fun m => if m = n then s else g.objs m }

/-- Replace one Output's dynamic state. -/
def updOut (g : Graph) (o : CId) (st : OutSt) : Graph :=
  { g with outs := fun x => if x = o then st else g.outs x }

/-- Invalidate an Output's cache. -/
def markDirty (g : Graph) (o : CId) : Graph :=
  updOut g o { g.outs o with dirty := true }

/-- Store a freshly recomputed value and mark the Output clean. -/
def setCache (g : Graph) (o : CId) (v : Val) : Graph :=
  updOut g o { g.outs o with cache := some v, dirty := false }

/-- Deliver a value into the destination of an edge: write the slot of a
plain Input, do nothing for a Trigger, or update the contribution keyed by
the edge's connection identity for a MultiInput.  Modelled from the spec. -/
def applyDeliver (g : Graph) (e : Edge) (v : Val) : Graph :=
  match g.decls e.dst with
  | none => g
  | some d =>
    match d.role with
    | Role.input =>
        updObj g d.owner
          { g.objs d.owner with slots := setSlotL (g.objs d.owner).slots d.slot v }
    | Role.trigger => g
    | Role.multiInput =>
        updObj g d.owner
          (setContribs (g.objs d.owner) e.dst
            (putContrib (getContribs (g.objs d.owner) e.dst) e.eid v))
    | Role.output => g

/-! ## Part 2: the propagation engine

Modelled from the spec (§4.3): on a firing, look up the declared dependent
Outputs; every active dependent is marked dirty and, if it has outgoing
edges, recomputed once and pushed along each edge in registration order,
recursively firing the receiving connectors; an inactive dependent is only
marked dirty.  A per-pass visited-edge set makes a revisited edge a silent
no-op.  The functions take fuel so that they are total by construction;
claim C5 proves the canonical fuel is always sufficient. -/

mutual

/-- One firing of an Input/Trigger/MultiInput connector `c` (direct call or
inbound delivery): record the firing and process the declared dependents. -/
def fire : Nat → Graph → List Nat → CId → List Event →
    Option (Graph × List Nat × List Event)
  | 0, _, _, _, _ => none
  | fuel+1, g, vis, c, evs =>
      fireDeps fuel g vis (depsOf g c) (evs ++ [Event.fired c])
termination_by fuel _ _ _ _ => (fuel, 0, 0)

/-- Process the declared dependent Outputs of a fired connector in order. -/
def fireDeps : Nat → Graph → List Nat → List CId → List Event →
    Option (Graph × List Nat × List Event)
  | _, g, vis, [], evs => some (g, vis, evs)
  | fuel, g, vis, o :: os, evs =>
      if (g.outs o).active then
        match outEdges g o with
        | [] => fireDeps fuel (markDirty g o) vis os evs
        | _ :: _ =>
            match fireEdges fuel (setCache g o (computeOutput g o)) vis
                (outEdges g o) (computeOutput g o)
                (evs ++ [Event.getterCall o]) with
            | none => none
            | some (g2, vis2, evs2) => fireDeps fuel g2 vis2 os evs2
      else fireDeps fuel (markDirty g o) vis os evs
termination_by fuel _ _ os _ => (fuel, 2, os.length)

/-- Push a recomputed value along a list of outgoing edges in registration
order; an edge already in the per-pass visited set is skipped. -/
def fireEdges : Nat → Graph → List Nat → List Edge → Val → List Event →
    Option (Graph × List Nat × List Event)
  | _, g, vis, [], _, evs => some (g, vis, evs)
  | fuel, g, vis, e :: es, v, evs =>
      if e.eid ∈ vis then fireEdges fuel g vis es v evs
      else
        match fire fuel (applyDeliver g e v) (e.eid :: vis) e.dst
            (evs ++ [Event.delivered e.eid]) with
        | none => none
        | some (g1, vis1, evs1) => fireEdges fuel g1 vis1 es v evs1
termination_by fuel _ _ es _ _ => (fuel, 1, es.length)

end

/-! ## Part 3: the public operations

Modelled from the spec (§4.1, §4.2, §4.4, §4.5, §6, §7): the direct calls
on connectors and the seven free operations, with the error taxonomy.
Every operation checks the destroyed mark first, so that any later direct
call on a connector of a destroyed object fails with `UseAfterDestroy`. -/

/-- The error taxonomy of the spec (§7), plus `invalidConnector` for calls
that do not address a declared connector of the right role at all. -/
inductive ConnError where
  | typeMismatch
  | incompatibleTypes
  | duplicateConnection
  | notConnected
  | useAfterDestroy
  | invalidConnector
deriving DecidableEq, Repr

/-- The fuel handed to a propagation pass; claim C5 proves it sufficient
(a pass visits each edge at most once). -/
def passFuel (g : Graph) : Nat := g.edges.length + 2

/-- Result of one operation: `none` only on fuel exhaustion (shown
impossible), otherwise the error or the new state with the pass's events. -/
abbrev OpResult := Option (Except ConnError (Graph × List Event))

/-- Read an Output: a clean cached value is returned as is; a dirty Output
invokes the bound getter once, stores the result and becomes clean.
Modelled from the spec (§4.1 Output). -/
def readValue (g : Graph) (o : CId) : Val × Graph × List Event :=
  match (g.outs o).dirty, (g.outs o).cache with
  | false, some v => (v, g, [])
  | _, _ =>
      let v := computeOutput g o
      (v, setCache g o v, [Event.getterCall o])

/-- Package the outcome of a propagation pass as an operation result
(`none` would mean fuel exhaustion, which claim C5 rules out). -/
def finishFire (res : Option (Graph × List Nat × List Event)) : OpResult :=
  match res with
  | none => none
  | some (g2, _, evs2) => some (.ok (g2, evs2))

/-- Direct call of an Input connector: invoke the bound setter, then fire
propagation.  Modelled from the spec (§4.1 Input). -/
def setInputOp (g : Graph) (c : CId) (v : Val) : OpResult :=
  match g.decls c with
  | none => some (.error .invalidConnector)
  | some d =>
      if g.destroyed c then some (.error .useAfterDestroy)
      else if d.role ≠ Role.input then some (.error .invalidConnector)
      else
        let g1 := updObj g d.owner
          { g.objs d.owner with slots := setSlotL (g.objs d.owner).slots d.slot v }
        finishFire (fire (passFuel g1) g1 [] c [])

/-- Direct call of a Trigger connector: no value, same propagation.
Modelled from the spec (§4.1 Trigger). -/
def callTriggerOp (g : Graph) (c : CId) : OpResult :=
  match g.decls c with
  | none => some (.error .invalidConnector)
  | some d =>
      if g.destroyed c then some (.error .useAfterDestroy)
      else if d.role ≠ Role.trigger then some (.error .invalidConnector)
      else
        finishFire (fire (passFuel g) g [] c [])

/-- Direct read of an Output connector.  Modelled from the spec. -/
def readOutputOp (g : Graph) (o : CId) : OpResult :=
  match g.decls o with
  | none => some (.error .invalidConnector)
  | some d =>
      if g.destroyed o then some (.error .useAfterDestroy)
      else if d.role ≠ Role.output then some (.error .invalidConnector)
      else
        let r := readValue g o
        some (.ok (r.2.1, r.2.2))

/-- Direct add of a contribution to a MultiInput (fresh identity), firing
like an Input.  Modelled from the spec (§4.1 MultiInput). -/
def addMultiOp (g : Graph) (c : CId) (v : Val) : OpResult :=
  match g.decls c with
  | none => some (.error .invalidConnector)
  | some d =>
      if g.destroyed c then some (.error .useAfterDestroy)
      else if d.role ≠ Role.multiInput then some (.error .invalidConnector)
      else
        let g1 := updObj g d.owner
          (setContribs (g.objs d.owner) c
            (getContribs (g.objs d.owner) c ++ [(g.nextId, v)]))
        let g2 := { g1 with nextId := g.nextId + 1 }
        finishFire (fire (passFuel g2) g2 [] c [])

/-- Direct removal of a contribution by its identity, firing like an Input.
Modelled from the spec (§4.1 MultiInput). -/
def removeMultiOp (g : Graph) (c : CId) (id : Nat) : OpResult :=
  match g.decls c with
  | none => some (.error .invalidConnector)
  | some d =>
      if g.destroyed c then some (.error .useAfterDestroy)
      else if d.role ≠ Role.multiInput then some (.error .invalidConnector)
      else if ¬ (getContribs (g.objs d.owner) c).any (fun p => p.1 == id) then
        some (.error .notConnected)
      else
        let g1 := updObj g d.owner
          (setContribs (g.objs d.owner) c
            (removeContrib (getContribs (g.objs d.owner) c) id))
        finishFire (fire (passFuel g1) g1 [] c [])

/-- Declared-type compatibility: a typed output satisfies a typed input
only when the types agree; an untyped side accepts anything.  Modelled from
the spec (§4.2 IncompatibleTypes). -/
def compatible (a b : Option Nat) : Bool :=
  match a, b with
  | some x, some y => x == y
  | _, _ => true

/-- Find the first registered edge with the given endpoints. -/
def findEdge (g : Graph) (o i : CId) : Option Edge :=
  g.edges.find? (fun e => e.src == o && e.dst == i)

/-- `connect(output, input)`: checks, replace-not-reject for a plain
Input/Trigger that already has an upstream edge, edge creation, and the
immediate push of the output's current value along the new edge (delivery
plus a firing of the receiving connector, with the new edge already in the
pass's visited set).  Modelled from the spec (§4.2). -/
def connectOp (g : Graph) (o i : CId) : OpResult :=
  match g.decls o, g.decls i with
  | some dOut, some dIn =>
      if g.destroyed o || g.destroyed i then some (.error .useAfterDestroy)
      else if dOut.role ≠ Role.output then some (.error .invalidConnector)
      else if dIn.role = Role.output then some (.error .invalidConnector)
      else if ¬ compatible dOut.typ dIn.typ then some (.error .incompatibleTypes)
      else if dIn.role ≠ Role.multiInput ∧ (findEdge g o i).isSome then
        some (.error .duplicateConnection)
      else
        let g1 : Graph :=
          if dIn.role = Role.multiInput then g
          else { g with edges := g.edges.filter (fun e => e.dst ≠ i) }
        let e : Edge := ⟨o, i, g.nextId⟩
        let g2 : Graph := { g1 with edges := g1.edges ++ [e], nextId := g.nextId + 1 }
        let r := readValue g2 o
        let g4 := applyDeliver r.2.1 e r.1
        finishFire (fire (passFuel g4) g4 [e.eid] e.dst (r.2.2 ++ [Event.delivered e.eid]))
  | _, _ => some (.error .invalidConnector)

/-- Remove the first edge with the given endpoints. -/
def removeFirstEdge : List Edge → CId → CId → List Edge
  | [], _, _ => []
  | e :: es, o, i =>
      if e.src == o && e.dst == i then es else e :: removeFirstEdge es o i

/-- `disconnect(output, input)`: removes the specific edge, failing with
`NotConnected` when absent; removing an edge into a MultiInput removes its
contribution (by connection identity) and fires like a removal.  Modelled
from the spec (§4.2). -/
def disconnectOp (g : Graph) (o i : CId) : OpResult :=
  match g.decls o, g.decls i with
  | some _, some dIn =>
      if g.destroyed o || g.destroyed i then some (.error .useAfterDestroy)
      else
        match findEdge g o i with
        | none => some (.error .notConnected)
        | some e =>
            let g1 := { g with edges := removeFirstEdge g.edges o i }
            if dIn.role = Role.multiInput then
              let g2 := updObj g1 dIn.owner
                (setContribs (g1.objs dIn.owner) i
                  (removeContrib (getContribs (g1.objs dIn.owner) i) e.eid))
              finishFire (fire (passFuel g2) g2 [] i [])
            else some (.ok (g1, []))
  | _, _ => some (.error .invalidConnector)

/-- Does this edge touch connector `c` in either direction? -/
def touches (c : CId) (e : Edge) : Bool := e.src == c || e.dst == c

/-- Drop the MultiInput contribution belonging to a removed edge. -/
def dropContribForEdge (g : Graph) (e : Edge) : Graph :=
  match g.decls e.dst with
  | some d =>
      if d.role = Role.multiInput then
        updObj g d.owner
          (setContribs (g.objs d.owner) e.dst
            (removeContrib (getContribs (g.objs d.owner) e.dst) e.eid))
      else g
  | none => g

/-- `disconnect_all(connector)`: removes every edge touching the connector,
in either direction, dropping the MultiInput contributions of the removed
edges.  Modelled from the spec (§4.2). -/
def disconnectAllOp (g : Graph) (c : CId) : OpResult :=
  match g.decls c with
  | none => some (.error .invalidConnector)
  | some _ =>
      if g.destroyed c then some (.error .useAfterDestroy)
      else
        let removed := g.edges.filter (touches c)
        let g1 := removed.foldl dropContribForEdge g
        some (.ok ({ g1 with edges := g.edges.filter (fun e => ¬ touches c e) }, []))

/-- `deactivate_output(output)`: mark the Output inactive; subsequent
upstream firings only set its dirty flag.  Modelled from the spec (§4.4). -/
def deactivateOp (g : Graph) (o : CId) : OpResult :=
  match g.decls o with
  | none => some (.error .invalidConnector)
  | some d =>
      if g.destroyed o then some (.error .useAfterDestroy)
      else if d.role ≠ Role.output then some (.error .invalidConnector)
      else some (.ok (updOut g o { g.outs o with active := false }, []))

/-- `activate_output(output)`: mark active; if dirty, perform exactly one
recompute-and-push pass over the currently connected downstream edges.
Modelled from the spec (§4.4). -/
def activateOp (g : Graph) (o : CId) : OpResult :=
  match g.decls o with
  | none => some (.error .invalidConnector)
  | some d =>
      if g.destroyed o then some (.error .useAfterDestroy)
      else if d.role ≠ Role.output then some (.error .invalidConnector)
      else
        let g1 := updOut g o { g.outs o with active := true }
        if (g.outs o).dirty then
          let v := computeOutput g1 o
          let g2 := setCache g1 o v
          finishFire (fireEdges (passFuel g2) g2 [] (outEdges g2 o) v [Event.getterCall o])
        else some (.ok (g1, []))

/-- Is connector `c` owned by `owner`? -/
def ownedBy (g : Graph) (owner : Nat) (c : CId) : Bool :=
  match g.decls c with
  | some d => d.owner == owner
  | none => false

/-- `destroy_connectors(owner)`: disconnect everything touching the owner's
connectors (dropping MultiInput contributions of the removed edges),
discard the owner's cached values, and mark its connectors permanently
inert.  Modelled from the spec (§4.5). -/
def destroyOp (g : Graph) (owner : Nat) : OpResult :=
  let removed := g.edges.filter (fun e => ownedBy g owner e.src || ownedBy g owner e.dst)
  let g1 := removed.foldl dropContribForEdge g
  some (.ok ({ g1 with
      edges := g.edges.filter (fun e => ¬ (ownedBy g owner e.src || ownedBy g owner e.dst)),
      outs := fun c => if ownedBy g owner c then
          { cache := none, dirty := true, active := (g1.outs c).active }
        else g1.outs c,
      destroyed := fun c => g.destroyed c || ownedBy g owner c }, []))

/-- The operations a client can perform on the runtime.  `set_multiple_values`
is defined below as the op sequence the spec describes. -/
inductive Op where
  | setInput (c : CId) (v : Val)
  | callTrigger (c : CId)
  | readOutput (o : CId)
  | addMulti (c : CId) (v : Val)
  | removeMulti (c : CId) (id : Nat)
  | connect (o i : CId)
  | disconnect (o i : CId)
  | disconnectAll (c : CId)
  | deactivateOutput (o : CId)
  | activateOutput (o : CId)
  | destroyConnectors (owner : Nat)
deriving DecidableEq, Repr

/-- Dispatch one operation. -/
def runOp (g : Graph) : Op → OpResult
  | .setInput c v => setInputOp g c v
  | .callTrigger c => callTriggerOp g c
  | .readOutput o => readOutputOp g o
  | .addMulti c v => addMultiOp g c v
  | .removeMulti c id => removeMultiOp g c id
  | .connect o i => connectOp g o i
  | .disconnect o i => disconnectOp g o i
  | .disconnectAll c => disconnectAllOp g c
  | .deactivateOutput o => deactivateOp g o
  | .activateOutput o => activateOp g o
  | .destroyConnectors owner => destroyOp g owner

/-- Run a sequence of operations, concatenating the event traces; an error
aborts the run with that error. -/
def run : Graph → List Op → Option (Except ConnError (Graph × List Event))
  | g, [] => some (.ok (g, []))
  | g, op :: ops =>
      match runOp g op with
      | none => none
      | some (.error e) => some (.error e)
      | some (.ok (g1, evs)) =>
          match run g1 ops with
          | none => none
          | some (.error e) => some (.error e)
          | some (.ok (g2, evs2)) => some (.ok (g2, evs ++ evs2))

/-- A fresh runtime: given declarations and initial object states, no
edges, every Output active with an empty (dirty) cache, nothing destroyed.
Modelled from the spec (§3 Lifecycle). -/
def initGraph (dcls : CId → Option ConnDecl) (objs0 : Nat → ObjState) : Graph :=
  { decls := dcls
    outs := fun _ => { cache := none, dirty := true, active := true }
    edges := []
    objs := objs0
    destroyed := fun _ => false
    nextId := 0 }

/-- Append new elements, keeping first occurrences only. -/
def addNew (acc : List CId) (xs : List CId) : List CId :=
  xs.foldl (fun a x => if x ∈ a then a else a ++ [x]) acc

/-- One expansion round of the transitive-dependency closure: from every
output already in the set, follow its outgoing edges and add the dependents
of the receiving connectors. -/
def affectedStep (g : Graph) (acc : List CId) : List CId :=
  addNew acc ((acc.map (fun o => ((outEdges g o).map (fun e => depsOf g e.dst)).flatten)).flatten)

/-- Iterate the closure rounds. -/
def affectedIter : Nat → Graph → List CId → List CId
  | 0, _, acc => acc
  | n+1, g, acc => affectedIter n g (affectedStep g acc)

/-- Every Output transitively dependent on one of the given Inputs: the
dependents of the inputs, closed under following outgoing edges.  Each
productive round consumes at least one edge, so `edges+1` rounds reach the
fixed point.  Modelled from the spec (§4.4). -/
def affectedOutputs (g : Graph) (inputs : List CId) : List CId :=
  affectedIter (g.edges.length + 1) g (addNew [] (inputs.map (depsOf g)).flatten)

/-- The operation sequence `set_multiple_values(mapping)` performs:
deactivate every transitively affected Output, apply all the sets (their
firings are absorbed into dirty flags), then reactivate each affected
Output exactly once.  Modelled from the spec (§4.4). -/
def smvOps (g : Graph) (m : List (CId × Val)) : List Op :=
  let aff := affectedOutputs g (m.map (·.1))
  (aff.map Op.deactivateOutput) ++ (m.map (fun p => Op.setInput p.1 p.2))
    ++ (aff.map Op.activateOutput)

/-- `set_multiple_values(mapping)`.  Modelled from the spec (§4.4). -/
def setMultipleValuesOp (g : Graph) (m : List (CId × Val)) : OpResult :=
  run g (smvOps g m)

/-- Deliveries along a given edge in an event trace. -/
def countD (evs : List Event) (eid : Nat) : Nat :=
  (evs.filter (· == Event.delivered eid)).length

/-- Recomputations (getter calls) of a given Output in an event trace. -/
def countGetter (evs : List Event) (o : CId) : Nat :=
  (evs.filter (· == Event.getterCall o)).length

end SuMPF

namespace Connectors

/-! ## Part 4: the module switch `_base/connectors.py`

Translated from the source.  The module inspects the environment variable
`SUMPF_DISABLE_CONNECTORS` at import time; when its value is one of the
listed strings, it imports only the four role markers from
`dummydecorators`, otherwise the seven free operations, the four decorators
and `progressindicators`.  (The literal `1` in the membership tuple of line
19 can never match, since environment values are strings.) -/

/-- The string values the source treats as enabling the switch
(`connectors.py` line 19). -/
def truthyValues : List String := ["1", "True", "true", "Yes", "yes", "Y", "y"]

/-- Is the disable switch active for the given environment?
(`"SUMPF_DISABLE_CONNECTORS" in environ and environ[...] in (...)`). -/
def disableSwitch (env : List (String × String)) : Bool :=
  match env.lookup "SUMPF_DISABLE_CONNECTORS" with
  | some v => truthyValues.contains v
  | none => false

/-- The names the module `sumpf._base.connectors` binds, as a function of
the environment (`connectors.py` lines 19-26). -/
def moduleExports (env : List (String × String)) : List String :=
  if disableSwitch env then
    ["Input", "Trigger", "MultiInput", "Output"]
  else
    ["connect", "disconnect", "disconnect_all", "deactivate_output",
     "activate_output", "destroy_connectors", "set_multiple_values",
     "Input", "Trigger", "MultiInput", "Output", "progressindicators"]

/-- The seven free operations of the connector interface (§6 of the spec). -/
def freeOperations : List String :=
  ["connect", "disconnect", "disconnect_all", "deactivate_output",
   "activate_output", "destroy_connectors", "set_multiple_values"]

end Connectors

namespace ThieleSmall

/-! ## Part 5: `ThieleSmallParameterAuralizationNonlinear`

Translated from the source
(`_modules/_models/_thielesmallparameters/auralization_nonlinear.py`).
Only the state plumbing relevant to claim C9 is modelled: the constructor
stores `__warp_frequency` and `__regularization`; `SetWarpFrequency`
assigns the field and sets the recalculation flag; `SetRegularization`
(line 86) evaluates the expression statement `self.__regularization, value`
— a tuple expression with no assignment, hence no effect on the field — and
sets the recalculation flag; `_Recalculate` (line 104) reads
`q = 1.0 - self.__regularization` from the stored field.  Numeric values
are modelled as rationals, since only field plumbing matters here. -/

/-- The parts of the instance state that the claim is about. -/
structure TSANState where
  warp_frequency : ℚ
  regularization : ℚ
  recalculate : Bool

/-- Constructor (`__init__`, lines 53-55). -/
def init (warp_frequency regularization : ℚ) : TSANState :=
  { warp_frequency := warp_frequency
    regularization := regularization
    recalculate := false }

/-- `SetWarpFrequency` (lines 58-70). -/
def SetWarpFrequency (s : TSANState) (frequency : ℚ) : TSANState :=
  { s with warp_frequency := frequency, recalculate := true }

/-- `SetRegularization` (lines 73-87).  Line 86 of the source is the
expression statement `self.__regularization, value`, which builds and
discards a tuple: the stored field is not assigned.  Only the
recalculation flag is set (line 87). -/
def SetRegularization (s : TSANState) (_value : ℚ) : TSANState :=
  { s with recalculate := true }

/-- The regularization-derived coefficient `q = 1.0 - self.__regularization`
computed by `_Recalculate` (line 104); all regularization influence on the
filter coefficients flows through `q`. -/
def recalcQ (s : TSANState) : ℚ := 1 - s.regularization

end ThieleSmall

namespace Noise

/-! ## Part 6: the noise generator sample counts

Translated from the source
(`_modules/_generators/_signal/noisegenerator.py`).  `WhiteNoise.GetSamples`
builds `flength = length // 2 + 1` spectrum bins and returns
`tuple(numpy.fft.irfft(fsamples))`; `PinkNoise.GetSamples` and
`RedNoise.GetSamples` build `1 + length // 2` bins (`[0.0]` plus one bin
for each `i in range(1, length // 2 + 1)`) and do the same.  For an input
of `n` bins, `numpy.fft.irfft` with the default output-size argument
returns `2 * (n - 1)` real samples — that collaborator fact is the only
part not read off this file. -/

/-- Output length of `numpy.fft.irfft` on `n` spectrum bins (default
second argument): `2 * (n - 1)`. -/
def irfftLength (n : Nat) : Nat := 2 * (n - 1)

/-- Number of spectrum bins built by `WhiteNoise.GetSamples` (line 155). -/
def whiteFlength (length : Nat) : Nat := length / 2 + 1

/-- Number of samples returned by `WhiteNoise.GetSamples` (line 184-185). -/
def whiteNumSamples (length : Nat) : Nat := irfftLength (whiteFlength length)

/-- Number of spectrum bins built by `PinkNoise.GetSamples` (lines 192-195):
the initial `[0.0]` plus one per `i in range(1, length // 2 + 1)`. -/
def pinkFlength (length : Nat) : Nat := 1 + length / 2

/-- Number of samples returned by `PinkNoise.GetSamples` (lines 196-197). -/
def pinkNumSamples (length : Nat) : Nat := irfftLength (pinkFlength length)

/-- Number of spectrum bins built by `RedNoise.GetSamples` (lines 204-207),
identical in shape to the pink-noise loop. -/
def redFlength (length : Nat) : Nat := 1 + length / 2

/-- Number of samples returned by `RedNoise.GetSamples` (lines 208-209). -/
def redNumSamples (length : Nat) : Nat := irfftLength (redFlength length)

end Noise

namespace SuMPF

/-! ## Part 7: specification-side notions used to state the claims -/

/-- Number of edges whose identity is not yet in the visited set; the
termination measure of a propagation pass. -/
def countUnvis : List Edge → List Nat → Nat
  | [], _ => 0
  | e :: es, vis => (if e.eid ∈ vis then 0 else 1) + countUnvis es vis

/-- Trace-side cache validity, read from the *reversed* trace: an Output's
cached value is valid iff, walking backwards, a recomputation (getter call)
of the Output appears before any firing of one of its declared dependents.
This is the claim's "no dependent has fired since the last recomputation". -/
def cleanR (g : Graph) (o : CId) : List Event → Bool
  | [] => false
  | Event.getterCall o' :: r => if o' = o then true else cleanR g o r
  | Event.fired c :: r => if o ∈ depsOf g c then false else cleanR g o r
  | Event.delivered _ :: r => cleanR g o r

/-- Trace-side cache validity of Output `o` after trace `tr`. -/
def cleanTrace (g : Graph) (o : CId) (tr : List Event) : Bool :=
  cleanR g o tr.reverse

/-- Some declared dependent of `o` fired within the events `evs`. -/
def FiredDep (g : Graph) (o : CId) (evs : List Event) : Prop :=
  ∃ c, Event.fired c ∈ evs ∧ o ∈ depsOf g c

/-- The state/trace invariant of claim C1: for every non-destroyed
connector, the Output dirty flag is the negation of trace-side validity,
and a clean Output has a cached value. -/
def Inv (g : Graph) (tr : List Event) : Prop :=
  ∀ o, g.destroyed o = false →
    ((g.outs o).dirty = false ↔ cleanTrace g o tr = true) ∧
    ((g.outs o).dirty = false → (g.outs o).cache.isSome = true)

/-- The C1 clause for one Output: its dirty flag mirrors trace-side
validity, and a clean Output holds a cached value. -/
def InvAt (g : Graph) (o : CId) (tr : List Event) : Prop :=
  ((g.outs o).dirty = false ↔ cleanTrace g o tr = true) ∧
  ((g.outs o).dirty = false → (g.outs o).cache.isSome = true)

/-- An Output a pass can only mark dirty (never recompute): it is inactive
or has no outgoing edges. -/
def quiet (g : Graph) (o : CId) : Prop :=
  (g.outs o).active = false ∨ outEdges g o = []

/-- Is this event a delivery along an edge? -/
def isDelivered : Event → Bool
  | Event.delivered _ => true
  | _ => false

/-- Total number of deliveries in a trace. -/
def deliveredTotal (evs : List Event) : Nat := (evs.filter isDelivered).length

/-- A new delivery along edge `eid` is justified: the registry holds an
edge with that identity whose source Output is a declared dependent of some
connector that fired in the trace. -/
def FiredProv (g : Graph) (evs : List Event) (eid : Nat) : Prop :=
  ∃ e, e ∈ g.edges ∧ e.eid = eid ∧
    ∃ c, Event.fired c ∈ evs ∧ e.src ∈ depsOf g c

/-- Delivery-counting facts of a propagation step: an edge already visited
receives no further delivery, an unvisited edge at most one; a newly
delivered edge ends up visited; and deliveries plus remaining unvisited
edges never increase (the total work of a pass is bounded by the number of
edges). -/
structure DeliverProps (g : Graph) (vis : List Nat) (evs : List Event)
    (r : Graph × List Nat × List Event) : Prop where
  visited_stable : ∀ eid, eid ∈ vis → countD r.2.2 eid = countD evs eid
  at_most_one : ∀ eid, eid ∉ vis → countD r.2.2 eid ≤ countD evs eid + 1
  new_in_vis : ∀ eid, countD evs eid < countD r.2.2 eid → eid ∈ r.2.1
  total_bound : deliveredTotal r.2.2 + countUnvis g.edges r.2.1 ≤
    deliveredTotal evs + countUnvis g.edges vis

/-- The contribution list a MultiInput connector currently holds. -/
def contribsOf (g : Graph) (c : CId) : List (Nat × Val) :=
  match g.decls c with
  | some d => getContribs (g.objs d.owner) c
  | none => []

/-- The contribution identities a MultiInput connector currently holds, in
order. -/
def contribIds (g : Graph) (c : CId) : List Nat :=
  (contribsOf g c).map (·.1)

/-- The inbound edges of a connector, in registration order. -/
def edgesInto (g : Graph) (c : CId) : List Edge :=
  g.edges.filter (fun e => e.dst == c)

/-- The MultiInput correspondence: every MultiInput holds exactly one
contribution per inbound edge, keyed by the edge identity, in registration
order. -/
def Corr (g : Graph) : Prop :=
  ∀ c d, g.decls c = some d → d.role = Role.multiInput →
    contribIds g c = (edgesInto g c).map (·.eid)

/-- Every edge into a MultiInput has a matching contribution (a consequence
of `Corr` that the propagation engine preserves on its own). -/
def EdgeContribs (g : Graph) : Prop :=
  ∀ e ∈ g.edges, ∀ d, g.decls e.dst = some d → d.role = Role.multiInput →
    e.eid ∈ (getContribs (g.objs d.owner) e.dst).map (·.1)

/-- The registry well-formedness invariant: edge identities are fresh and
distinct, and the MultiInput correspondence holds. -/
def WInv (g : Graph) : Prop :=
  (∀ e ∈ g.edges, e.eid < g.nextId) ∧ (g.edges.map (·.eid)).Nodup ∧ Corr g

/-- Operations that do not add or remove MultiInput contributions directly
(all contributions then stem from connections). -/
def noDirectMulti : Op → Bool
  | Op.addMulti _ _ => false
  | Op.removeMulti _ _ => false
  | _ => true

/-- Operations that only push values or read: direct Input/Trigger calls
and Output reads (no structural changes, no output-activation pushes). -/
def firingOp : Op → Bool
  | Op.setInput _ _ => true
  | Op.callTrigger _ => true
  | Op.readOutput _ => true
  | _ => false

/-- Frame facts of a propagation step from `(g, vis, evs)` to the result
`r = (g', vis', evs')`: the registry, declarations, destroyed marks, fresh
counter and activity flags are untouched; the event list only grows; the
visited set only grows; an inactive dirty Output is never cleaned; and any
new getter call belongs to an Output that was active with outgoing edges. -/
structure FrameProps (g : Graph) (vis : List Nat) (evs : List Event)
    (r : Graph × List Nat × List Event) : Prop where
  edges_eq : r.1.edges = g.edges
  decls_eq : r.1.decls = g.decls
  destroyed_eq : r.1.destroyed = g.destroyed
  nextId_eq : r.1.nextId = g.nextId
  active_eq : ∀ o, (r.1.outs o).active = (g.outs o).active
  evs_prefix : evs <+: r.2.2
  vis_mono : ∀ x ∈ vis, x ∈ r.2.1
  dirty_stable : ∀ o, (g.outs o).active = false → (g.outs o).dirty = true →
    (r.1.outs o).dirty = true
  getter_src : ∀ o, Event.getterCall o ∈ r.2.2 → Event.getterCall o ∈ evs ∨
    ((g.outs o).active = true ∧ outEdges g o ≠ [])

/-! ## Part 8: concrete instances used by the witnesses -/

/-- A concrete four-connector, two-object declaration table: object 0 has
Input 0 (dependent Output 1), object 1 has Input 2 (dependent Output 3);
the getters read slot 0 of their object. -/
def w5decls : CId → Option ConnDecl := fun c =>
  if c = 0 then some ⟨0, Role.input, none, [1], 0, fun _ => 0⟩
  else if c = 1 then some ⟨0, Role.output, none, [], 0, fun s => slotVal s.slots 0⟩
  else if c = 2 then some ⟨1, Role.input, none, [3], 0, fun _ => 0⟩
  else if c = 3 then some ⟨1, Role.output, none, [], 0, fun s => slotVal s.slots 0⟩
  else none

/-- A cyclic graph over `w5decls`: Output 1 feeds Input 2, Output 3 feeds
Input 0. -/
def w5G : Graph :=
  { decls := w5decls
    outs := fun _ => { cache := none, dirty := true, active := true }
    edges := [⟨1, 2, 0⟩, ⟨3, 0, 1⟩]
    objs := fun _ => { slots := [], multis := [] }
    destroyed := fun _ => false
    nextId := 2 }

/-- The result of firing Input 0 of the cyclic graph. -/
def w5res : Graph × List Nat × List Event :=
  (fire (passFuel w5G) w5G [] 0 []).getD (w5G, [], [])

/-- A graph over `w5decls` in which plain Input 2 already receives an edge
from Output 1 (the state a first `connect(1, 2)` establishes in the
registry). -/
def w7G : Graph :=
  { decls := w5decls
    outs := fun _ => { cache := none, dirty := true, active := true }
    edges := [⟨1, 2, 0⟩]
    objs := fun _ => { slots := [], multis := [] }
    destroyed := fun _ => false
    nextId := 1 }

/-- A single-object declaration table: Input 0 declares dependent Output 1;
Output 1 reads slot 0 of its owner. -/
def wc4decls : CId → Option ConnDecl := fun c =>
  if c = 0 then some ⟨0, Role.input, none, [1], 0, fun _ => 0⟩
  else if c = 1 then some ⟨0, Role.output, none, [], 0, fun s => slotVal s.slots 0⟩
  else none

/-- A fresh graph over `wc4decls` (Output 1 has no outgoing edges). -/
def wc4G : Graph := initGraph wc4decls (fun _ => { slots := [], multis := [] })

/-- The batching sequence: deactivate Output 1, set Input 0 to 5 then 7. -/
def wc4ops : List Op :=
  Op.deactivateOutput 1 ::
    ([((0 : CId), (5 : Val)), ((0 : CId), (7 : Val))]).map
      (fun p => Op.setInput p.1 p.2)

/-- The state and trace after the deactivate-and-set phase. -/
def wc4run1 : Graph × List Event :=
  match run wc4G wc4ops with
  | some (.ok p) => p
  | _ => (wc4G, [])

/-- The state and trace after the reactivation. -/
def wc4run2 : Graph × List Event :=
  match runOp wc4run1.1 (Op.activateOutput 1) with
  | some (.ok p) => p
  | _ => (wc4G, [])

/-- The state left by `destroy_connectors` of object 0 on the cyclic
graph `w5G`. -/
def w6res : Graph :=
  match destroyOp w5G 0 with
  | some (.ok (g', _)) => g'
  | _ => w5G

/-- Like `w7G`, but the existing upstream edge of Input 2 comes from the
other Output 3, so `connect(1, 2)` is not an identical duplicate. -/
def w7G2 : Graph :=
  { decls := w5decls
    outs := fun _ => { cache := none, dirty := true, active := true }
    edges := [⟨3, 2, 0⟩]
    objs := fun _ => { slots := [], multis := [] }
    destroyed := fun _ => false
    nextId := 1 }

/-- A two-object declaration table for the MultiInput witness: object 0 has
Output 1 (getter the constant 7), object 1 has MultiInput 2 with dependent
Output 3. -/
def w8decls : CId → Option ConnDecl := fun c =>
  if c = 1 then some ⟨0, Role.output, none, [], 0, fun _ => 7⟩
  else if c = 2 then some ⟨1, Role.multiInput, none, [3], 0, fun _ => 0⟩
  else if c = 3 then some ⟨1, Role.output, none, [], 0, fun _ => 0⟩
  else none

/-- A fresh runtime over `w8decls`. -/
def w8G : Graph := initGraph w8decls (fun _ => { slots := [], multis := [] })

/-- Connect Output 1 to MultiInput 2. -/
def w8ops : List Op := [Op.connect 1 2]

/-- The state and trace after the connect. -/
def w8res : Graph × List Event :=
  match run w8G w8ops with
  | some (.ok p) => p
  | _ => (w8G, [])

/-- The state and trace after disconnecting the edge again. -/
def w8dres : Graph × List Event :=
  match runOp w8res.1 (Op.disconnect 1 2) with
  | some (.ok p) => p
  | _ => (w8res.1, [])

/-- A fresh runtime over `w5decls` (no edges yet), used to witness the
connect delivery contract. -/
def w3G : Graph := initGraph w5decls (fun _ => { slots := [], multis := [] })

/-- The state and trace of `connect(1, 2)` on the fresh runtime. -/
def w3res : Graph × List Event :=
  match connectOp w3G 1 2 with
  | some (.ok p) => p
  | _ => (w3G, [])

/-- The state and trace after setting Input 0 on the fresh `wc4decls`
runtime (its dependent Output 1 has no outgoing edges and was never read,
so it is simply marked dirty). -/
def wc1res : Graph × List Event :=
  match run (initGraph wc4decls (fun _ => { slots := [], multis := [] }))
      [Op.setInput 0 5] with
  | some (.ok p) => p
  | _ => (initGraph wc4decls (fun _ => { slots := [], multis := [] }), [])

/-- Like the `wc4decls` runtime, but with a feedback edge from Output 1
back into Input 0 — a registry cycle the spec permits (§4.3 bounds a pass
on cycles with the visited-edge guard instead of forbidding them). -/
def wc4cG : Graph :=
  { decls := wc4decls
    outs := fun _ => { cache := none, dirty := true, active := true }
    edges := [⟨1, 0, 0⟩]
    objs := fun _ => { slots := [], multis := [] }
    destroyed := fun _ => false
    nextId := 1 }

/-- The state and trace of the deactivate–set–reactivate sequence on the
cyclic runtime. -/
def wc4cres : Graph × List Event :=
  match run wc4cG
      [Op.deactivateOutput 1, Op.setInput 0 5, Op.activateOutput 1] with
  | some (.ok p) => p
  | _ => (wc4cG, [])

end SuMPF

/-! ######################################################################
## Theorems
###################################################################### -/

namespace Connectors

/-- C2 counterexample: with `SUMPF_DISABLE_CONNECTORS=1` the switch is
active, yet `connect` (and hence the free-operation interface the claim
says remains available) is not among the names the module binds — the
disabled branch of `connectors.py` imports only the four role markers. -/
theorem c2_counterexample :
    disableSwitch [("SUMPF_DISABLE_CONNECTORS", "1")] = true ∧
    "connect" ∉ moduleExports [("SUMPF_DISABLE_CONNECTORS", "1")] := by
  decide

/-- C2 (amended): when the `SUMPF_DISABLE_CONNECTORS` switch is active, the
module binds exactly the four inert role markers `Input`, `Trigger`,
`MultiInput`, `Output`; none of the seven free operations is imported in
that mode, so they are unavailable rather than inert. -/
theorem c2_amended_disabled_exports (env : List (String × String))
    (h : disableSwitch env = true) :
    moduleExports env = ["Input", "Trigger", "MultiInput", "Output"] ∧
    ∀ f ∈ freeOperations, f ∉ moduleExports env := by
  constructor
  · simp [moduleExports, h]
  · intro f hf
    simp only [moduleExports, h, if_true]
    intro hmem
    fin_cases hf <;> simp_all

/-- Witness for C2 (amended) at the concrete environment
`SUMPF_DISABLE_CONNECTORS=1`. -/
theorem c2_amended_witness :
    disableSwitch [("SUMPF_DISABLE_CONNECTORS", "1")] = true ∧
    (moduleExports [("SUMPF_DISABLE_CONNECTORS", "1")]
        = ["Input", "Trigger", "MultiInput", "Output"] ∧
      ∀ f ∈ freeOperations, f ∉ moduleExports [("SUMPF_DISABLE_CONNECTORS", "1")]) :=
  ⟨by decide, c2_amended_disabled_exports _ (by decide)⟩

end Connectors

namespace ThieleSmall

/-- C9: `SetRegularization` leaves the stored regularization field (and the
warp frequency) unchanged and only sets the recalculation flag, so after
any sequence of `SetRegularization` calls the coefficient
`q = 1 - regularization` used by `_Recalculate` still reflects the value
passed to the constructor. -/
theorem c9_setRegularization_no_effect :
    ∀ (s : TSANState) (v : ℚ) (w r : ℚ) (vs : List ℚ),
      (SetRegularization s v).regularization = s.regularization ∧
      (SetRegularization s v).warp_frequency = s.warp_frequency ∧
      (SetRegularization s v).recalculate = true ∧
      (vs.foldl SetRegularization (init w r)).regularization = r ∧
      recalcQ (vs.foldl SetRegularization (init w r)) = 1 - r := by
  have key : ∀ (vs : List ℚ) (s : TSANState),
      (vs.foldl SetRegularization s).regularization = s.regularization := by
    intro vs
    induction vs with
    | nil => intro s; rfl
    | cons v vs ih => intro s; simpa [SetRegularization] using ih _
  intro s v w r vs
  refine ⟨rfl, rfl, rfl, ?_, ?_⟩
  · simp [key, init]
  · simp [recalcQ, key, init]

end ThieleSmall

namespace Noise

/-- C10: for every `length ≥ 2`, the white-, pink- and red-noise
distributions return exactly `2 * (length / 2)` samples — `length` samples
when `length` is even, `length - 1` when it is odd — instead of the
`length` samples the `Distribution.GetSamples` interface requests. -/
theorem c10_noise_sample_counts (length : Nat) (h : 2 ≤ length) :
    whiteNumSamples length = 2 * (length / 2) ∧
    pinkNumSamples length = 2 * (length / 2) ∧
    redNumSamples length = 2 * (length / 2) ∧
    (length % 2 = 0 → whiteNumSamples length = length ∧
      pinkNumSamples length = length ∧ redNumSamples length = length) ∧
    (length % 2 = 1 → whiteNumSamples length = length - 1 ∧
      pinkNumSamples length = length - 1 ∧ redNumSamples length = length - 1) := by
  unfold whiteNumSamples pinkNumSamples redNumSamples irfftLength
    whiteFlength pinkFlength redFlength
  omega

/-- Witness for C10 at the odd length 5: all three distributions return
4 samples. -/
theorem c10_witness :
    2 ≤ 5 ∧
    (whiteNumSamples 5 = 2 * (5 / 2) ∧
      pinkNumSamples 5 = 2 * (5 / 2) ∧
      redNumSamples 5 = 2 * (5 / 2) ∧
      (5 % 2 = 0 → whiteNumSamples 5 = 5 ∧ pinkNumSamples 5 = 5 ∧
        redNumSamples 5 = 5) ∧
      (5 % 2 = 1 → whiteNumSamples 5 = 5 - 1 ∧ pinkNumSamples 5 = 5 - 1 ∧
        redNumSamples 5 = 5 - 1)) :=
  ⟨by decide, c10_noise_sample_counts 5 (by decide)⟩

end Noise

namespace SuMPF

/-! ### Basic facts about the state helpers -/

theorem updOut_outs (g : Graph) (o : CId) (st : OutSt) (x : CId) :
    (updOut g o st).outs x = if x = o then st else g.outs x := rfl

theorem outEdges_eq_of_edges {g g' : Graph} (h : g'.edges = g.edges) (o : CId) :
    outEdges g' o = outEdges g o := by
  unfold outEdges; rw [h]

theorem depsOf_eq_of_decls {g g' : Graph} (h : g'.decls = g.decls) (c : CId) :
    depsOf g' c = depsOf g c := by
  unfold depsOf; rw [h]

theorem applyDeliver_frame (g : Graph) (e : Edge) (v : Val) :
    (applyDeliver g e v).edges = g.edges ∧ (applyDeliver g e v).decls = g.decls ∧
    (applyDeliver g e v).destroyed = g.destroyed ∧
    (applyDeliver g e v).nextId = g.nextId ∧
    (applyDeliver g e v).outs = g.outs := by
  unfold applyDeliver
  cases h : g.decls e.dst with
  | none => exact ⟨rfl, rfl, rfl, rfl, rfl⟩
  | some d =>
      obtain ⟨ow, ro, ty, dep, sl, ge⟩ := d
      cases ro <;> exact ⟨rfl, rfl, rfl, rfl, rfl⟩

/-! ### Frame properties of a propagation pass -/

theorem frameProps_rfl (g : Graph) (vis : List Nat) (evs : List Event) :
    FrameProps g vis evs (g, vis, evs) :=
  ⟨rfl, rfl, rfl, rfl, fun _ => rfl, List.prefix_rfl, fun _ hx => hx,
    fun _ _ h => h, fun _ h => Or.inl h⟩

theorem frameProps_trans {g g1 : Graph} {vis vis1 : List Nat}
    {evs evs1 : List Event} {r : Graph × List Nat × List Event}
    (h1 : FrameProps g vis evs (g1, vis1, evs1))
    (h2 : FrameProps g1 vis1 evs1 r) : FrameProps g vis evs r := by
  refine ⟨?_, ?_, ?_, ?_, ?_, ?_, ?_, ?_, ?_⟩
  · rw [h2.edges_eq]; exact h1.edges_eq
  · rw [h2.decls_eq]; exact h1.decls_eq
  · rw [h2.destroyed_eq]; exact h1.destroyed_eq
  · rw [h2.nextId_eq]; exact h1.nextId_eq
  · intro o; rw [h2.active_eq o]; exact h1.active_eq o
  · exact h1.evs_prefix.trans h2.evs_prefix
  · intro x hx; exact h2.vis_mono x (h1.vis_mono x hx)
  · intro o hact hdir
    exact h2.dirty_stable o (by rw [h1.active_eq o]; exact hact)
      (h1.dirty_stable o hact hdir)
  · intro o hmem
    rcases h2.getter_src o hmem with h | h
    · exact h1.getter_src o h
    · right
      refine ⟨by rw [← h1.active_eq o]; exact h.1, ?_⟩
      rw [← outEdges_eq_of_edges h1.edges_eq o]; exact h.2

theorem frameProps_fired_append {g : Graph} {vis : List Nat} {evs : List Event}
    {c : CId} {r : Graph × List Nat × List Event}
    (h : FrameProps g vis (evs ++ [Event.fired c]) r) : FrameProps g vis evs r := by
  refine ⟨h.edges_eq, h.decls_eq, h.destroyed_eq, h.nextId_eq, h.active_eq,
    (List.prefix_append evs [Event.fired c]).trans h.evs_prefix, h.vis_mono,
    h.dirty_stable, ?_⟩
  intro o hmem
  rcases h.getter_src o hmem with h' | h'
  · rcases List.mem_append.1 h' with h'' | h''
    · exact Or.inl h''
    · simp at h''
  · exact Or.inr h'

theorem frameProps_deliver_step (g : Graph) (vis : List Nat) (evs : List Event)
    (e : Edge) (v : Val) (eid : Nat) :
    FrameProps g vis evs
      (applyDeliver g e v, eid :: vis, evs ++ [Event.delivered eid]) := by
  obtain ⟨h1, h2, h3, h4, h5⟩ := applyDeliver_frame g e v
  refine ⟨h1, h2, h3, h4, fun o => by rw [h5], List.prefix_append _ _,
    fun x hx => List.mem_cons_of_mem _ hx, fun o _ hd => by rw [h5]; exact hd, ?_⟩
  intro o hmem
  rcases List.mem_append.1 hmem with h' | h'
  · exact Or.inl h'
  · simp at h'

theorem frameProps_markDirty (g : Graph) (vis : List Nat) (evs : List Event)
    (o : CId) : FrameProps g vis evs (markDirty g o, vis, evs) := by
  refine ⟨rfl, rfl, rfl, rfl, ?_, List.prefix_rfl, fun _ hx => hx, ?_,
    fun _ h => Or.inl h⟩
  · intro x
    by_cases hx : x = o <;> simp [markDirty, updOut, hx]
  · intro x _ hd
    by_cases hx : x = o <;> simp [markDirty, updOut, hx]
    exact hd

theorem frameProps_setCache_getter {g : Graph} (vis : List Nat) (evs : List Event)
    {o : CId} (v : Val) (hact : (g.outs o).active = true)
    (hedg : outEdges g o ≠ []) :
    FrameProps g vis evs (setCache g o v, vis, evs ++ [Event.getterCall o]) := by
  refine ⟨rfl, rfl, rfl, rfl, ?_, List.prefix_append _ _, fun _ hx => hx, ?_, ?_⟩
  · intro x
    by_cases hx : x = o <;> simp [setCache, updOut, hx]
  · intro x hxact hd
    by_cases hx : x = o
    · rw [hx] at hxact; rw [hxact] at hact; cases hact
    · simp [setCache, updOut, hx]; exact hd
  · intro x hmem
    rcases List.mem_append.1 hmem with h' | h'
    · exact Or.inl h'
    · simp at h'
      rw [h']
      exact Or.inr ⟨hact, hedg⟩

/-- The frame properties hold for every propagation pass, and every
dependent Output handed to `fireDeps` that is inactive ends the pass
dirty. -/
theorem fire_frame_all : ∀ fuel : Nat,
    (∀ g vis c evs r, fire fuel g vis c evs = some r → FrameProps g vis evs r) ∧
    (∀ g vis es v evs r, fireEdges fuel g vis es v evs = some r →
      FrameProps g vis evs r) ∧
    (∀ g vis os evs r, fireDeps fuel g vis os evs = some r →
      FrameProps g vis evs r ∧
      ∀ o ∈ os, (g.outs o).active = false → (r.1.outs o).dirty = true) := by
  intro fuel
  induction fuel with
  | zero =>
      have pfire : ∀ g vis c evs r, fire 0 g vis c evs = some r →
          FrameProps g vis evs r := by
        intro g vis c evs r h
        simp [fire] at h
      have pedges : ∀ g vis es v evs r, fireEdges 0 g vis es v evs = some r →
          FrameProps g vis evs r := by
        intro g vis es v evs r h
        induction es generalizing g vis evs with
        | nil =>
            simp only [fireEdges, Option.some.injEq] at h
            rw [← h]; exact frameProps_rfl g vis evs
        | cons e es ih =>
            rw [fireEdges] at h
            split at h
            · exact ih g vis evs h
            · simp [fire] at h
      have pdeps : ∀ g vis os evs r, fireDeps 0 g vis os evs = some r →
          FrameProps g vis evs r ∧
          ∀ o ∈ os, (g.outs o).active = false → (r.1.outs o).dirty = true := by
        intro g vis os evs r h
        induction os generalizing g vis evs with
        | nil =>
            simp only [fireDeps, Option.some.injEq] at h
            rw [← h]
            exact ⟨frameProps_rfl g vis evs, by simp⟩
        | cons o os ih =>
            rw [fireDeps] at h
            split at h
            · next hact =>
                split at h
                · next hedg =>
                    obtain ⟨hf, he⟩ := ih (markDirty g o) vis evs h
                    have step := frameProps_markDirty g vis evs o
                    refine ⟨frameProps_trans step hf, ?_⟩
                    intro x hx hxact
                    rcases List.mem_cons.1 hx with hxo | hxos
                    · rw [hxo] at hxact; rw [hxact] at hact; cases hact
                    · exact he x hxos ((step.active_eq x).trans hxact)
                · next e es hedg =>
                    cases hfe : fireEdges 0 (setCache g o (computeOutput g o)) vis
                        (outEdges g o) (computeOutput g o)
                        (evs ++ [Event.getterCall o]) with
                    | none => rw [hfe] at h; cases h
                    | some t =>
                        rw [hfe] at h
                        obtain ⟨g2, vis2, evs2⟩ := t
                        obtain ⟨hf, he⟩ := ih g2 vis2 evs2 h
                        have step := frameProps_setCache_getter vis evs
                          (computeOutput g o) hact (by rw [hedg]; simp)
                        have mid := pedges _ _ _ _ _ _ hfe
                        refine ⟨frameProps_trans step (frameProps_trans mid hf), ?_⟩
                        intro x hx hxact
                        rcases List.mem_cons.1 hx with hxo | hxos
                        · rw [hxo] at hxact; rw [hxact] at hact; cases hact
                        · exact he x hxos
                            ((mid.active_eq x).trans ((step.active_eq x).trans hxact))
            · next hact =>
                obtain ⟨hf, he⟩ := ih (markDirty g o) vis evs h
                have step := frameProps_markDirty g vis evs o
                refine ⟨frameProps_trans step hf, ?_⟩
                intro x hx hxact
                rcases List.mem_cons.1 hx with hxo | hxos
                · rw [hxo]
                  refine hf.dirty_stable o ((step.active_eq o).trans ?_) ?_
                  · rw [hxo] at hxact; exact hxact
                  · simp [markDirty, updOut]
                · exact he x hxos ((step.active_eq x).trans hxact)
      exact ⟨pfire, pedges, pdeps⟩
  | succ fuel ih =>
      obtain ⟨ihF, ihE, ihD⟩ := ih
      have pfire : ∀ g vis c evs r, fire (fuel + 1) g vis c evs = some r →
          FrameProps g vis evs r := by
        intro g vis c evs r h
        rw [fire] at h
        exact frameProps_fired_append (ihD _ _ _ _ _ h).1
      have pedges : ∀ g vis es v evs r, fireEdges (fuel + 1) g vis es v evs = some r →
          FrameProps g vis evs r := by
        intro g vis es v evs r h
        induction es generalizing g vis evs with
        | nil =>
            simp only [fireEdges, Option.some.injEq] at h
            rw [← h]; exact frameProps_rfl g vis evs
        | cons e es ihes =>
            rw [fireEdges] at h
            split at h
            · exact ihes g vis evs h
            · cases hf : fire (fuel + 1) (applyDeliver g e v) (e.eid :: vis) e.dst
                  (evs ++ [Event.delivered e.eid]) with
              | none => rw [hf] at h; cases h
              | some t =>
                  rw [hf] at h
                  obtain ⟨g1, vis1, evs1⟩ := t
                  have step := frameProps_deliver_step g vis evs e v e.eid
                  exact frameProps_trans step
                    (frameProps_trans (pfire _ _ _ _ _ hf) (ihes g1 vis1 evs1 h))
      have pdeps : ∀ g vis os evs r, fireDeps (fuel + 1) g vis os evs = some r →
          FrameProps g vis evs r ∧
          ∀ o ∈ os, (g.outs o).active = false → (r.1.outs o).dirty = true := by
        intro g vis os evs r h
        induction os generalizing g vis evs with
        | nil =>
            simp only [fireDeps, Option.some.injEq] at h
            rw [← h]
            exact ⟨frameProps_rfl g vis evs, by simp⟩
        | cons o os ihos =>
            rw [fireDeps] at h
            split at h
            · next hact =>
                split at h
                · next hedg =>
                    obtain ⟨hf, he⟩ := ihos (markDirty g o) vis evs h
                    have step := frameProps_markDirty g vis evs o
                    refine ⟨frameProps_trans step hf, ?_⟩
                    intro x hx hxact
                    rcases List.mem_cons.1 hx with hxo | hxos
                    · rw [hxo] at hxact; rw [hxact] at hact; cases hact
                    · exact he x hxos ((step.active_eq x).trans hxact)
                · next e es hedg =>
                    cases hfe : fireEdges (fuel + 1) (setCache g o (computeOutput g o))
                        vis (outEdges g o) (computeOutput g o)
                        (evs ++ [Event.getterCall o]) with
                    | none => rw [hfe] at h; cases h
                    | some t =>
                        rw [hfe] at h
                        obtain ⟨g2, vis2, evs2⟩ := t
                        obtain ⟨hf, he⟩ := ihos g2 vis2 evs2 h
                        have step := frameProps_setCache_getter vis evs
                          (computeOutput g o) hact (by rw [hedg]; simp)
                        have mid := pedges _ _ _ _ _ _ hfe
                        refine ⟨frameProps_trans step (frameProps_trans mid hf), ?_⟩
                        intro x hx hxact
                        rcases List.mem_cons.1 hx with hxo | hxos
                        · rw [hxo] at hxact; rw [hxact] at hact; cases hact
                        · exact he x hxos
                            ((mid.active_eq x).trans ((step.active_eq x).trans hxact))
            · next hact =>
                obtain ⟨hf, he⟩ := ihos (markDirty g o) vis evs h
                have step := frameProps_markDirty g vis evs o
                refine ⟨frameProps_trans step hf, ?_⟩
                intro x hx hxact
                rcases List.mem_cons.1 hx with hxo | hxos
                · rw [hxo]
                  refine hf.dirty_stable o ((step.active_eq o).trans ?_) ?_
                  · rw [hxo] at hxact; exact hxact
                  · simp [markDirty, updOut]
                · exact he x hxos ((step.active_eq x).trans hxact)
      exact ⟨pfire, pedges, pdeps⟩

/-! ### Sufficiency of the pass fuel -/

theorem countUnvis_subset {vis vis' : List Nat} (h : ∀ x ∈ vis, x ∈ vis') :
    ∀ l : List Edge, countUnvis l vis' ≤ countUnvis l vis := by
  intro l
  induction l with
  | nil => exact Nat.le_refl _
  | cons e es ih =>
      unfold countUnvis
      by_cases he : e.eid ∈ vis
      · rw [if_pos he, if_pos (h _ he)]; omega
      · by_cases he' : e.eid ∈ vis'
        · rw [if_pos he', if_neg he]; omega
        · rw [if_neg he', if_neg he]; omega

theorem countUnvis_insert_lt {e : Edge} {vis : List Nat} :
    ∀ l : List Edge, e ∈ l → e.eid ∉ vis →
      countUnvis l (e.eid :: vis) < countUnvis l vis := by
  intro l
  induction l with
  | nil => intro h _; cases h
  | cons f fs ih =>
      intro hmem hv
      have hmono : countUnvis fs (e.eid :: vis) ≤ countUnvis fs vis :=
        countUnvis_subset (fun x hx => List.mem_cons_of_mem _ hx) fs
      unfold countUnvis
      rcases List.mem_cons.1 hmem with hef | hef
      · rw [← hef, if_pos (List.mem_cons_self _ _), if_neg hv]
        omega
      · by_cases hf : f.eid ∈ vis
        · rw [if_pos hf, if_pos (List.mem_cons_of_mem _ hf)]
          have := ih hef hv
          omega
        · rw [if_neg hf]
          by_cases hfe : f.eid = e.eid
          · rw [if_pos (by rw [hfe]; exact List.mem_cons_self _ _)]
            omega
          · rw [if_neg (by simp [List.mem_cons, hfe, hf])]
            have := ih hef hv
            omega

theorem countUnvis_eq_zero {vis : List Nat} :
    ∀ l : List Edge, countUnvis l vis = 0 → ∀ e ∈ l, e.eid ∈ vis := by
  intro l
  induction l with
  | nil => intro _ e he; cases he
  | cons f fs ih =>
      intro h e he
      unfold countUnvis at h
      by_cases hf : f.eid ∈ vis
      · rw [if_pos hf] at h
        rcases List.mem_cons.1 he with rfl | he'
        · exact hf
        · exact ih (by omega) e he'
      · rw [if_neg hf] at h
        omega

theorem outEdges_subset (g : Graph) (o : CId) : ∀ e ∈ outEdges g o, e ∈ g.edges := by
  intro e he
  exact (List.mem_filter.1 he).1

/-- Fuel sufficiency: a pass whose fuel exceeds the number of unvisited
edges always returns (the cycle guard bounds the recursion). -/
theorem fire_sufficient_all : ∀ fuel : Nat,
    (∀ g vis c evs, countUnvis g.edges vis < fuel →
      (fire fuel g vis c evs).isSome = true) ∧
    (∀ g vis es v evs, countUnvis g.edges vis ≤ fuel →
      (∀ e ∈ es, e ∈ g.edges) → (fireEdges fuel g vis es v evs).isSome = true) ∧
    (∀ g vis os evs, countUnvis g.edges vis ≤ fuel →
      (fireDeps fuel g vis os evs).isSome = true) := by
  intro fuel
  induction fuel with
  | zero =>
      have pedges : ∀ g vis es v evs, countUnvis g.edges vis ≤ 0 →
          (∀ e ∈ es, e ∈ g.edges) → (fireEdges 0 g vis es v evs).isSome = true := by
        intro g vis es v evs hc hes
        induction es with
        | nil => simp [fireEdges]
        | cons e es ih =>
            have hmem : e.eid ∈ vis :=
              countUnvis_eq_zero g.edges (Nat.le_zero.1 hc) e (hes e (List.mem_cons_self _ _))
            rw [fireEdges, if_pos hmem]
            exact ih (fun f hf => hes f (List.mem_cons_of_mem _ hf))
      have pdeps : ∀ g vis os evs, countUnvis g.edges vis ≤ 0 →
          (fireDeps 0 g vis os evs).isSome = true := by
        intro g vis os evs hc
        induction os generalizing g vis evs with
        | nil => simp [fireDeps]
        | cons o os ih =>
            rw [fireDeps]
            split
            · next hact =>
                split
                · next hedg => exact ih (markDirty g o) vis evs hc
                · next e es hedg =>
                    have hfe := pedges (setCache g o (computeOutput g o)) vis
                      (outEdges g o) (computeOutput g o) (evs ++ [Event.getterCall o])
                      hc (outEdges_subset g o)
                    cases hfes : fireEdges 0 (setCache g o (computeOutput g o)) vis
                        (outEdges g o) (computeOutput g o)
                        (evs ++ [Event.getterCall o]) with
                    | none => rw [hfes] at hfe; cases hfe
                    | some t =>
                        obtain ⟨g2, vis2, evs2⟩ := t
                        have hfr := (fire_frame_all 0).2.1 _ _ _ _ _ _ hfes
                        have hle : countUnvis g2.edges vis2 ≤ 0 := by
                          rw [hfr.edges_eq]
                          calc countUnvis g.edges vis2
                              ≤ countUnvis g.edges vis :=
                                countUnvis_subset hfr.vis_mono g.edges
                            _ ≤ 0 := hc
                        simpa [hfes] using ih g2 vis2 evs2 hle
            · next hact => exact ih (markDirty g o) vis evs hc
      exact ⟨fun g vis c evs hc => absurd hc (Nat.not_lt_zero _), pedges, pdeps⟩
  | succ fuel ih =>
      obtain ⟨ihF, ihE, ihD⟩ := ih
      have pfire : ∀ g vis c evs, countUnvis g.edges vis < fuel + 1 →
          (fire (fuel + 1) g vis c evs).isSome = true := by
        intro g vis c evs hc
        rw [fire]
        exact ihD g vis (depsOf g c) (evs ++ [Event.fired c]) (Nat.lt_succ_iff.1 hc)
      have pedges : ∀ g vis es v evs, countUnvis g.edges vis ≤ fuel + 1 →
          (∀ e ∈ es, e ∈ g.edges) →
          (fireEdges (fuel + 1) g vis es v evs).isSome = true := by
        intro g vis es v evs hc hes
        induction es generalizing g vis evs with
        | nil => simp [fireEdges]
        | cons e es ihes =>
            rw [fireEdges]
            split
            · next hmem =>
                exact ihes g vis evs hc (fun f hf => hes f (List.mem_cons_of_mem _ hf))
            · next hmem =>
                have hdel := applyDeliver_frame g e v
                have hlt : countUnvis (applyDeliver g e v).edges (e.eid :: vis)
                    < fuel + 1 := by
                  rw [hdel.1]
                  calc countUnvis g.edges (e.eid :: vis)
                      < countUnvis g.edges vis :=
                        countUnvis_insert_lt g.edges (hes e (List.mem_cons_self _ _)) hmem
                    _ ≤ fuel + 1 := hc
                have hsome := pfire (applyDeliver g e v) (e.eid :: vis) e.dst
                  (evs ++ [Event.delivered e.eid]) hlt
                cases hf : fire (fuel + 1) (applyDeliver g e v) (e.eid :: vis) e.dst
                    (evs ++ [Event.delivered e.eid]) with
                | none => rw [hf] at hsome; cases hsome
                | some t =>
                    obtain ⟨g1, vis1, evs1⟩ := t
                    have hfr := (fire_frame_all (fuel + 1)).1 _ _ _ _ _ hf
                    have hle : countUnvis g1.edges vis1 ≤ fuel + 1 := by
                      rw [hfr.edges_eq, hdel.1]
                      have h1 : countUnvis g.edges vis1
                          ≤ countUnvis g.edges (e.eid :: vis) :=
                        countUnvis_subset hfr.vis_mono g.edges
                      have h2 : countUnvis g.edges (e.eid :: vis)
                          < countUnvis g.edges vis :=
                        countUnvis_insert_lt g.edges (hes e (List.mem_cons_self _ _)) hmem
                      omega
                    have hes' : ∀ f ∈ es, f ∈ g1.edges := by
                      intro f hf'
                      rw [hfr.edges_eq, hdel.1]
                      exact hes f (List.mem_cons_of_mem _ hf')
                    simpa [hf] using ihes g1 vis1 evs1 hle hes'
      have pdeps : ∀ g vis os evs, countUnvis g.edges vis ≤ fuel + 1 →
          (fireDeps (fuel + 1) g vis os evs).isSome = true := by
        intro g vis os evs hc
        induction os generalizing g vis evs with
        | nil => simp [fireDeps]
        | cons o os ihos =>
            rw [fireDeps]
            split
            · next hact =>
                split
                · next hedg => exact ihos (markDirty g o) vis evs hc
                · next e es hedg =>
                    have hfe := pedges (setCache g o (computeOutput g o)) vis
                      (outEdges g o) (computeOutput g o) (evs ++ [Event.getterCall o])
                      hc (outEdges_subset g o)
                    cases hfes : fireEdges (fuel + 1) (setCache g o (computeOutput g o))
                        vis (outEdges g o) (computeOutput g o)
                        (evs ++ [Event.getterCall o]) with
                    | none => rw [hfes] at hfe; cases hfe
                    | some t =>
                        obtain ⟨g2, vis2, evs2⟩ := t
                        have hfr := (fire_frame_all (fuel + 1)).2.1 _ _ _ _ _ _ hfes
                        have hle : countUnvis g2.edges vis2 ≤ fuel + 1 := by
                          rw [hfr.edges_eq]
                          calc countUnvis g.edges vis2
                              ≤ countUnvis g.edges vis :=
                                countUnvis_subset hfr.vis_mono g.edges
                            _ ≤ fuel + 1 := hc
                        simpa [hfes] using ihos g2 vis2 evs2 hle
            · next hact => exact ihos (markDirty g o) vis evs hc
      exact ⟨pfire, pedges, pdeps⟩


/-! ### Delivery counting for a propagation pass -/

theorem countD_append (evs1 evs2 : List Event) (eid : Nat) :
    countD (evs1 ++ evs2) eid = countD evs1 eid + countD evs2 eid := by
  simp [countD, List.filter_append]

theorem deliveredTotal_append (evs1 evs2 : List Event) :
    deliveredTotal (evs1 ++ evs2) = deliveredTotal evs1 + deliveredTotal evs2 := by
  simp [deliveredTotal, List.filter_append]

theorem countD_fired (c : CId) (eid : Nat) : countD [Event.fired c] eid = 0 := by
  simp [countD]

theorem countD_getter (o : CId) (eid : Nat) : countD [Event.getterCall o] eid = 0 := by
  simp [countD]

theorem countD_delivered (x eid : Nat) :
    countD [Event.delivered x] eid = if x = eid then 1 else 0 := by
  by_cases h : x = eid <;> simp [countD, h]

theorem deliveredTotal_fired (c : CId) : deliveredTotal [Event.fired c] = 0 := by
  simp [deliveredTotal, isDelivered]

theorem deliveredTotal_getter (o : CId) : deliveredTotal [Event.getterCall o] = 0 := by
  simp [deliveredTotal, isDelivered]

theorem deliveredTotal_delivered (x : Nat) :
    deliveredTotal [Event.delivered x] = 1 := by
  simp [deliveredTotal, isDelivered]

theorem countD_prefix_le {evs evs' : List Event} (h : evs <+: evs') (eid : Nat) :
    countD evs eid ≤ countD evs' eid := by
  obtain ⟨t, rfl⟩ := h
  rw [countD_append]
  omega

theorem firedProv_mono {g g1 : Graph} {evs1 evs2 : List Event} {eid : Nat}
    (hE : g1.edges = g.edges) (hD : g1.decls = g.decls)
    (hsub : ∀ ev ∈ evs1, ev ∈ evs2) :
    FiredProv g1 evs1 eid → FiredProv g evs2 eid := by
  rintro ⟨e, he, heid, c, hc, hdep⟩
  refine ⟨e, by rw [← hE]; exact he, heid, c, hsub _ hc, ?_⟩
  rw [← depsOf_eq_of_decls hD]
  exact hdep

theorem outEdges_src {g : Graph} {o : CId} {e : Edge} (h : e ∈ outEdges g o) :
    e.src = o := by
  have := (List.mem_filter.1 h).2
  exact eq_of_beq this

theorem deliverProps_refl (g : Graph) (vis : List Nat) (evs : List Event) :
    DeliverProps g vis evs (g, vis, evs) :=
  ⟨fun _ _ => rfl, fun _ _ => Nat.le_succ _, fun _ h => absurd h (lt_irrefl _),
    Nat.le_refl _⟩

theorem deliverProps_congr_graph {g g' : Graph} {vis : List Nat}
    {evs : List Event} {r : Graph × List Nat × List Event}
    (h : DeliverProps g' vis evs r) (hE : g'.edges = g.edges) :
    DeliverProps g vis evs r := by
  refine ⟨h.visited_stable, h.at_most_one, h.new_in_vis, ?_⟩
  have := h.total_bound
  rw [hE] at this
  exact this

theorem deliverProps_trans {g g1 : Graph} {vis vis1 : List Nat}
    {evs evs1 : List Event} {r : Graph × List Nat × List Event}
    (f1 : FrameProps g vis evs (g1, vis1, evs1))
    (f2 : FrameProps g1 vis1 evs1 r)
    (d1 : DeliverProps g vis evs (g1, vis1, evs1))
    (d2 : DeliverProps g1 vis1 evs1 r) :
    DeliverProps g vis evs r := by
  refine ⟨?_, ?_, ?_, ?_⟩
  · intro eid hv
    rw [d2.visited_stable eid (f1.vis_mono eid hv), d1.visited_stable eid hv]
  · intro eid hv
    by_cases h1 : countD evs eid < countD evs1 eid
    · have hvis1 : eid ∈ vis1 := d1.new_in_vis eid h1
      rw [d2.visited_stable eid hvis1]
      exact d1.at_most_one eid hv
    · have heq : countD evs1 eid = countD evs eid :=
        Nat.le_antisymm (Nat.not_lt.1 h1) (countD_prefix_le f1.evs_prefix eid)
      by_cases hvis1 : eid ∈ vis1
      · rw [d2.visited_stable eid hvis1, heq]
        omega
      · have := d2.at_most_one eid hvis1
        omega
  · intro eid hgr
    by_cases h1 : countD evs1 eid < countD r.2.2 eid
    · exact d2.new_in_vis eid h1
    · have : countD evs eid < countD evs1 eid := by
        have := countD_prefix_le f2.evs_prefix eid
        omega
      exact f2.vis_mono eid (d1.new_in_vis eid this)
  · have t1 := d1.total_bound
    have t2 := d2.total_bound
    have hE : g1.edges = g.edges := f1.edges_eq
    dsimp only at t1 t2
    rw [hE] at t2
    omega


theorem deliverProps_congr_evs {g : Graph} {vis : List Nat}
    {evs1 evs0 : List Event} {r : Graph × List Nat × List Event}
    (h : DeliverProps g vis evs1 r)
    (hc : ∀ eid, countD evs1 eid = countD evs0 eid)
    (ht : deliveredTotal evs1 = deliveredTotal evs0) :
    DeliverProps g vis evs0 r := by
  refine ⟨?_, ?_, ?_, ?_⟩
  · intro eid hv; rw [← hc eid]; exact h.visited_stable eid hv
  · intro eid hv; rw [← hc eid]; exact h.at_most_one eid hv
  · intro eid hgr; exact h.new_in_vis eid (by rw [hc eid]; exact hgr)
  · rw [← ht]; exact h.total_bound

theorem deliverProps_deliver_step {g : Graph} {vis : List Nat}
    {evs : List Event} {e : Edge} (v : Val) (he : e ∈ g.edges)
    (hv : e.eid ∉ vis) :
    DeliverProps g vis evs
      (applyDeliver g e v, e.eid :: vis, evs ++ [Event.delivered e.eid]) := by
  refine ⟨?_, ?_, ?_, ?_⟩
  · intro eid hvis
    rw [countD_append, countD_delivered]
    have : e.eid ≠ eid := fun hcon => hv (hcon ▸ hvis)
    rw [if_neg this]
    omega
  · intro eid _
    rw [countD_append, countD_delivered]
    split <;> omega
  · intro eid hgr
    rw [countD_append, countD_delivered] at hgr
    by_cases hx : e.eid = eid
    · rw [hx]; exact List.mem_cons_self _ _
    · rw [if_neg hx] at hgr; omega
  · dsimp only
    rw [deliveredTotal_append, deliveredTotal_delivered]
    have := countUnvis_insert_lt g.edges he hv
    omega

/-- Delivery counting and provenance for every propagation pass: each pass
delivers along a visited edge never, along an unvisited edge at most once;
its total deliveries are bounded by the unvisited edges; and every new
delivery is along a registered edge whose source is a dependent of a
connector that fired in the pass. -/
theorem fire_deliver_all : ∀ fuel : Nat,
    (∀ g vis c evs r, fire fuel g vis c evs = some r →
      DeliverProps g vis evs r ∧
      (∀ eid, countD evs eid < countD r.2.2 eid → FiredProv g r.2.2 eid)) ∧
    (∀ g vis es v evs r, fireEdges fuel g vis es v evs = some r →
      (∀ e ∈ es, e ∈ g.edges) →
      DeliverProps g vis evs r ∧
      (∀ eid, countD evs eid < countD r.2.2 eid →
        (∃ e ∈ es, e.eid = eid) ∨ FiredProv g r.2.2 eid)) ∧
    (∀ g vis os evs r, fireDeps fuel g vis os evs = some r →
      DeliverProps g vis evs r ∧
      (∀ eid, countD evs eid < countD r.2.2 eid →
        (∃ o ∈ os, ∃ e ∈ outEdges g o, e.eid = eid) ∨ FiredProv g r.2.2 eid)) := by
  intro fuel
  induction fuel with
  | zero =>
      have pfire : ∀ g vis c evs r, fire 0 g vis c evs = some r →
          DeliverProps g vis evs r ∧
          (∀ eid, countD evs eid < countD r.2.2 eid → FiredProv g r.2.2 eid) := by
        intro g vis c evs r h
        simp [fire] at h
      have pedges : ∀ g vis es v evs r, fireEdges 0 g vis es v evs = some r →
          (∀ e ∈ es, e ∈ g.edges) →
          DeliverProps g vis evs r ∧
          (∀ eid, countD evs eid < countD r.2.2 eid →
            (∃ e ∈ es, e.eid = eid) ∨ FiredProv g r.2.2 eid) := by
        intro g vis es v evs r h hes
        induction es generalizing g vis evs with
        | nil =>
            simp only [fireEdges, Option.some.injEq] at h
            rw [← h]
            exact ⟨deliverProps_refl g vis evs, fun eid hgr => absurd hgr (lt_irrefl _)⟩
        | cons e es ih =>
            rw [fireEdges] at h
            split at h
            · obtain ⟨hd, hp⟩ := ih g vis evs h
                (fun f hf => hes f (List.mem_cons_of_mem _ hf))
              refine ⟨hd, fun eid hgr => ?_⟩
              rcases hp eid hgr with ⟨f, hf, hfe⟩ | hprov
              · exact Or.inl ⟨f, List.mem_cons_of_mem _ hf, hfe⟩
              · exact Or.inr hprov
            · simp [fire] at h
      have pdeps : ∀ g vis os evs r, fireDeps 0 g vis os evs = some r →
          DeliverProps g vis evs r ∧
          (∀ eid, countD evs eid < countD r.2.2 eid →
            (∃ o ∈ os, ∃ e ∈ outEdges g o, e.eid = eid) ∨ FiredProv g r.2.2 eid) := by
        intro g vis os evs r h
        induction os generalizing g vis evs with
        | nil =>
            simp only [fireDeps, Option.some.injEq] at h
            rw [← h]
            exact ⟨deliverProps_refl g vis evs, fun eid hgr => absurd hgr (lt_irrefl _)⟩
        | cons o os ih =>
            rw [fireDeps] at h
            split at h
            · next hact =>
                split at h
                · next hedg =>
                    obtain ⟨hd, hp⟩ := ih (markDirty g o) vis evs h
                    refine ⟨deliverProps_congr_graph hd rfl, fun eid hgr => ?_⟩
                    rcases hp eid hgr with ⟨o', ho', he⟩ | hprov
                    · exact Or.inl ⟨o', List.mem_cons_of_mem _ ho', he⟩
                    · exact Or.inr hprov
                · next e es hedg =>
                    cases hfe : fireEdges 0 (setCache g o (computeOutput g o)) vis
                        (outEdges g o) (computeOutput g o)
                        (evs ++ [Event.getterCall o]) with
                    | none => rw [hfe] at h; cases h
                    | some t =>
                        rw [hfe] at h
                        obtain ⟨g2, vis2, evs2⟩ := t
                        obtain ⟨hdB, hpB⟩ := pedges _ _ _ _ _ _ hfe (outEdges_subset g o)
                        obtain ⟨hdC, hpC⟩ := ih g2 vis2 evs2 h
                        have fB := (fire_frame_all 0).2.1 _ _ _ _ _ _ hfe
                        have fC := ((fire_frame_all 0).2.2 _ _ _ _ _ h).1
                        have stepF := frameProps_setCache_getter vis evs
                          (computeOutput g o) hact (by rw [hedg]; simp)
                        have hdB' : DeliverProps g vis evs (g2, vis2, evs2) :=
                          deliverProps_congr_evs (deliverProps_congr_graph hdB rfl)
                            (fun eid => by rw [countD_append, countD_getter]; omega)
                            (by rw [deliveredTotal_append, deliveredTotal_getter]; omega)
                        have fB' : FrameProps g vis evs (g2, vis2, evs2) :=
                          frameProps_trans stepF fB
                        have hE2 : g2.edges = g.edges := fB'.edges_eq
                        have hD2 : g2.decls = g.decls := fB'.decls_eq
                        refine ⟨deliverProps_trans fB' fC hdB' hdC, fun eid hgr => ?_⟩
                        by_cases hmid : countD evs2 eid < countD r.2.2 eid
                        · rcases hpC eid hmid with ⟨o', ho', f, hf, hfid⟩ | hprov
                          · refine Or.inl ⟨o', List.mem_cons_of_mem _ ho', f, ?_, hfid⟩
                            rw [← outEdges_eq_of_edges hE2 o']
                            exact hf
                          · exact Or.inr (firedProv_mono hE2 hD2 (fun ev hev => hev) hprov)
                        · have hgrB : countD (evs ++ [Event.getterCall o]) eid
                              < countD evs2 eid := by
                            rw [countD_append, countD_getter]
                            have := countD_prefix_le fC.evs_prefix eid
                            omega
                          rcases hpB eid hgrB with ⟨f, hf, hfid⟩ | hprov
                          · exact Or.inl ⟨o, List.mem_cons_self _ _, f, hf, hfid⟩
                          · exact Or.inr (firedProv_mono rfl rfl
                              (fun ev hev => fC.evs_prefix.subset hev) hprov)
            · next hact =>
                obtain ⟨hd, hp⟩ := ih (markDirty g o) vis evs h
                refine ⟨deliverProps_congr_graph hd rfl, fun eid hgr => ?_⟩
                rcases hp eid hgr with ⟨o', ho', he⟩ | hprov
                · exact Or.inl ⟨o', List.mem_cons_of_mem _ ho', he⟩
                · exact Or.inr hprov
      exact ⟨pfire, pedges, pdeps⟩
  | succ fuel ih =>
      obtain ⟨ihF, ihE, ihD⟩ := ih
      have pfire : ∀ g vis c evs r, fire (fuel + 1) g vis c evs = some r →
          DeliverProps g vis evs r ∧
          (∀ eid, countD evs eid < countD r.2.2 eid → FiredProv g r.2.2 eid) := by
        intro g vis c evs r h
        rw [fire] at h
        obtain ⟨hd, hp⟩ := ihD _ _ _ _ _ h
        have fD := ((fire_frame_all fuel).2.2 _ _ _ _ _ h).1
        refine ⟨deliverProps_congr_evs hd
          (fun eid => by rw [countD_append, countD_fired]; omega)
          (by rw [deliveredTotal_append, deliveredTotal_fired]; omega), fun eid hgr => ?_⟩
        have hgr' : countD (evs ++ [Event.fired c]) eid < countD r.2.2 eid := by
          rw [countD_append, countD_fired]
          omega
        rcases hp eid hgr' with ⟨o', ho', f, hf, hfid⟩ | hprov
        · refine ⟨f, outEdges_subset g o' f hf, hfid, c, ?_, ?_⟩
          · exact fD.evs_prefix.subset (by simp)
          · rw [outEdges_src hf]; exact ho'
        · exact hprov
      have pedges : ∀ g vis es v evs r, fireEdges (fuel + 1) g vis es v evs = some r →
          (∀ e ∈ es, e ∈ g.edges) →
          DeliverProps g vis evs r ∧
          (∀ eid, countD evs eid < countD r.2.2 eid →
            (∃ e ∈ es, e.eid = eid) ∨ FiredProv g r.2.2 eid) := by
        intro g vis es v evs r h hes
        induction es generalizing g vis evs with
        | nil =>
            simp only [fireEdges, Option.some.injEq] at h
            rw [← h]
            exact ⟨deliverProps_refl g vis evs, fun eid hgr => absurd hgr (lt_irrefl _)⟩
        | cons e es ihes =>
            rw [fireEdges] at h
            split at h
            · obtain ⟨hd, hp⟩ := ihes g vis evs h
                (fun f hf => hes f (List.mem_cons_of_mem _ hf))
              refine ⟨hd, fun eid hgr => ?_⟩
              rcases hp eid hgr with ⟨f, hf, hfe⟩ | hprov
              · exact Or.inl ⟨f, List.mem_cons_of_mem _ hf, hfe⟩
              · exact Or.inr hprov
            · next hv =>
                cases hf : fire (fuel + 1) (applyDeliver g e v) (e.eid :: vis) e.dst
                    (evs ++ [Event.delivered e.eid]) with
                | none => rw [hf] at h; cases h
                | some t =>
                    rw [hf] at h
                    obtain ⟨g1, vis1, evs1⟩ := t
                    have hein : e ∈ g.edges := hes e (List.mem_cons_self _ _)
                    have stepD : DeliverProps g vis evs (applyDeliver g e v,
                        e.eid :: vis, evs ++ [Event.delivered e.eid]) :=
                      deliverProps_deliver_step v hein hv
                    have stepF := frameProps_deliver_step g vis evs e v e.eid
                    obtain ⟨hdB, hpB⟩ := pfire _ _ _ _ _ hf
                    have fB := (fire_frame_all (fuel + 1)).1 _ _ _ _ _ hf
                    have hE1 : g1.edges = g.edges :=
                      fB.edges_eq.trans (applyDeliver_frame g e v).1
                    have hD1 : g1.decls = g.decls :=
                      fB.decls_eq.trans (applyDeliver_frame g e v).2.1
                    obtain ⟨hdC, hpC⟩ := ihes g1 vis1 evs1 h
                      (fun f hf' => by rw [hE1]; exact hes f (List.mem_cons_of_mem _ hf'))
                    have fC := (fire_frame_all (fuel + 1)).2.1 _ _ _ _ _ _ h
                    have fBfull : FrameProps g vis evs (g1, vis1, evs1) :=
                      frameProps_trans stepF fB
                    have hdBfull : DeliverProps g vis evs (g1, vis1, evs1) :=
                      deliverProps_trans stepF fB stepD hdB
                    refine ⟨deliverProps_trans fBfull fC hdBfull hdC, fun eid hgr => ?_⟩
                    by_cases hmid : countD evs1 eid < countD r.2.2 eid
                    · rcases hpC eid hmid with ⟨f, hfmem, hfe⟩ | hprov
                      · exact Or.inl ⟨f, List.mem_cons_of_mem _ hfmem, hfe⟩
                      · exact Or.inr (firedProv_mono hE1 hD1 (fun ev hev => hev) hprov)
                    · by_cases hdel : countD (evs ++ [Event.delivered e.eid]) eid
                          < countD evs1 eid
                      · rcases hpB eid hdel with hprov
                        exact Or.inr (firedProv_mono
                          ((applyDeliver_frame g e v).1) ((applyDeliver_frame g e v).2.1)
                          (fun ev hev => fC.evs_prefix.subset hev) hprov)
                      · have h1 : countD evs1 eid ≤ countD r.2.2 eid :=
                          countD_prefix_le fC.evs_prefix eid
                        have h2 : countD (evs ++ [Event.delivered e.eid]) eid
                            ≤ countD evs1 eid := countD_prefix_le fB.evs_prefix eid
                        rw [countD_append, countD_delivered] at hdel
                        by_cases hx : e.eid = eid
                        · exact Or.inl ⟨e, List.mem_cons_self _ _, hx⟩
                        · rw [if_neg hx] at hdel
                          rw [countD_append, countD_delivered, if_neg hx] at h2
                          omega
      have pdeps : ∀ g vis os evs r, fireDeps (fuel + 1) g vis os evs = some r →
          DeliverProps g vis evs r ∧
          (∀ eid, countD evs eid < countD r.2.2 eid →
            (∃ o ∈ os, ∃ e ∈ outEdges g o, e.eid = eid) ∨ FiredProv g r.2.2 eid) := by
        intro g vis os evs r h
        induction os generalizing g vis evs with
        | nil =>
            simp only [fireDeps, Option.some.injEq] at h
            rw [← h]
            exact ⟨deliverProps_refl g vis evs, fun eid hgr => absurd hgr (lt_irrefl _)⟩
        | cons o os ih2 =>
            rw [fireDeps] at h
            split at h
            · next hact =>
                split at h
                · next hedg =>
                    obtain ⟨hd, hp⟩ := ih2 (markDirty g o) vis evs h
                    refine ⟨deliverProps_congr_graph hd rfl, fun eid hgr => ?_⟩
                    rcases hp eid hgr with ⟨o', ho', he⟩ | hprov
                    · exact Or.inl ⟨o', List.mem_cons_of_mem _ ho', he⟩
                    · exact Or.inr hprov
                · next e es hedg =>
                    cases hfe : fireEdges (fuel + 1) (setCache g o (computeOutput g o))
                        vis (outEdges g o) (computeOutput g o)
                        (evs ++ [Event.getterCall o]) with
                    | none => rw [hfe] at h; cases h
                    | some t =>
                        rw [hfe] at h
                        obtain ⟨g2, vis2, evs2⟩ := t
                        obtain ⟨hdB, hpB⟩ := pedges _ _ _ _ _ _ hfe (outEdges_subset g o)
                        obtain ⟨hdC, hpC⟩ := ih2 g2 vis2 evs2 h
                        have fB := (fire_frame_all (fuel + 1)).2.1 _ _ _ _ _ _ hfe
                        have fC := ((fire_frame_all (fuel + 1)).2.2 _ _ _ _ _ h).1
                        have stepF := frameProps_setCache_getter vis evs
                          (computeOutput g o) hact (by rw [hedg]; simp)
                        have hdB' : DeliverProps g vis evs (g2, vis2, evs2) :=
                          deliverProps_congr_evs (deliverProps_congr_graph hdB rfl)
                            (fun eid => by rw [countD_append, countD_getter]; omega)
                            (by rw [deliveredTotal_append, deliveredTotal_getter]; omega)
                        have fB' : FrameProps g vis evs (g2, vis2, evs2) :=
                          frameProps_trans stepF fB
                        have hE2 : g2.edges = g.edges := fB'.edges_eq
                        have hD2 : g2.decls = g.decls := fB'.decls_eq
                        refine ⟨deliverProps_trans fB' fC hdB' hdC, fun eid hgr => ?_⟩
                        by_cases hmid : countD evs2 eid < countD r.2.2 eid
                        · rcases hpC eid hmid with ⟨o', ho', f, hf, hfid⟩ | hprov
                          · refine Or.inl ⟨o', List.mem_cons_of_mem _ ho', f, ?_, hfid⟩
                            rw [← outEdges_eq_of_edges hE2 o']
                            exact hf
                          · exact Or.inr (firedProv_mono hE2 hD2 (fun ev hev => hev) hprov)
                        · have hgrB : countD (evs ++ [Event.getterCall o]) eid
                              < countD evs2 eid := by
                            rw [countD_append, countD_getter]
                            have := countD_prefix_le fC.evs_prefix eid
                            omega
                          rcases hpB eid hgrB with ⟨f, hf, hfid⟩ | hprov
                          · exact Or.inl ⟨o, List.mem_cons_self _ _, f, hf, hfid⟩
                          · exact Or.inr (firedProv_mono rfl rfl
                              (fun ev hev => fC.evs_prefix.subset hev) hprov)
            · next hact =>
                obtain ⟨hd, hp⟩ := ih2 (markDirty g o) vis evs h
                refine ⟨deliverProps_congr_graph hd rfl, fun eid hgr => ?_⟩
                rcases hp eid hgr with ⟨o', ho', he⟩ | hprov
                · exact Or.inl ⟨o', List.mem_cons_of_mem _ ho', he⟩
                · exact Or.inr hprov
      exact ⟨pfire, pedges, pdeps⟩


/-! ### Totality of the operations (claim C5) -/

theorem countUnvis_le_length : ∀ (l : List Edge) (vis : List Nat),
    countUnvis l vis ≤ l.length := by
  intro l vis
  induction l with
  | nil => exact Nat.le_refl _
  | cons e es ih =>
      unfold countUnvis
      split <;> simp only [List.length_cons] <;> omega

theorem fire_pass_isSome (g : Graph) (vis : List Nat) (c : CId) (evs : List Event) :
    (fire (passFuel g) g vis c evs).isSome = true := by
  apply (fire_sufficient_all (passFuel g)).1
  have := countUnvis_le_length g.edges vis
  unfold passFuel
  omega

theorem fireEdges_pass_isSome (g : Graph) (vis : List Nat) (es : List Edge)
    (v : Val) (evs : List Event) (hes : ∀ e ∈ es, e ∈ g.edges) :
    (fireEdges (passFuel g) g vis es v evs).isSome = true := by
  apply (fire_sufficient_all (passFuel g)).2.1
  · have := countUnvis_le_length g.edges vis
    unfold passFuel
    omega
  · exact hes

theorem finishFire_ne_none (res : Option (Graph × List Nat × List Event))
    (h : res.isSome = true) : finishFire res ≠ none := by
  cases res with
  | none => cases h
  | some t =>
      obtain ⟨a, b, c⟩ := t
      simp [finishFire]

theorem finishFire_cases (res : Option (Graph × List Nat × List Event))
    (h : res.isSome = true) (P : Graph → List Event → Prop)
    (hP : ∀ g' vis' evs', res = some (g', vis', evs') → P g' evs') :
    ∃ g' evs, finishFire res = some (.ok (g', evs)) ∧ P g' evs := by
  cases res with
  | none => cases h
  | some t =>
      obtain ⟨a, b, c⟩ := t
      exact ⟨a, c, rfl, hP a b c rfl⟩

theorem eq_some_getD {α : Type} {o : Option α} (d : α) (h : o.isSome = true) :
    o = some (o.getD d) := by
  cases o with
  | none => cases h
  | some a => rfl

theorem runOp_ne_none : ∀ (g : Graph) (op : Op), runOp g op ≠ none := by
  intro g op
  cases op with
  | setInput c v =>
      intro hnone
      simp only [runOp] at hnone
      unfold setInputOp at hnone
      cases hd : g.decls c with
      | none => rw [hd] at hnone; exact Option.noConfusion hnone
      | some d =>
          rw [hd] at hnone
          dsimp only at hnone
          split at hnone
          · exact Option.noConfusion hnone
          · split at hnone
            · exact Option.noConfusion hnone
            · exact finishFire_ne_none _ (fire_pass_isSome _ _ _ _) hnone
  | callTrigger c =>
      intro hnone
      simp only [runOp] at hnone
      unfold callTriggerOp at hnone
      cases hd : g.decls c with
      | none => rw [hd] at hnone; exact Option.noConfusion hnone
      | some d =>
          rw [hd] at hnone
          dsimp only at hnone
          split at hnone
          · exact Option.noConfusion hnone
          · split at hnone
            · exact Option.noConfusion hnone
            · exact finishFire_ne_none _ (fire_pass_isSome _ _ _ _) hnone
  | readOutput o =>
      intro hnone
      simp only [runOp] at hnone
      unfold readOutputOp at hnone
      cases hd : g.decls o with
      | none => rw [hd] at hnone; exact Option.noConfusion hnone
      | some d =>
          rw [hd] at hnone
          dsimp only at hnone
          split at hnone
          · exact Option.noConfusion hnone
          · split at hnone
            · exact Option.noConfusion hnone
            · exact Option.noConfusion hnone
  | addMulti c v =>
      intro hnone
      simp only [runOp] at hnone
      unfold addMultiOp at hnone
      cases hd : g.decls c with
      | none => rw [hd] at hnone; exact Option.noConfusion hnone
      | some d =>
          rw [hd] at hnone
          dsimp only at hnone
          split at hnone
          · exact Option.noConfusion hnone
          · split at hnone
            · exact Option.noConfusion hnone
            · exact finishFire_ne_none _ (fire_pass_isSome _ _ _ _) hnone
  | removeMulti c id =>
      intro hnone
      simp only [runOp] at hnone
      unfold removeMultiOp at hnone
      cases hd : g.decls c with
      | none => rw [hd] at hnone; exact Option.noConfusion hnone
      | some d =>
          rw [hd] at hnone
          dsimp only at hnone
          split at hnone
          · exact Option.noConfusion hnone
          · split at hnone
            · exact Option.noConfusion hnone
            · split at hnone
              · exact Option.noConfusion hnone
              · exact finishFire_ne_none _ (fire_pass_isSome _ _ _ _) hnone
  | connect o i =>
      intro hnone
      simp only [runOp] at hnone
      unfold connectOp at hnone
      cases hdo : g.decls o with
      | none =>
          rw [hdo] at hnone
          cases hdi : g.decls i <;> rw [hdi] at hnone <;>
            exact Option.noConfusion hnone
      | some dOut =>
          rw [hdo] at hnone
          cases hdi : g.decls i with
          | none => rw [hdi] at hnone; exact Option.noConfusion hnone
          | some dIn =>
              rw [hdi] at hnone
              dsimp only at hnone
              split at hnone
              · exact Option.noConfusion hnone
              · split at hnone
                · exact Option.noConfusion hnone
                · split at hnone
                  · exact Option.noConfusion hnone
                  · split at hnone
                    · exact Option.noConfusion hnone
                    · split at hnone
                      · exact Option.noConfusion hnone
                      · exact finishFire_ne_none _ (fire_pass_isSome _ _ _ _) hnone
  | disconnect o i =>
      intro hnone
      simp only [runOp] at hnone
      unfold disconnectOp at hnone
      cases hdo : g.decls o with
      | none =>
          rw [hdo] at hnone
          cases hdi : g.decls i <;> rw [hdi] at hnone <;>
            exact Option.noConfusion hnone
      | some dOut =>
          rw [hdo] at hnone
          cases hdi : g.decls i with
          | none => rw [hdi] at hnone; exact Option.noConfusion hnone
          | some dIn =>
              rw [hdi] at hnone
              dsimp only at hnone
              split at hnone
              · exact Option.noConfusion hnone
              · split at hnone
                · exact Option.noConfusion hnone
                · split at hnone
                  · exact finishFire_ne_none _ (fire_pass_isSome _ _ _ _) hnone
                  · exact Option.noConfusion hnone
  | disconnectAll c =>
      intro hnone
      simp only [runOp] at hnone
      unfold disconnectAllOp at hnone
      cases hd : g.decls c with
      | none => rw [hd] at hnone; exact Option.noConfusion hnone
      | some d =>
          rw [hd] at hnone
          dsimp only at hnone
          split at hnone
          · exact Option.noConfusion hnone
          · exact Option.noConfusion hnone
  | deactivateOutput o =>
      intro hnone
      simp only [runOp] at hnone
      unfold deactivateOp at hnone
      cases hd : g.decls o with
      | none => rw [hd] at hnone; exact Option.noConfusion hnone
      | some d =>
          rw [hd] at hnone
          dsimp only at hnone
          split at hnone
          · exact Option.noConfusion hnone
          · split at hnone
            · exact Option.noConfusion hnone
            · exact Option.noConfusion hnone
  | activateOutput o =>
      intro hnone
      simp only [runOp] at hnone
      unfold activateOp at hnone
      cases hd : g.decls o with
      | none => rw [hd] at hnone; exact Option.noConfusion hnone
      | some d =>
          rw [hd] at hnone
          dsimp only at hnone
          split at hnone
          · exact Option.noConfusion hnone
          · split at hnone
            · exact Option.noConfusion hnone
            · split at hnone
              · exact finishFire_ne_none _
                  (fireEdges_pass_isSome _ _ _ _ _ (outEdges_subset _ _)) hnone
              · exact Option.noConfusion hnone
  | destroyConnectors owner =>
      intro hnone
      simp only [runOp] at hnone
      unfold destroyOp at hnone
      exact Option.noConfusion hnone

theorem run_ne_none : ∀ (ops : List Op) (g : Graph), run g ops ≠ none := by
  intro ops
  induction ops with
  | nil => intro g h; exact Option.noConfusion h
  | cons op ops ih =>
      intro g hnone
      unfold run at hnone
      cases hop : runOp g op with
      | none => exact runOp_ne_none g op hop
      | some x =>
          rw [hop] at hnone
          cases x with
          | error e => exact Option.noConfusion hnone
          | ok p =>
              obtain ⟨g1, evs⟩ := p
              dsimp only at hnone
              cases hrun : run g1 ops with
              | none => exact ih g1 hrun
              | some y =>
                  rw [hrun] at hnone
                  cases y <;> exact Option.noConfusion hnone

/-- C5: every propagation pass started by one firing terminates with the
canonical fuel -- even on cyclic graphs; within a single pass each edge is
delivered at most once (a revisited edge is a silent no-op) and the total
number of deliveries is bounded by the number of edges in the registry; and
every operation returns control to the caller (never exhausts its fuel). -/
theorem c5_propagation_terminates :
    (∀ g vis c evs, (fire (passFuel g) g vis c evs).isSome = true) ∧
    (∀ g c r, fire (passFuel g) g [] c [] = some r →
      (∀ eid, countD r.2.2 eid ≤ 1) ∧ deliveredTotal r.2.2 ≤ g.edges.length) ∧
    (∀ g op, runOp g op ≠ none) := by
  refine ⟨fire_pass_isSome, ?_, runOp_ne_none⟩
  intro g c r h
  obtain ⟨hd, _⟩ := (fire_deliver_all (passFuel g)).1 _ _ _ _ _ h
  constructor
  · intro eid
    have h1 := hd.at_most_one eid (by simp)
    have h0 : countD [] eid = 0 := rfl
    omega
  · have h1 := hd.total_bound
    have h2 := countUnvis_le_length g.edges []
    have h0 : deliveredTotal [] = 0 := rfl
    omega

/-- Witness for C5 on the concrete cyclic graph `w5G`: the pass fired from
Input 0 terminates and its deliveries obey the bounds. -/
theorem c5_witness :
    fire (passFuel w5G) w5G [] 0 [] = some w5res ∧
    ((∀ eid, countD w5res.2.2 eid ≤ 1) ∧
      deliveredTotal w5res.2.2 ≤ w5G.edges.length) := by
  have hs := c5_propagation_terminates.1 w5G [] 0 []
  have he : fire (passFuel w5G) w5G [] 0 [] = some w5res :=
    eq_some_getD (w5G, [], []) hs
  exact ⟨he, c5_propagation_terminates.2.1 w5G 0 w5res he⟩


/-! ### Claim C7: connect onto an already-connected plain Input -/

theorem readValue_frame (g : Graph) (o : CId) :
    (readValue g o).2.1.edges = g.edges ∧ (readValue g o).2.1.decls = g.decls ∧
    (readValue g o).2.1.destroyed = g.destroyed ∧
    (readValue g o).2.1.nextId = g.nextId := by
  unfold readValue
  split <;> exact ⟨rfl, rfl, rfl, rfl⟩

theorem filter_dst_of_filtered (l : List Edge) (i : CId) :
    (l.filter (fun e => decide (e.dst ≠ i))).filter (fun e => e.dst == i) = [] := by
  rw [List.filter_eq_nil_iff]
  intro a ha
  have h2 := (List.mem_filter.1 ha).2
  simp only [decide_eq_true_eq] at h2
  simp [h2]

/-- C7 counterexample: in a registry where plain Input 2 already has an
upstream edge (here from Output 1), the call `connect(1, 2)` does fail:
it raises `DuplicateConnection`, because the identical edge already exists
(spec §4.2 checks duplicates before the replace policy applies). -/
theorem c7_counterexample :
    (w7G.edges.filter (fun e => e.dst == 2)).length = 1 ∧
    roleOf w7G 2 = some Role.input ∧
    connectOp w7G 1 2 = some (.error .duplicateConnection) := by
  refine ⟨by decide, by rfl, by rfl⟩

/-- C7 (amended): a `connect(output, input)` call whose target is a plain
Input that already has an upstream edge from a *different* output (so the
new edge is not an identical duplicate) does not fail: the previous
upstream edge is disconnected first and the new edge replaces it, leaving
the Input with exactly one upstream edge, the new one. -/
theorem c7_amended_connect_replaces (g : Graph) (o i : CId) (dOut dIn : ConnDecl)
    (ho : g.decls o = some dOut) (hi : g.decls i = some dIn)
    (hro : dOut.role = Role.output) (hri : dIn.role = Role.input)
    (hdo : g.destroyed o = false) (hdi : g.destroyed i = false)
    (hcomp : compatible dOut.typ dIn.typ = true)
    (hnodup : findEdge g o i = none) :
    ∃ g' evs, connectOp g o i = some (.ok (g', evs)) ∧
      g'.edges.filter (fun e => e.dst == i) = [⟨o, i, g.nextId⟩] := by
  unfold connectOp
  rw [ho, hi]
  dsimp only
  rw [if_neg (by simp [hdo, hdi]), if_neg (by simp [hro]),
    if_neg (by simp [hri]), if_neg (by simp [hcomp]),
    if_neg (by simp [hnodup]), if_neg (by simp [hri])]
  refine finishFire_cases _ (fire_pass_isSome _ _ _ _) _ ?_
  intro gx visx evsx hres
  have hfr := (fire_frame_all _).1 _ _ _ _ _ hres
  have h1 := hfr.edges_eq
  dsimp only at h1
  rw [(applyDeliver_frame _ _ _).1, (readValue_frame _ _).1] at h1
  dsimp only at h1
  rw [h1, List.filter_append, filter_dst_of_filtered]
  simp

/-- Witness for C7 (amended): connecting Output 1 onto Input 2, which
already has an upstream edge from Output 3, succeeds and replaces it. -/
theorem c7_witness :
    (w7G2.decls 1 = some ⟨0, Role.output, none, [], 0,
        fun s => slotVal s.slots 0⟩ ∧
      w7G2.decls 2 = some ⟨1, Role.input, none, [3], 0, fun _ => 0⟩ ∧
      (w7G2.edges.filter (fun e => e.dst == 2)).length = 1 ∧
      findEdge w7G2 1 2 = none) ∧
    ∃ g' evs, connectOp w7G2 1 2 = some (.ok (g', evs)) ∧
      g'.edges.filter (fun e => e.dst == 2) = [⟨1, 2, w7G2.nextId⟩] :=
  ⟨⟨rfl, rfl, by decide, rfl⟩,
    c7_amended_connect_replaces w7G2 1 2 _ _ rfl rfl rfl rfl rfl rfl rfl rfl⟩


/-! ### Per-operation frame facts -/

theorem foldl_dropContrib_frame : ∀ (l : List Edge) (g : Graph),
    (l.foldl dropContribForEdge g).decls = g.decls ∧
    (l.foldl dropContribForEdge g).destroyed = g.destroyed ∧
    (l.foldl dropContribForEdge g).edges = g.edges ∧
    (l.foldl dropContribForEdge g).outs = g.outs ∧
    (l.foldl dropContribForEdge g).nextId = g.nextId := by
  intro l
  induction l with
  | nil => intro g; exact ⟨rfl, rfl, rfl, rfl, rfl⟩
  | cons e es ih =>
      intro g
      have hstep : (dropContribForEdge g e).decls = g.decls ∧
          (dropContribForEdge g e).destroyed = g.destroyed ∧
          (dropContribForEdge g e).edges = g.edges ∧
          (dropContribForEdge g e).outs = g.outs ∧
          (dropContribForEdge g e).nextId = g.nextId := by
        unfold dropContribForEdge
        cases g.decls e.dst with
        | none => exact ⟨rfl, rfl, rfl, rfl, rfl⟩
        | some d =>
            dsimp only
            split
            · exact ⟨rfl, rfl, rfl, rfl, rfl⟩
            · exact ⟨rfl, rfl, rfl, rfl, rfl⟩
      have := ih (dropContribForEdge g e)
      simp only [List.foldl_cons]
      exact ⟨this.1.trans hstep.1, this.2.1.trans hstep.2.1,
        this.2.2.1.trans hstep.2.2.1, this.2.2.2.1.trans hstep.2.2.2.1,
        this.2.2.2.2.trans hstep.2.2.2.2⟩

theorem finishFire_ok {res : Option (Graph × List Nat × List Event)}
    {g2 : Graph} {evs : List Event}
    (h : finishFire res = some (.ok (g2, evs))) :
    ∃ vis, res = some (g2, vis, evs) := by
  cases res with
  | none => simp [finishFire] at h
  | some t =>
      obtain ⟨a, b, c⟩ := t
      simp [finishFire] at h
      exact ⟨b, by rw [h.1, h.2]⟩

/-- Every successful operation keeps the declarations, only adds destroyed
marks, and never decreases the fresh-identity counter. -/
theorem runOp_frame : ∀ (g : Graph) (op : Op) (g1 : Graph) (evs : List Event),
    runOp g op = some (.ok (g1, evs)) →
    g1.decls = g.decls ∧
    (∀ c, g.destroyed c = true → g1.destroyed c = true) ∧
    g.nextId ≤ g1.nextId := by
  intro g op g1 evs h
  cases op with
  | setInput c v =>
      simp only [runOp] at h
      unfold setInputOp at h
      cases hd : g.decls c with
      | none => rw [hd] at h; simp at h
      | some d =>
          rw [hd] at h
          dsimp only at h
          split at h
          · simp at h
          · split at h
            · simp at h
            · obtain ⟨vis, hres⟩ := finishFire_ok h
              have hfr := (fire_frame_all _).1 _ _ _ _ _ hres
              have h1 := hfr.decls_eq
              have h2 := hfr.destroyed_eq
              have h3 := hfr.nextId_eq
              dsimp only at h1 h2 h3
              exact ⟨h1, fun c' hc' => by rw [h2]; exact hc', le_of_eq h3.symm⟩
  | callTrigger c =>
      simp only [runOp] at h
      unfold callTriggerOp at h
      cases hd : g.decls c with
      | none => rw [hd] at h; simp at h
      | some d =>
          rw [hd] at h
          dsimp only at h
          split at h
          · simp at h
          · split at h
            · simp at h
            · obtain ⟨vis, hres⟩ := finishFire_ok h
              have hfr := (fire_frame_all _).1 _ _ _ _ _ hres
              have h1 := hfr.decls_eq
              have h2 := hfr.destroyed_eq
              have h3 := hfr.nextId_eq
              dsimp only at h1 h2 h3
              exact ⟨h1, fun c' hc' => by rw [h2]; exact hc', le_of_eq h3.symm⟩
  | readOutput o =>
      simp only [runOp] at h
      unfold readOutputOp at h
      cases hd : g.decls o with
      | none => rw [hd] at h; simp at h
      | some d =>
          rw [hd] at h
          dsimp only at h
          split at h
          · simp at h
          · split at h
            · simp at h
            · simp only [Option.some.injEq, Except.ok.injEq, Prod.mk.injEq] at h
              obtain ⟨h1, h2⟩ := h
              rw [← h1]
              refine ⟨(readValue_frame g o).2.1, ?_, le_of_eq (readValue_frame g o).2.2.2.symm⟩
              intro c' hc'
              rw [(readValue_frame g o).2.2.1]
              exact hc'
  | addMulti c v =>
      simp only [runOp] at h
      unfold addMultiOp at h
      cases hd : g.decls c with
      | none => rw [hd] at h; simp at h
      | some d =>
          rw [hd] at h
          dsimp only at h
          split at h
          · simp at h
          · split at h
            · simp at h
            · obtain ⟨vis, hres⟩ := finishFire_ok h
              have hfr := (fire_frame_all _).1 _ _ _ _ _ hres
              have h1 := hfr.decls_eq
              have h2 := hfr.destroyed_eq
              have h3 := hfr.nextId_eq
              dsimp only at h1 h2 h3
              refine ⟨h1, fun c' hc' => by rw [h2]; exact hc', ?_⟩
              rw [h3]
              exact Nat.le_succ _
  | removeMulti c id =>
      simp only [runOp] at h
      unfold removeMultiOp at h
      cases hd : g.decls c with
      | none => rw [hd] at h; simp at h
      | some d =>
          rw [hd] at h
          dsimp only at h
          split at h
          · simp at h
          · split at h
            · simp at h
            · split at h
              · simp at h
              · obtain ⟨vis, hres⟩ := finishFire_ok h
                have hfr := (fire_frame_all _).1 _ _ _ _ _ hres
                have h1 := hfr.decls_eq
                have h2 := hfr.destroyed_eq
                have h3 := hfr.nextId_eq
                dsimp only at h1 h2 h3
                exact ⟨h1, fun c' hc' => by rw [h2]; exact hc', le_of_eq h3.symm⟩
  | connect o i =>
      simp only [runOp] at h
      unfold connectOp at h
      cases hdo : g.decls o with
      | none =>
          rw [hdo] at h
          cases hdi : g.decls i <;> rw [hdi] at h <;> simp at h
      | some dOut =>
          rw [hdo] at h
          cases hdi : g.decls i with
          | none => rw [hdi] at h; simp at h
          | some dIn =>
              rw [hdi] at h
              dsimp only at h
              split at h
              · simp at h
              · split at h
                · simp at h
                · split at h
                  · simp at h
                  · split at h
                    · simp at h
                    · split at h
                      · simp at h
                      · obtain ⟨vis, hres⟩ := finishFire_ok h
                        have hfr := (fire_frame_all _).1 _ _ _ _ _ hres
                        have h1 := hfr.decls_eq
                        have h2 := hfr.destroyed_eq
                        have h3 := hfr.nextId_eq
                        dsimp only at h1 h2 h3
                        rw [(applyDeliver_frame _ _ _).2.1,
                          (readValue_frame _ _).2.1] at h1
                        rw [(applyDeliver_frame _ _ _).2.2.1,
                          (readValue_frame _ _).2.2.1] at h2
                        rw [(applyDeliver_frame _ _ _).2.2.2.1,
                          (readValue_frame _ _).2.2.2] at h3
                        dsimp only at h1 h2 h3
                        refine ⟨?_, ?_, ?_⟩
                        · rw [h1]
                          split <;> rfl
                        · intro c' hc'
                          rw [h2]
                          split <;> exact hc'
                        · rw [h3]
                          exact Nat.le_succ _
  | disconnect o i =>
      simp only [runOp] at h
      unfold disconnectOp at h
      cases hdo : g.decls o with
      | none =>
          rw [hdo] at h
          cases hdi : g.decls i <;> rw [hdi] at h <;> simp at h
      | some dOut =>
          rw [hdo] at h
          cases hdi : g.decls i with
          | none => rw [hdi] at h; simp at h
          | some dIn =>
              rw [hdi] at h
              dsimp only at h
              split at h
              · simp at h
              · split at h
                · simp at h
                · split at h
                  · obtain ⟨vis, hres⟩ := finishFire_ok h
                    have hfr := (fire_frame_all _).1 _ _ _ _ _ hres
                    have h1 := hfr.decls_eq
                    have h2 := hfr.destroyed_eq
                    have h3 := hfr.nextId_eq
                    dsimp only at h1 h2 h3
                    exact ⟨h1, fun c' hc' => by rw [h2]; exact hc', le_of_eq h3.symm⟩
                  · simp only [Option.some.injEq, Except.ok.injEq,
                      Prod.mk.injEq] at h
                    obtain ⟨h1, h2⟩ := h
                    rw [← h1]
                    exact ⟨rfl, fun c' hc' => hc', Nat.le_refl _⟩
  | disconnectAll c =>
      simp only [runOp] at h
      unfold disconnectAllOp at h
      cases hd : g.decls c with
      | none => rw [hd] at h; simp at h
      | some d =>
          rw [hd] at h
          dsimp only at h
          split at h
          · simp at h
          · simp only [Option.some.injEq, Except.ok.injEq, Prod.mk.injEq] at h
            obtain ⟨h1, h2⟩ := h
            rw [← h1]
            have := foldl_dropContrib_frame (g.edges.filter (touches c)) g
            exact ⟨this.1, fun c' hc' => by
              show (List.foldl dropContribForEdge g _).destroyed c' = true
              rw [this.2.1]; exact hc',
              le_of_eq this.2.2.2.2.symm⟩
  | deactivateOutput o =>
      simp only [runOp] at h
      unfold deactivateOp at h
      cases hd : g.decls o with
      | none => rw [hd] at h; simp at h
      | some d =>
          rw [hd] at h
          dsimp only at h
          split at h
          · simp at h
          · split at h
            · simp at h
            · simp only [Option.some.injEq, Except.ok.injEq, Prod.mk.injEq] at h
              obtain ⟨h1, h2⟩ := h
              rw [← h1]
              exact ⟨rfl, fun c' hc' => hc', Nat.le_refl _⟩
  | activateOutput o =>
      simp only [runOp] at h
      unfold activateOp at h
      cases hd : g.decls o with
      | none => rw [hd] at h; simp at h
      | some d =>
          rw [hd] at h
          dsimp only at h
          split at h
          · simp at h
          · split at h
            · simp at h
            · split at h
              · obtain ⟨vis, hres⟩ := finishFire_ok h
                have hfr := (fire_frame_all _).2.1 _ _ _ _ _ _ hres
                have h1 := hfr.decls_eq
                have h2 := hfr.destroyed_eq
                have h3 := hfr.nextId_eq
                dsimp only at h1 h2 h3
                exact ⟨h1, fun c' hc' => by rw [h2]; exact hc', le_of_eq h3.symm⟩
              · simp only [Option.some.injEq, Except.ok.injEq, Prod.mk.injEq] at h
                obtain ⟨h1, h2⟩ := h
                rw [← h1]
                exact ⟨rfl, fun c' hc' => hc', Nat.le_refl _⟩
  | destroyConnectors owner =>
      simp only [runOp] at h
      unfold destroyOp at h
      dsimp only at h
      simp only [Option.some.injEq, Except.ok.injEq, Prod.mk.injEq] at h
      obtain ⟨h1, h2⟩ := h
      rw [← h1]
      have := foldl_dropContrib_frame
        (g.edges.filter (fun e => ownedBy g owner e.src || ownedBy g owner e.dst)) g
      refine ⟨this.1, fun c' hc' => ?_, le_of_eq this.2.2.2.2.symm⟩
      show (g.destroyed c' || ownedBy g owner c') = true
      rw [hc']
      rfl

/-- Successful runs keep the declarations, only add destroyed marks, and
never decrease the fresh-identity counter. -/
theorem run_frame : ∀ (ops : List Op) (g : Graph) (g1 : Graph) (tr : List Event),
    run g ops = some (.ok (g1, tr)) →
    g1.decls = g.decls ∧
    (∀ c, g.destroyed c = true → g1.destroyed c = true) ∧
    g.nextId ≤ g1.nextId := by
  intro ops
  induction ops with
  | nil =>
      intro g g1 tr h
      simp only [run, Option.some.injEq, Except.ok.injEq, Prod.mk.injEq] at h
      rw [← h.1]
      exact ⟨rfl, fun _ hc => hc, Nat.le_refl _⟩
  | cons op ops ih =>
      intro g g1 tr h
      unfold run at h
      cases hop : runOp g op with
      | none => rw [hop] at h; cases h
      | some x =>
          rw [hop] at h
          cases x with
          | error e => simp at h
          | ok p =>
              obtain ⟨gm, evs⟩ := p
              dsimp only at h
              cases hrun : run gm ops with
              | none => rw [hrun] at h; cases h
              | some y =>
                  rw [hrun] at h
                  cases y with
                  | error e => simp at h
                  | ok q =>
                      obtain ⟨g2, evs2⟩ := q
                      simp only [Option.some.injEq, Except.ok.injEq,
                        Prod.mk.injEq] at h
                      obtain ⟨h1, h2⟩ := h
                      obtain ⟨p1, p2, p3⟩ := runOp_frame g op gm evs hop
                      obtain ⟨q1, q2, q3⟩ := ih gm g2 evs2 hrun
                      rw [← h1]
                      exact ⟨q1.trans p1, fun c hc => q2 c (p2 c hc), p3.trans q3⟩


/-! ### Claim C6: destroy_connectors -/

theorem ownedBy_some {g : Graph} {owner : Nat} {c : CId}
    (h : ownedBy g owner c = true) : ∃ d, g.decls c = some d := by
  unfold ownedBy at h
  cases hd : g.decls c with
  | none => rw [hd] at h; cases h
  | some d => exact ⟨d, rfl⟩

/-- C6: after `destroy_connectors(owner)` the registry holds no edge
touching a connector owned by `owner`, the owner's connectors carry the
permanent destroyed mark, and after any further successful operations every
direct call on one of the owner's connectors fails with `UseAfterDestroy`. -/
theorem c6_destroy_connectors :
    ∀ (g : Graph) (owner : Nat) (g' : Graph) (evs : List Event),
      destroyOp g owner = some (.ok (g', evs)) →
      (∀ e ∈ g'.edges, ownedBy g owner e.src = false ∧
        ownedBy g owner e.dst = false) ∧
      (∀ c, ownedBy g owner c = true → g'.destroyed c = true) ∧
      (∀ ops g2 tr, run g' ops = some (.ok (g2, tr)) →
        ∀ c, ownedBy g owner c = true →
          (∀ v, runOp g2 (.setInput c v) = some (.error .useAfterDestroy)) ∧
          runOp g2 (.callTrigger c) = some (.error .useAfterDestroy) ∧
          runOp g2 (.readOutput c) = some (.error .useAfterDestroy) ∧
          (∀ v, runOp g2 (.addMulti c v) = some (.error .useAfterDestroy)) ∧
          (∀ id, runOp g2 (.removeMulti c id) = some (.error .useAfterDestroy))) := by
  intro g owner g' evs h
  unfold destroyOp at h
  dsimp only at h
  simp only [Option.some.injEq, Except.ok.injEq, Prod.mk.injEq] at h
  obtain ⟨h1, _⟩ := h
  have hedges : g'.edges
      = g.edges.filter (fun e => ¬ (ownedBy g owner e.src || ownedBy g owner e.dst)) := by
    rw [← h1]
  have hdecls : g'.decls = g.decls := by
    rw [← h1]
    exact (foldl_dropContrib_frame _ g).1
  have hdest : ∀ c, ownedBy g owner c = true → g'.destroyed c = true := by
    intro c hc
    rw [← h1]
    show (g.destroyed c || ownedBy g owner c) = true
    rw [hc]
    exact Bool.or_true _
  refine ⟨?_, hdest, ?_⟩
  · intro e he
    rw [hedges] at he
    have h2 := (List.mem_filter.1 he).2
    simp only [Bool.not_eq_true', decide_eq_true_eq] at h2
    constructor
    · cases hsrc : ownedBy g owner e.src
      · rfl
      · rw [hsrc] at h2; simp at h2
    · cases hdst : ownedBy g owner e.dst
      · rfl
      · rw [hdst] at h2; simp at h2
  · intro ops g2 tr hrun c hc
    obtain ⟨d, hd⟩ := ownedBy_some hc
    obtain ⟨q1, q2, _⟩ := run_frame ops g' g2 tr hrun
    have hd2 : g2.decls c = some d := by
      rw [q1, hdecls]; exact hd
    have hdest2 : g2.destroyed c = true := q2 c (hdest c hc)
    refine ⟨?_, ?_, ?_, ?_, ?_⟩
    · intro v
      show setInputOp g2 c v = _
      unfold setInputOp
      rw [hd2]
      dsimp only
      rw [if_pos hdest2]
    · show callTriggerOp g2 c = _
      unfold callTriggerOp
      rw [hd2]
      dsimp only
      rw [if_pos hdest2]
    · show readOutputOp g2 c = _
      unfold readOutputOp
      rw [hd2]
      dsimp only
      rw [if_pos hdest2]
    · intro v
      show addMultiOp g2 c v = _
      unfold addMultiOp
      rw [hd2]
      dsimp only
      rw [if_pos hdest2]
    · intro id
      show removeMultiOp g2 c id = _
      unfold removeMultiOp
      rw [hd2]
      dsimp only
      rw [if_pos hdest2]

/-- Witness for C6 on the cyclic graph `w5G`: destroying object 0 clears
both edges and later direct calls on its Input 0 fail. -/
theorem c6_witness :
    (destroyOp w5G 0 = some (.ok (w6res, [])) ∧ ownedBy w5G 0 0 = true ∧
      run w6res [] = some (.ok (w6res, []))) ∧
    ((∀ e ∈ w6res.edges, ownedBy w5G 0 e.src = false ∧
        ownedBy w5G 0 e.dst = false) ∧
      runOp w6res (.setInput 0 5) = some (.error .useAfterDestroy)) :=
  ⟨⟨rfl, rfl, rfl⟩,
    (c6_destroy_connectors w5G 0 w6res [] rfl).1,
    ((c6_destroy_connectors w5G 0 w6res [] rfl).2.2 [] w6res [] rfl 0 rfl).1 5⟩


/-! ### Claim C4: batching through deactivation -/

theorem countGetter_append (evs1 evs2 : List Event) (o : CId) :
    countGetter (evs1 ++ evs2) o = countGetter evs1 o + countGetter evs2 o := by
  simp [countGetter, List.filter_append]

theorem countGetter_eq_zero {evs : List Event} {o : CId}
    (h : Event.getterCall o ∉ evs) : countGetter evs o = 0 := by
  unfold countGetter
  rw [List.length_eq_zero, List.filter_eq_nil_iff]
  intro a ha hbeq
  exact h (eq_of_beq hbeq ▸ ha)

/-- A firing marks every inactive declared dependent dirty. -/
theorem fire_marks_deps : ∀ (fuel : Nat) (g : Graph) (vis : List Nat) (c : CId)
    (evs : List Event) (r : Graph × List Nat × List Event),
    fire fuel g vis c evs = some r →
    ∀ o, o ∈ depsOf g c → (g.outs o).active = false → (r.1.outs o).dirty = true := by
  intro fuel
  cases fuel with
  | zero => intro g vis c evs r h; simp [fire] at h
  | succ fuel =>
      intro g vis c evs r h
      rw [fire] at h
      exact fun o ho hact => ((fire_frame_all fuel).2.2 _ _ _ _ _ h).2 o ho hact

/-- The observable facts of one successful `setInput` call. -/
theorem setInput_ok_facts (g : Graph) (c : CId) (v : Val) (g1 : Graph)
    (evs : List Event) (h : runOp g (.setInput c v) = some (.ok (g1, evs))) :
    g1.edges = g.edges ∧ g1.decls = g.decls ∧ g1.destroyed = g.destroyed ∧
    (∀ o, (g1.outs o).active = (g.outs o).active) ∧
    (∀ o, (g.outs o).active = false → (g.outs o).dirty = true →
      (g1.outs o).dirty = true) ∧
    (∀ o, (g.outs o).active = false → Event.getterCall o ∉ evs) ∧
    (∀ o, o ∈ depsOf g c → (g.outs o).active = false →
      (g1.outs o).dirty = true) := by
  simp only [runOp] at h
  unfold setInputOp at h
  cases hd : g.decls c with
  | none => rw [hd] at h; simp at h
  | some d =>
      rw [hd] at h
      dsimp only at h
      split at h
      · simp at h
      · split at h
        · simp at h
        · obtain ⟨vis, hres⟩ := finishFire_ok h
          have hfr := (fire_frame_all _).1 _ _ _ _ _ hres
          have hmark := fire_marks_deps _ _ _ _ _ _ hres
          have hE := hfr.edges_eq
          have hD := hfr.decls_eq
          have hX := hfr.destroyed_eq
          dsimp only at hE hD hX
          refine ⟨hE, hD, hX, ?_, ?_, ?_, ?_⟩
          · intro o
            exact hfr.active_eq o
          · intro o hact hdirt
            exact hfr.dirty_stable o hact hdirt
          · intro o hact hmem
            rcases hfr.getter_src o hmem with hmem' | ⟨hact', _⟩
            · cases hmem'
            · have h2 : (g.outs o).active = true := hact'
              rw [hact] at h2
              cases h2
          · intro o ho hact
            exact hmark o ho hact

/-- The exact result of a successful `deactivate_output`. -/
theorem deactivate_ok_shape (g : Graph) (O : CId) (d : ConnDecl)
    (hd : g.decls O = some d) (hrole : d.role = Role.output)
    (hdes : g.destroyed O = false) :
    runOp g (.deactivateOutput O) = some (.ok
      (updOut g O { g.outs O with active := false }, [])) := by
  show deactivateOp g O = _
  unfold deactivateOp
  rw [hd]
  dsimp only
  rw [if_neg (by simp [hdes]), if_neg (by simp [hrole])]

/-- The exact result of `activate_output` on a dirty Output with no
outgoing edges: exactly one recomputation, no pushes. -/
theorem activate_tail (g1 : Graph) (O : CId) (d : ConnDecl)
    (hd : g1.decls O = some d) (hrole : d.role = Role.output)
    (hdes : g1.destroyed O = false) (hdirty : (g1.outs O).dirty = true)
    (htail : outEdges g1 O = []) :
    runOp g1 (.activateOutput O) = some (.ok
      (setCache (updOut g1 O { g1.outs O with active := true }) O
        (computeOutput g1 O), [Event.getterCall O])) := by
  show activateOp g1 O = _
  unfold activateOp
  rw [hd]
  dsimp only
  rw [if_neg (by simp [hdes]), if_neg (by simp [hrole]), if_pos hdirty]
  have hOE : outEdges (setCache (updOut g1 O { g1.outs O with active := true }) O
      (computeOutput (updOut g1 O { g1.outs O with active := true }) O)) O = [] :=
    htail
  rw [hOE, fireEdges]
  rfl

/-- Splitting a successful run over an appended list of operations. -/
theorem run_append_ok : ∀ (l1 l2 : List Op) (g g2 : Graph) (tr : List Event),
    run g (l1 ++ l2) = some (.ok (g2, tr)) →
    ∃ g1 tr1 tr2, run g l1 = some (.ok (g1, tr1)) ∧
      run g1 l2 = some (.ok (g2, tr2)) ∧ tr = tr1 ++ tr2 := by
  intro l1
  induction l1 with
  | nil =>
      intro l2 g g2 tr h
      exact ⟨g, [], tr, rfl, h, rfl⟩
  | cons op l1 ih =>
      intro l2 g g2 tr h
      rw [List.cons_append] at h
      unfold run at h
      cases hop : runOp g op with
      | none => rw [hop] at h; cases h
      | some x =>
          rw [hop] at h
          cases x with
          | error e => simp at h
          | ok p =>
              obtain ⟨gm, evs⟩ := p
              dsimp only at h
              cases hrun : run gm (l1 ++ l2) with
              | none => rw [hrun] at h; cases h
              | some y =>
                  rw [hrun] at h
                  cases y with
                  | error e => simp at h
                  | ok q =>
                      obtain ⟨g2', evs2⟩ := q
                      simp only [Option.some.injEq, Except.ok.injEq,
                        Prod.mk.injEq] at h
                      obtain ⟨h1, h2⟩ := h
                      obtain ⟨gmid, tr1, tr2, ha, hb, hc⟩ := ih l2 gm g2' evs2 hrun
                      refine ⟨gmid, evs ++ tr1, tr2, ?_, ?_, ?_⟩
                      · unfold run
                        rw [hop]
                        dsimp only
                        rw [ha]
                      · rw [← h1]; exact hb
                      · rw [← h2, hc, List.append_assoc]
  
/-- The sets phase: while an Output is inactive, successful `setInput`
operations never recompute it, keep it inactive, preserve the registry, and
mark it dirty as soon as one of them fires a connector that declares it. -/
theorem sets_phase (O : CId) : ∀ (sets : List (CId × Val)) (g g1 : Graph)
    (tr : List Event),
    run g (sets.map (fun p => Op.setInput p.1 p.2)) = some (.ok (g1, tr)) →
    (g.outs O).active = false →
    (g1.outs O).active = false ∧ g1.edges = g.edges ∧ g1.decls = g.decls ∧
    g1.destroyed = g.destroyed ∧
    countGetter tr O = 0 ∧
    ((g.outs O).dirty = true → (g1.outs O).dirty = true) ∧
    (∀ p ∈ sets, O ∈ depsOf g p.1 → (g1.outs O).dirty = true) := by
  intro sets
  induction sets with
  | nil =>
      intro g g1 tr h hact
      simp only [List.map_nil, run, Option.some.injEq, Except.ok.injEq,
        Prod.mk.injEq] at h
      obtain ⟨h1, h2⟩ := h
      rw [← h1, ← h2]
      exact ⟨hact, rfl, rfl, rfl, rfl, fun hd => hd, by simp⟩
  | cons p sets ih =>
      intro g g1 tr h hact
      rw [List.map_cons] at h
      unfold run at h
      cases hop : runOp g (Op.setInput p.1 p.2) with
      | none => rw [hop] at h; cases h
      | some x =>
          rw [hop] at h
          cases x with
          | error e => simp at h
          | ok q =>
              obtain ⟨gm, evs⟩ := q
              dsimp only at h
              cases hrun : run gm (sets.map (fun p => Op.setInput p.1 p.2)) with
              | none => rw [hrun] at h; cases h
              | some y =>
                  rw [hrun] at h
                  cases y with
                  | error e => simp at h
                  | ok q2 =>
                      obtain ⟨g1', tr'⟩ := q2
                      simp only [Option.some.injEq, Except.ok.injEq,
                        Prod.mk.injEq] at h
                      obtain ⟨hg, htr⟩ := h
                      obtain ⟨sE, sD, sX, sA, sStable, sNoGet, sMark⟩ :=
                        setInput_ok_facts g p.1 p.2 gm evs hop
                      have hactm : (gm.outs O).active = false := by
                        rw [sA O]; exact hact
                      obtain ⟨iAct, iE, iD, iX, iCnt, iStable, iMark⟩ :=
                        ih gm g1' tr' hrun hactm
                      subst hg
                      refine ⟨iAct, iE.trans sE, iD.trans sD, iX.trans sX, ?_, ?_, ?_⟩
                      · rw [← htr, countGetter_append,
                          countGetter_eq_zero (sNoGet O hact), iCnt]
                      · intro hdirt
                        exact iStable (sStable O hact hdirt)
                      · intro q hq hdep
                        rcases List.mem_cons.1 hq with rfl | hq'
                        · exact iStable (sMark O hdep hact)
                        · refine iMark q hq' ?_
                          rw [depsOf_eq_of_decls sD]
                          exact hdep


/-- C4 counterexample: for an Output that has a downstream edge, the
deactivate–set–reactivate sequence does not recompute it exactly once.  In
this cyclic registry (Output 1 feeds Input 0, which declares Output 1 as
its dependent), the single reactivation pass recomputes Output 1, pushes
the value along its edge, and the receiving Input's firing re-enters the
now-active Output: two getter calls in one reactivation. -/
theorem c4_counterexample :
    roleOf wc4cG 1 = some Role.output ∧
    (1 : CId) ∈ depsOf wc4cG 0 ∧
    outEdges wc4cG 1 = [⟨1, 0, 0⟩] ∧
    run wc4cG [Op.deactivateOutput 1, Op.setInput 0 5, Op.activateOutput 1]
      = some (.ok (wc4cres.1, wc4cres.2)) ∧
    countGetter wc4cres.2 1 = 2 := by
  refine ⟨rfl, by simp [depsOf, wc4cG, wc4decls], by decide, ?_, ?_⟩
  · simp [wc4cres, wc4cG, wc4decls, run, runOp, setInputOp, deactivateOp,
      activateOp, fire, fireDeps, fireEdges, finishFire, passFuel, updObj,
      updOut, markDirty, setCache, applyDeliver, depsOf, outEdges,
      computeOutput, slotVal, setSlotL]
  · simp [wc4cres, wc4cG, wc4decls, run, runOp, setInputOp, deactivateOp,
      activateOp, fire, fireDeps, fireEdges, finishFire, passFuel, updObj,
      updOut, markDirty, setCache, applyDeliver, depsOf, outEdges,
      computeOutput, slotVal, setSlotL, countGetter]

/-- C4 (amended): batching upstream changes, for Outputs that are pure
reading endpoints.  Part one: deactivating a tail Output
(one with no outgoing edges), applying any number of independent upstream
sets (at least one of which fires a connector declaring the Output), then
reactivating it, recomputes the Output exactly once -- zero getter calls
during the sets, one at reactivation -- and the cached value equals a
single direct recomputation on the state after all sets are applied.  Part
two: `set_multiple_values` over inputs whose transitively affected set is
exactly that Output behaves identically: one recomputation overall, equal
to applying all the values together. -/
theorem c4_batched_recomputation :
    (∀ (g : Graph) (O : CId) (d : ConnDecl) (sets : List (CId × Val))
        (g1 g2 : Graph) (tr1 tr2 : List Event),
      g.decls O = some d → d.role = Role.output → g.destroyed O = false →
      outEdges g O = [] →
      run g (Op.deactivateOutput O :: sets.map (fun p => Op.setInput p.1 p.2))
        = some (.ok (g1, tr1)) →
      runOp g1 (.activateOutput O) = some (.ok (g2, tr2)) →
      (∃ p ∈ sets, O ∈ depsOf g p.1) →
      countGetter tr1 O = 0 ∧ countGetter tr2 O = 1 ∧
        (g2.outs O).cache = some (computeOutput g1 O)) ∧
    (∀ (g : Graph) (O : CId) (d : ConnDecl) (m : List (CId × Val))
        (g' : Graph) (tr : List Event),
      g.decls O = some d → d.role = Role.output → g.destroyed O = false →
      outEdges g O = [] →
      affectedOutputs g (m.map (·.1)) = [O] →
      (∃ p ∈ m, O ∈ depsOf g p.1) →
      setMultipleValuesOp g m = some (.ok (g', tr)) →
      ∃ g1 tr1,
        run g (Op.deactivateOutput O :: m.map (fun p => Op.setInput p.1 p.2))
          = some (.ok (g1, tr1)) ∧
        countGetter tr1 O = 0 ∧ countGetter tr O = 1 ∧
        (g'.outs O).cache = some (computeOutput g1 O)) := by
  have part1 : ∀ (g : Graph) (O : CId) (d : ConnDecl) (sets : List (CId × Val))
      (g1 g2 : Graph) (tr1 tr2 : List Event),
      g.decls O = some d → d.role = Role.output → g.destroyed O = false →
      outEdges g O = [] →
      run g (Op.deactivateOutput O :: sets.map (fun p => Op.setInput p.1 p.2))
        = some (.ok (g1, tr1)) →
      runOp g1 (.activateOutput O) = some (.ok (g2, tr2)) →
      (∃ p ∈ sets, O ∈ depsOf g p.1) →
      countGetter tr1 O = 0 ∧ countGetter tr2 O = 1 ∧
        (g2.outs O).cache = some (computeOutput g1 O) := by
    intro g O d sets g1 g2 tr1 tr2 hd hrole hdes htail hrun1 hact hdep
    unfold run at hrun1
    rw [deactivate_ok_shape g O d hd hrole hdes] at hrun1
    dsimp only at hrun1
    cases hrun : run (updOut g O { g.outs O with active := false })
        (sets.map (fun p => Op.setInput p.1 p.2)) with
    | none => rw [hrun] at hrun1; cases hrun1
    | some y =>
        rw [hrun] at hrun1
        cases y with
        | error e => simp at hrun1
        | ok q =>
            obtain ⟨g1', trs⟩ := q
            simp only [Option.some.injEq, Except.ok.injEq, Prod.mk.injEq] at hrun1
            obtain ⟨hg1, htr1⟩ := hrun1
            have hactd : ((updOut g O { g.outs O with active := false }).outs O).active
                = false := by
              simp [updOut]
            obtain ⟨sAct, sE, sD, sX, sCnt, sStable, sMark⟩ :=
              sets_phase O sets _ g1' trs hrun hactd
            obtain ⟨p, hp, hdepO⟩ := hdep
            have hdirty1 : (g1'.outs O).dirty = true := sMark p hp hdepO
            have hd1 : g1'.decls O = some d := by rw [sD]; exact hd
            have hdes1 : g1'.destroyed O = false := by rw [sX]; exact hdes
            have htail1 : outEdges g1' O = [] :=
              (outEdges_eq_of_edges sE O).trans htail
            have hshape := activate_tail g1' O d hd1 hrole hdes1 hdirty1 htail1
            subst hg1
            rw [hshape] at hact
            simp only [Option.some.injEq, Except.ok.injEq, Prod.mk.injEq] at hact
            obtain ⟨hg2, htr2⟩ := hact
            refine ⟨?_, ?_, ?_⟩
            · rw [← htr1]
              simpa using sCnt
            · rw [← htr2]
              simp [countGetter]
            · rw [← hg2]
              simp [setCache, updOut]
  refine ⟨part1, ?_⟩
  intro g O d m g' tr hd hrole hdes htail haff hdep hsmv
  unfold setMultipleValuesOp smvOps at hsmv
  rw [haff] at hsmv
  simp only [List.map_cons, List.map_nil, List.singleton_append] at hsmv
  obtain ⟨gd', trA, trBC, hA, hBC, htr⟩ := run_append_ok
    [Op.deactivateOutput O]
    (List.map (fun p => Op.setInput p.1 p.2) m ++ [Op.activateOutput O])
    _ _ _ hsmv
  have hA' : gd' = updOut g O { g.outs O with active := false } ∧ trA = [] := by
    unfold run at hA
    rw [deactivate_ok_shape g O d hd hrole hdes] at hA
    dsimp only at hA
    simp only [run, Option.some.injEq, Except.ok.injEq, Prod.mk.injEq,
      List.nil_append] at hA
    exact ⟨hA.1.symm, hA.2.symm⟩
  obtain ⟨hgd, htrA⟩ := hA'
  subst hgd
  obtain ⟨g1, trB, trC, hB, hC, htrBC⟩ := run_append_ok _ _ _ _ _ hBC
  have hactd : ((updOut g O { g.outs O with active := false }).outs O).active
      = false := by
    simp [updOut]
  obtain ⟨sAct, sE, sD, sX, sCnt, sStable, sMark⟩ :=
    sets_phase O m _ g1 trB hB hactd
  obtain ⟨p, hp, hdepO⟩ := hdep
  have hdirty1 : (g1.outs O).dirty = true := sMark p hp hdepO
  have hd1 : g1.decls O = some d := by rw [sD]; exact hd
  have hdes1 : g1.destroyed O = false := by rw [sX]; exact hdes
  have htail1 : outEdges g1 O = [] := (outEdges_eq_of_edges sE O).trans htail
  have hshape := activate_tail g1 O d hd1 hrole hdes1 hdirty1 htail1
  have hC' : g' = setCache (updOut g1 O { g1.outs O with active := true }) O
      (computeOutput g1 O) ∧ trC = [Event.getterCall O] := by
    unfold run at hC
    rw [hshape] at hC
    dsimp only at hC
    simp only [run, Option.some.injEq, Except.ok.injEq, Prod.mk.injEq] at hC
    exact ⟨hC.1.symm, by rw [← hC.2]; simp⟩
  obtain ⟨hg', htrC⟩ := hC'
  refine ⟨g1, [] ++ trB, ?_, ?_, ?_, ?_⟩
  · unfold run
    rw [deactivate_ok_shape g O d hd hrole hdes]
    dsimp only
    rw [hB]
  · rw [List.nil_append]
    exact sCnt
  · rw [htr, htrA, htrBC, htrC]
    rw [List.nil_append, countGetter_append, sCnt]
    simp [countGetter]
  · rw [hg']
    simp [setCache, updOut]


/-- Witness for C4 on the concrete one-object graph: two batched sets of
Input 0 under a deactivated Output 1 cause no recomputation; reactivation
recomputes once, caching the getter of the combined final state. -/
theorem c4_witness :
    (wc4G.decls 1 = some ⟨0, Role.output, none, [], 0,
        fun s => slotVal s.slots 0⟩ ∧
      outEdges wc4G 1 = [] ∧
      run wc4G wc4ops = some (.ok (wc4run1.1, wc4run1.2)) ∧
      runOp wc4run1.1 (.activateOutput 1) = some (.ok (wc4run2.1, wc4run2.2)) ∧
      (∃ p ∈ [((0 : CId), (5 : Val)), ((0 : CId), (7 : Val))],
        (1 : CId) ∈ depsOf wc4G p.1)) ∧
    (countGetter wc4run1.2 1 = 0 ∧ countGetter wc4run2.2 1 = 1 ∧
      (wc4run2.1.outs 1).cache = some (computeOutput wc4run1.1 1)) := by
  have h1 : run wc4G wc4ops = some (.ok (wc4run1.1, wc4run1.2)) := by
    simp [wc4run1, wc4ops, wc4G, wc4decls, initGraph, run, runOp, setInputOp,
      deactivateOp, fire, fireDeps, fireEdges, finishFire, passFuel, updObj,
      updOut, markDirty, setCache, applyDeliver, depsOf, outEdges,
      computeOutput, slotVal, setSlotL]
  have h2 : runOp wc4run1.1 (.activateOutput 1) = some (.ok (wc4run2.1, wc4run2.2)) := by
    simp [wc4run2, wc4run1, wc4ops, wc4G, wc4decls, initGraph, run, runOp,
      setInputOp, deactivateOp, activateOp, fire, fireDeps, fireEdges,
      finishFire, passFuel, updObj, updOut, markDirty, setCache, applyDeliver,
      depsOf, outEdges, computeOutput, slotVal, setSlotL]
  refine ⟨⟨rfl, rfl, h1, h2, ⟨(0, 5), by simp, by simp [depsOf, wc4G, wc4decls, initGraph]⟩⟩, ?_⟩
  exact c4_batched_recomputation.1 wc4G 1 _ _ wc4run1.1 wc4run2.1 wc4run1.2
    wc4run2.2 rfl rfl rfl rfl h1 h2
    ⟨(0, 5), by simp, by simp [depsOf, wc4G, wc4decls, initGraph]⟩


/-! ### Claim C8: MultiInput contributions correspond to inbound edges -/

theorem getContribs_setContribs_same (s : ObjState) (c : CId)
    (l : List (Nat × Val)) : getContribs (setContribs s c l) c = l := by
  simp [getContribs, setContribs]

theorem getContribs_setContribs_ne (s : ObjState) (c c' : CId)
    (l : List (Nat × Val)) (h : c' ≠ c) :
    getContribs (setContribs s c l) c' = getContribs s c' := by
  simp only [getContribs, setContribs, List.find?]
  rw [show ((c, l).1 == c') = false from by simp [Ne.symm h]]

theorem putContrib_ids {l : List (Nat × Val)} {id : Nat} (v : Val)
    (h : id ∈ l.map (·.1)) :
    (putContrib l id v).map (·.1) = l.map (·.1) := by
  unfold putContrib
  rw [if_pos ?hc]
  case hc =>
    obtain ⟨p, hp, hpid⟩ := List.mem_map.1 h
    exact List.any_eq_true.2 ⟨p, hp, by simp [hpid]⟩
  clear h
  induction l with
  | nil => rfl
  | cons p ps ih =>
      simp only [List.map_cons]
      by_cases hp : (p.1 == id) = true
      · simp only [hp, if_true, List.map_cons]
        rw [ih]
      · simp only [hp, if_false, Bool.false_eq_true, List.map_cons]
        rw [ih]

theorem updObj_objs (g : Graph) (n : Nat) (st : ObjState) (m : Nat) :
    (updObj g n st).objs m = if m = n then st else g.objs m := rfl

theorem edgeContribs_transport {g g' : Graph}
    (hE : g'.edges = g.edges) (hD : g'.decls = g.decls)
    (hI : ∀ n c, (getContribs (g'.objs n) c).map (·.1)
      = (getContribs (g.objs n) c).map (·.1))
    (h : EdgeContribs g) : EdgeContribs g' := by
  intro e he d hd hrole
  rw [hE] at he
  rw [hD] at hd
  rw [hI d.owner e.dst]
  exact h e he d hd hrole

theorem applyDeliver_contrib_ids (g : Graph) (e : Edge) (v : Val)
    (he : e ∈ g.edges) (hEC : EdgeContribs g) :
    ∀ n c, (getContribs ((applyDeliver g e v).objs n) c).map (·.1)
      = (getContribs (g.objs n) c).map (·.1) := by
  intro n c
  unfold applyDeliver
  cases hd : g.decls e.dst with
  | none => rfl
  | some d =>
      obtain ⟨ow, ro, ty, dep, sl, ge⟩ := d
      cases ro with
      | input =>
          dsimp only
          rw [updObj_objs]
          by_cases hn : n = ow
          · rw [if_pos hn]
            subst hn
            rfl
          · rw [if_neg hn]
      | trigger => rfl
      | output => rfl
      | multiInput =>
          dsimp only
          rw [updObj_objs]
          by_cases hn : n = ow
          · rw [if_pos hn]
            subst hn
            by_cases hc : c = e.dst
            · subst hc
              rw [getContribs_setContribs_same]
              exact putContrib_ids v (hEC e he _ hd rfl)
            · rw [getContribs_setContribs_ne _ _ _ _ hc]
          · rw [if_neg hn]

/-- A propagation pass never changes which contributions a MultiInput
holds, nor their order: it only replaces their values (every delivered
edge's contribution already exists by `EdgeContribs`). -/
theorem fire_contrib_ids_all : ∀ fuel : Nat,
    (∀ g vis c evs r, fire fuel g vis c evs = some r → EdgeContribs g →
      ∀ n cc, (getContribs (r.1.objs n) cc).map (·.1)
        = (getContribs (g.objs n) cc).map (·.1)) ∧
    (∀ g vis es v evs r, fireEdges fuel g vis es v evs = some r →
      (∀ e ∈ es, e ∈ g.edges) → EdgeContribs g →
      ∀ n cc, (getContribs (r.1.objs n) cc).map (·.1)
        = (getContribs (g.objs n) cc).map (·.1)) ∧
    (∀ g vis os evs r, fireDeps fuel g vis os evs = some r → EdgeContribs g →
      ∀ n cc, (getContribs (r.1.objs n) cc).map (·.1)
        = (getContribs (g.objs n) cc).map (·.1)) := by
  intro fuel
  induction fuel with
  | zero =>
      have pfire : ∀ g vis c evs r, fire 0 g vis c evs = some r → EdgeContribs g →
          ∀ n cc, (getContribs (r.1.objs n) cc).map (·.1)
            = (getContribs (g.objs n) cc).map (·.1) := by
        intro g vis c evs r h
        simp [fire] at h
      have pedges : ∀ g vis es v evs r, fireEdges 0 g vis es v evs = some r →
          (∀ e ∈ es, e ∈ g.edges) → EdgeContribs g →
          ∀ n cc, (getContribs (r.1.objs n) cc).map (·.1)
            = (getContribs (g.objs n) cc).map (·.1) := by
        intro g vis es v evs r h hes hEC
        induction es generalizing g vis evs with
        | nil =>
            simp only [fireEdges, Option.some.injEq] at h
            rw [← h]
            exact fun n cc => rfl
        | cons e es ih =>
            rw [fireEdges] at h
            split at h
            · exact ih g vis evs h (fun f hf => hes f (List.mem_cons_of_mem _ hf)) hEC
            · simp [fire] at h
      have pdeps : ∀ g vis os evs r, fireDeps 0 g vis os evs = some r → EdgeContribs g →
          ∀ n cc, (getContribs (r.1.objs n) cc).map (·.1)
            = (getContribs (g.objs n) cc).map (·.1) := by
        intro g vis os evs r h hEC
        induction os generalizing g vis evs with
        | nil =>
            simp only [fireDeps, Option.some.injEq] at h
            rw [← h]
            exact fun n cc => rfl
        | cons o os ih =>
            rw [fireDeps] at h
            split at h
            · split at h
              · exact ih (markDirty g o) vis evs h hEC
              · next e es hedg =>
                  cases hfe : fireEdges 0 (setCache g o (computeOutput g o)) vis
                      (outEdges g o) (computeOutput g o)
                      (evs ++ [Event.getterCall o]) with
                  | none => rw [hfe] at h; cases h
                  | some t =>
                      rw [hfe] at h
                      obtain ⟨g2, vis2, evs2⟩ := t
                      dsimp only at h
                      have hmid := pedges _ _ _ _ _ _ hfe (outEdges_subset g o) hEC
                      have fB := (fire_frame_all 0).2.1 _ _ _ _ _ _ hfe
                      have hECm : EdgeContribs g2 :=
                        edgeContribs_transport fB.edges_eq fB.decls_eq hmid hEC
                      have htail := ih g2 vis2 evs2 h hECm
                      exact fun n cc => (htail n cc).trans (hmid n cc)
            · exact ih (markDirty g o) vis evs h hEC
      exact ⟨pfire, pedges, pdeps⟩
  | succ fuel ih =>
      obtain ⟨ihF, ihE, ihD⟩ := ih
      have pfire : ∀ g vis c evs r, fire (fuel + 1) g vis c evs = some r →
          EdgeContribs g →
          ∀ n cc, (getContribs (r.1.objs n) cc).map (·.1)
            = (getContribs (g.objs n) cc).map (·.1) := by
        intro g vis c evs r h hEC
        rw [fire] at h
        exact ihD _ _ _ _ _ h hEC
      have pedges : ∀ g vis es v evs r, fireEdges (fuel + 1) g vis es v evs = some r →
          (∀ e ∈ es, e ∈ g.edges) → EdgeContribs g →
          ∀ n cc, (getContribs (r.1.objs n) cc).map (·.1)
            = (getContribs (g.objs n) cc).map (·.1) := by
        intro g vis es v evs r h hes hEC
        induction es generalizing g vis evs with
        | nil =>
            simp only [fireEdges, Option.some.injEq] at h
            rw [← h]
            exact fun n cc => rfl
        | cons e es ihes =>
            rw [fireEdges] at h
            split at h
            · exact ihes g vis evs h (fun f hf => hes f (List.mem_cons_of_mem _ hf)) hEC
            · cases hf : fire (fuel + 1) (applyDeliver g e v) (e.eid :: vis) e.dst
                  (evs ++ [Event.delivered e.eid]) with
              | none => rw [hf] at h; cases h
              | some t =>
                  rw [hf] at h
                  obtain ⟨g1, vis1, evs1⟩ := t
                  dsimp only at h
                  have hein : e ∈ g.edges := hes e (List.mem_cons_self _ _)
                  have hstep := applyDeliver_contrib_ids g e v hein hEC
                  have hECd : EdgeContribs (applyDeliver g e v) :=
                    edgeContribs_transport (applyDeliver_frame g e v).1
                      (applyDeliver_frame g e v).2.1 hstep hEC
                  have hmid := pfire _ _ _ _ _ hf hECd
                  have fB := (fire_frame_all (fuel + 1)).1 _ _ _ _ _ hf
                  have hids1 : ∀ n cc, (getContribs (g1.objs n) cc).map (·.1)
                      = (getContribs (g.objs n) cc).map (·.1) := by
                    intro n cc
                    rw [hmid n cc, hstep n cc]
                  have hEC1 : EdgeContribs g1 :=
                    edgeContribs_transport
                      (fB.edges_eq.trans (applyDeliver_frame g e v).1)
                      (fB.decls_eq.trans (applyDeliver_frame g e v).2.1) hids1 hEC
                  have htail := ihes g1 vis1 evs1 h
                    (fun f hf' => by
                      rw [fB.edges_eq.trans (applyDeliver_frame g e v).1]
                      exact hes f (List.mem_cons_of_mem _ hf')) hEC1
                  exact fun n cc => (htail n cc).trans (hids1 n cc)
      have pdeps : ∀ g vis os evs r, fireDeps (fuel + 1) g vis os evs = some r →
          EdgeContribs g →
          ∀ n cc, (getContribs (r.1.objs n) cc).map (·.1)
            = (getContribs (g.objs n) cc).map (·.1) := by
        intro g vis os evs r h hEC
        induction os generalizing g vis evs with
        | nil =>
            simp only [fireDeps, Option.some.injEq] at h
            rw [← h]
            exact fun n cc => rfl
        | cons o os ih2 =>
            rw [fireDeps] at h
            split at h
            · split at h
              · exact ih2 (markDirty g o) vis evs h hEC
              · next e es hedg =>
                  cases hfe : fireEdges (fuel + 1) (setCache g o (computeOutput g o))
                      vis (outEdges g o) (computeOutput g o)
                      (evs ++ [Event.getterCall o]) with
                  | none => rw [hfe] at h; cases h
                  | some t =>
                      rw [hfe] at h
                      obtain ⟨g2, vis2, evs2⟩ := t
                      dsimp only at h
                      have hmid := pedges _ _ _ _ _ _ hfe (outEdges_subset g o) hEC
                      have fB := (fire_frame_all (fuel + 1)).2.1 _ _ _ _ _ _ hfe
                      have hECm : EdgeContribs g2 :=
                        edgeContribs_transport fB.edges_eq fB.decls_eq hmid hEC
                      have htail := ih2 g2 vis2 evs2 h hECm
                      exact fun n cc => (htail n cc).trans (hmid n cc)
            · exact ih2 (markDirty g o) vis evs h hEC
      exact ⟨pfire, pedges, pdeps⟩


theorem contribsOf_eq {g : Graph} {c : CId} {d : ConnDecl}
    (hd : g.decls c = some d) :
    contribsOf g c = getContribs (g.objs d.owner) c := by
  unfold contribsOf
  rw [hd]

theorem edgesInto_eq_of_edges {g g' : Graph} (h : g'.edges = g.edges)
    (c : CId) : edgesInto g' c = edgesInto g c := by
  unfold edgesInto
  rw [h]

theorem corr_transport {g g' : Graph}
    (hE : g'.edges = g.edges) (hD : g'.decls = g.decls)
    (hI : ∀ n c, (getContribs (g'.objs n) c).map (·.1)
      = (getContribs (g.objs n) c).map (·.1))
    (h : Corr g) : Corr g' := by
  intro c d hd hrole
  have hd0 : g.decls c = some d := by rw [← hD]; exact hd
  calc contribIds g' c
      = (getContribs (g'.objs d.owner) c).map (·.1) := by
        unfold contribIds; rw [contribsOf_eq hd]
    _ = (getContribs (g.objs d.owner) c).map (·.1) := hI d.owner c
    _ = contribIds g c := by unfold contribIds; rw [contribsOf_eq hd0]
    _ = (edgesInto g c).map (·.eid) := h c d hd0 hrole
    _ = (edgesInto g' c).map (·.eid) := by rw [edgesInto_eq_of_edges hE]

theorem corr_to_edgeContribs {g : Graph} (h : Corr g) : EdgeContribs g := by
  intro e he d hd hrole
  have hc := h e.dst d hd hrole
  have hmem : e ∈ edgesInto g e.dst := by
    unfold edgesInto
    exact List.mem_filter.2 ⟨he, by simp⟩
  have hm2 : e.eid ∈ (edgesInto g e.dst).map (·.eid) :=
    List.mem_map.2 ⟨e, hmem, rfl⟩
  rw [← hc] at hm2
  unfold contribIds at hm2
  rw [contribsOf_eq hd] at hm2
  exact hm2

theorem winv_transport {g g' : Graph} (h : WInv g)
    (hE : g'.edges = g.edges) (hD : g'.decls = g.decls)
    (hN : g'.nextId = g.nextId)
    (hI : ∀ n c, (getContribs (g'.objs n) c).map (·.1)
      = (getContribs (g.objs n) c).map (·.1)) : WInv g' := by
  obtain ⟨h1, h2, h3⟩ := h
  refine ⟨?_, ?_, corr_transport hE hD hI h3⟩
  · intro e he
    rw [hE] at he
    rw [hN]
    exact h1 e he
  · rw [hE]
    exact h2

theorem winv_fire {fuel : Nat} {g : Graph} {vis : List Nat} {c : CId}
    {evs : List Event} {r : Graph × List Nat × List Event}
    (hf : fire fuel g vis c evs = some r) (hW : WInv g) : WInv r.1 := by
  have fB := (fire_frame_all fuel).1 _ _ _ _ _ hf
  have hids := (fire_contrib_ids_all fuel).1 _ _ _ _ _ hf
    (corr_to_edgeContribs hW.2.2)
  exact winv_transport hW fB.edges_eq fB.decls_eq fB.nextId_eq hids

theorem winv_fireEdges {fuel : Nat} {g : Graph} {vis : List Nat}
    {es : List Edge} {v : Val} {evs : List Event}
    {r : Graph × List Nat × List Event}
    (hf : fireEdges fuel g vis es v evs = some r)
    (hes : ∀ e ∈ es, e ∈ g.edges) (hW : WInv g) : WInv r.1 := by
  have fB := (fire_frame_all fuel).2.1 _ _ _ _ _ _ hf
  have hids := (fire_contrib_ids_all fuel).2.1 _ _ _ _ _ _ hf hes
    (corr_to_edgeContribs hW.2.2)
  exact winv_transport hW fB.edges_eq fB.decls_eq fB.nextId_eq hids

theorem updObj_slots_ids (g : Graph) (ow : Nat) (sl : List (Nat × Val)) :
    ∀ n c, (getContribs ((updObj g ow
        { g.objs ow with slots := sl }).objs n) c).map (·.1)
      = (getContribs (g.objs n) c).map (·.1) := by
  intro n c
  rw [updObj_objs]
  by_cases hn : n = ow
  · subst hn
    rw [if_pos rfl]
    rfl
  · rw [if_neg hn]

theorem readValue_objs (g : Graph) (o : CId) :
    (readValue g o).2.1.objs = g.objs := by
  unfold readValue
  split <;> rfl


theorem filter_map_comm {α β : Type} (f : α → β) (q : β → Bool)
    (l : List α) :
    (l.filter (fun a => q (f a))).map f = (l.map f).filter q := by
  induction l with
  | nil => rfl
  | cons x xs ih => cases h : q (f x) <;> simp [List.filter_cons, h, ih]

theorem filter_dst_cons_pos {a : Edge} (t : List Edge) {i : CId}
    (h : (a.dst == i) = true) :
    (a :: t).filter (fun f => f.dst == i)
      = a :: t.filter (fun f => f.dst == i) :=
  List.filter_cons_of_pos h

theorem filter_dst_cons_neg {a : Edge} (t : List Edge) {i : CId}
    (h : ¬ a.dst = i) :
    (a :: t).filter (fun f => f.dst == i) = t.filter (fun f => f.dst == i) :=
  List.filter_cons_of_neg (by simp [h])

theorem filter_dstne_cons_pos {a : Edge} (t : List Edge) {i : CId}
    (h : a.dst ≠ i) :
    (a :: t).filter (fun f => f.dst ≠ i)
      = a :: t.filter (fun f => f.dst ≠ i) :=
  List.filter_cons_of_pos (decide_eq_true h)

theorem filter_dstne_cons_neg {a : Edge} (t : List Edge) {i : CId}
    (h : a.dst = i) :
    (a :: t).filter (fun f => f.dst ≠ i) = t.filter (fun f => f.dst ≠ i) :=
  List.filter_cons_of_neg (by simp [h])

theorem filter_ne_cons_pos {x y : Nat} (xs : List Nat) (h : x ≠ y) :
    (x :: xs).filter (fun z => z ≠ y) = x :: xs.filter (fun z => z ≠ y) :=
  List.filter_cons_of_pos (decide_eq_true h)

theorem filter_ne_cons_neg (xs : List Nat) (y : Nat) :
    (y :: xs).filter (fun z => z ≠ y) = xs.filter (fun z => z ≠ y) :=
  List.filter_cons_of_neg (by simp)

theorem filter_ne_of_not_mem {xs : List Nat} {a : Nat} (h : a ∉ xs) :
    xs.filter (fun x => x ≠ a) = xs := by
  induction xs with
  | nil => rfl
  | cons x xs ih =>
      simp only [List.mem_cons, not_or] at h
      rw [filter_ne_cons_pos xs (Ne.symm h.1), ih h.2]

theorem putContrib_ids_append {l : List (Nat × Val)} {id : Nat} (v : Val)
    (h : id ∉ l.map (·.1)) :
    (putContrib l id v).map (·.1) = l.map (·.1) ++ [id] := by
  unfold putContrib
  rw [if_neg ?hc, List.map_append]
  rfl
  case hc =>
    intro hany
    obtain ⟨p, hp, hpid⟩ := List.any_eq_true.1 hany
    have hid : p.1 = id := by simpa using hpid
    exact h (hid ▸ List.mem_map.2 ⟨p, hp, rfl⟩)

theorem nodup_append_singleton {xs : List Nat} {a : Nat}
    (h : xs.Nodup) (ha : a ∉ xs) : (xs ++ [a]).Nodup := by
  induction xs with
  | nil => simp
  | cons x xs ih =>
      simp only [List.mem_cons, not_or] at ha
      rw [List.cons_append, List.nodup_cons]
      refine ⟨?_, ih (List.nodup_cons.1 h).2 ha.2⟩
      intro hmem
      rcases List.mem_append.1 hmem with h1 | h1
      · exact (List.nodup_cons.1 h).1 h1
      · have h2 : x = a := by simpa using h1
        exact ha.1 h2.symm

theorem removeFirstEdge_sublist (l : List Edge) (o i : CId) :
    (removeFirstEdge l o i).Sublist l := by
  induction l with
  | nil => simp [removeFirstEdge]
  | cons e es ih =>
      rw [removeFirstEdge]
      split
      · exact List.sublist_cons_self e es
      · exact ih.cons₂ e

theorem removeFirstEdge_filter_ids (l : List Edge) (o i : CId) (e : Edge)
    (hf : l.find? (fun f => f.src == o && f.dst == i) = some e)
    (hnd : (l.map (·.eid)).Nodup) :
    ((removeFirstEdge l o i).filter (fun f => f.dst == i)).map (·.eid)
      = ((l.filter (fun f => f.dst == i)).map (·.eid)).filter
          (fun x => x ≠ e.eid) := by
  induction l with
  | nil => simp [List.find?] at hf
  | cons a t ih =>
      rw [List.map_cons, List.nodup_cons] at hnd
      rw [removeFirstEdge]
      by_cases hpa : (a.src == o && a.dst == i) = true
      · have hfind : List.find? (fun f => f.src == o && f.dst == i) (a :: t)
            = some a := List.find?_cons_of_pos _ hpa
        rw [hfind] at hf
        have hae : a = e := by injection hf
        subst hae
        rw [if_pos hpa]
        have hpa' := hpa
        rw [Bool.and_eq_true] at hpa'
        rw [filter_dst_cons_pos t hpa'.2, List.map_cons,
          filter_ne_cons_neg _ a.eid]
        have hsub : ((t.filter (fun f => f.dst == i)).map (·.eid)).Sublist
            (t.map (·.eid)) := (List.filter_sublist t).map (·.eid)
        rw [filter_ne_of_not_mem (fun hm => hnd.1 (hsub.mem hm))]
      · have hfind : List.find? (fun f => f.src == o && f.dst == i) (a :: t)
            = List.find? (fun f => f.src == o && f.dst == i) t :=
          List.find?_cons_of_neg _ hpa
        rw [hfind] at hf
        have hemem : e ∈ t := List.mem_of_find?_eq_some hf
        have hane : a.eid ≠ e.eid := fun hq =>
          hnd.1 (hq ▸ List.mem_map.2 ⟨e, hemem, rfl⟩)
        rw [if_neg hpa]
        by_cases hdst : (a.dst == i) = true
        · rw [filter_dst_cons_pos _ hdst, filter_dst_cons_pos t hdst,
            List.map_cons, List.map_cons, filter_ne_cons_pos _ hane,
            ih hf hnd.2]
        · have hdst' : ¬ a.dst = i := by simpa using hdst
          rw [filter_dst_cons_neg _ hdst', filter_dst_cons_neg t hdst',
            ih hf hnd.2]

theorem removeFirstEdge_filter_dst (l : List Edge) (o i m : CId)
    (h : m ≠ i) :
    (removeFirstEdge l o i).filter (fun f => f.dst == m)
      = l.filter (fun f => f.dst == m) := by
  induction l with
  | nil => rfl
  | cons a t ih =>
      rw [removeFirstEdge]
      split
      · next hcond =>
          have hdst : a.dst = i := by
            have hc := hcond
            rw [Bool.and_eq_true] at hc
            simpa using hc.2
          rw [filter_dst_cons_neg t (fun hm => h (hm.symm.trans hdst))]
      · by_cases hdm : a.dst = m
        · rw [filter_dst_cons_pos _ (by simp [hdm]),
            filter_dst_cons_pos t (by simp [hdm]), ih]
        · rw [filter_dst_cons_neg _ hdm, filter_dst_cons_neg t hdm, ih]

theorem filter_dst_ne_other (l : List Edge) (i m : CId) (h : m ≠ i) :
    (l.filter (fun e => e.dst ≠ i)).filter (fun e => e.dst == m)
      = l.filter (fun e => e.dst == m) := by
  induction l with
  | nil => rfl
  | cons a t ih =>
      by_cases h1 : a.dst = i
      · rw [filter_dstne_cons_neg t h1,
          filter_dst_cons_neg t (fun hm => h (hm.symm.trans h1)), ih]
      · by_cases h2 : a.dst = m
        · rw [filter_dstne_cons_pos t h1, filter_dst_cons_pos _ (by simp [h2]),
            filter_dst_cons_pos t (by simp [h2]), ih]
        · rw [filter_dstne_cons_pos t h1, filter_dst_cons_neg _ h2,
            filter_dst_cons_neg t h2, ih]



theorem dropContrib_getContribs_other (g : Graph) (f : Edge) (m : CId)
    (ow : Nat) (hne : f.dst ≠ m) :
    getContribs ((dropContribForEdge g f).objs ow) m
      = getContribs (g.objs ow) m := by
  unfold dropContribForEdge
  cases hfd : g.decls f.dst with
  | none => rfl
  | some d' =>
      dsimp only
      split
      · rw [updObj_objs]
        by_cases how : ow = d'.owner
        · rw [if_pos how, how]
          exact getContribs_setContribs_ne _ _ _ _ (fun hc => hne hc.symm)
        · rw [if_neg how]
      · rfl

theorem dropContrib_getContribs_same (g : Graph) (f : Edge) (d : ConnDecl)
    (hd : g.decls f.dst = some d) (hrole : d.role = Role.multiInput) :
    getContribs ((dropContribForEdge g f).objs d.owner) f.dst
      = (getContribs (g.objs d.owner) f.dst).filter
          (fun p => p.1 ≠ f.eid) := by
  unfold dropContribForEdge
  rw [hd]
  dsimp only
  rw [if_pos hrole]
  rw [updObj_objs, if_pos rfl, getContribs_setContribs_same]
  rfl

theorem filter_ne_filter_not_mem (l : List (Nat × Val)) (a : Nat)
    (ids : List Nat) :
    (l.filter (fun p => p.1 ≠ a)).filter (fun p => ¬ p.1 ∈ ids)
      = l.filter (fun p => ¬ p.1 ∈ a :: ids) := by
  induction l with
  | nil => rfl
  | cons x xs ih =>
      by_cases h1 : x.1 = a <;> by_cases h2 : x.1 ∈ ids <;>
        simp [List.filter_cons, h1, h2, ih, List.mem_cons] <;>
        exact List.filter_congr (fun y hy => Bool.and_comm _ _)

theorem foldl_drop_ids (rs : List Edge) : ∀ (g : Graph) (m : CId)
    (d : ConnDecl), g.decls m = some d → d.role = Role.multiInput →
    getContribs ((rs.foldl dropContribForEdge g).objs d.owner) m
      = (getContribs (g.objs d.owner) m).filter
          (fun p => ¬ p.1 ∈ ((rs.filter (fun f => f.dst == m)).map (·.eid))) := by
  induction rs with
  | nil =>
      intro g m d _ _
      simp
  | cons f rs ih =>
      intro g m d hd hrole
      have hstep : (dropContribForEdge g f).decls = g.decls :=
        (foldl_dropContrib_frame [f] g).1
      have hd' : (dropContribForEdge g f).decls m = some d := by
        rw [hstep]; exact hd
      rw [List.foldl_cons, ih (dropContribForEdge g f) m d hd' hrole]
      by_cases hfm : f.dst = m
      · have hsame : getContribs ((dropContribForEdge g f).objs d.owner) m
            = (getContribs (g.objs d.owner) m).filter
                (fun p => p.1 ≠ f.eid) := by
          have := dropContrib_getContribs_same g f d (by rw [← hfm] at hd; exact hd) hrole
          rw [hfm] at this
          exact this
        rw [hsame, filter_ne_filter_not_mem]
        rw [filter_dst_cons_pos rs (by simp [hfm]), List.map_cons]
      · rw [dropContrib_getContribs_other g f m d.owner hfm]
        rw [filter_dst_cons_neg rs hfm]

theorem filter_filter_comm_congr (l : List Edge) (q r s : Edge → Bool)
    (h : ∀ e ∈ l, r e = true → q e = s e) :
    (l.filter r).filter q = (l.filter s).filter r := by
  induction l with
  | nil => rfl
  | cons a t ih =>
      have ih' := ih (fun e he hr => h e (List.mem_cons_of_mem _ he) hr)
      by_cases hr : r a = true
      · rw [List.filter_cons_of_pos hr]
        by_cases hq : q a = true
        · have hs : s a = true := by
            rw [← h a (List.mem_cons_self a t) hr]; exact hq
          rw [List.filter_cons_of_pos hq, List.filter_cons_of_pos hs,
            List.filter_cons_of_pos hr, ih']
        · have hs : ¬ s a = true := by
            rw [← h a (List.mem_cons_self a t) hr]; exact hq
          rw [List.filter_cons_of_neg hq, List.filter_cons_of_neg hs, ih']
      · rw [List.filter_cons_of_neg hr]
        by_cases hs : s a = true
        · rw [List.filter_cons_of_pos hs, List.filter_cons_of_neg hr, ih']
        · rw [List.filter_cons_of_neg hs, ih']

theorem prune_corr (g : Graph) (pred : Edge → Bool) (hW : WInv g)
    (m : CId) (d : ConnDecl) (hd : g.decls m = some d)
    (hrole : d.role = Role.multiInput) :
    (getContribs (((g.edges.filter pred).foldl dropContribForEdge g).objs
        d.owner) m).map (·.1)
      = ((g.edges.filter (fun e => ¬ pred e)).filter
          (fun f => f.dst == m)).map (·.eid) := by
  obtain ⟨hW1, hW2, hW3⟩ := hW
  rw [foldl_drop_ids (g.edges.filter pred) g m d hd hrole]
  rw [filter_map_comm (·.1)
    (fun x => decide (¬ x ∈ (((g.edges.filter pred).filter
      (fun f => f.dst == m)).map (·.eid)))) (getContribs (g.objs d.owner) m)]
  have hids : (getContribs (g.objs d.owner) m).map (·.1)
      = (edgesInto g m).map (·.eid) := by
    have := hW3 m d hd hrole
    unfold contribIds at this
    rw [contribsOf_eq hd] at this
    exact this
  rw [hids]
  rw [← filter_map_comm (·.eid)
    (fun x => decide (¬ x ∈ (((g.edges.filter pred).filter
      (fun f => f.dst == m)).map (·.eid)))) (edgesInto g m)]
  unfold edgesInto
  refine congrArg (List.map (·.eid)) (filter_filter_comm_congr g.edges _ _ _ ?_)
  intro e he hdm
  by_cases hp : pred e = true
  · have hmem : e.eid ∈ ((g.edges.filter pred).filter
        (fun f => f.dst == m)).map (·.eid) := by
      refine List.mem_map.2 ⟨e, ?_, rfl⟩
      exact List.mem_filter.2 ⟨List.mem_filter.2 ⟨he, hp⟩, hdm⟩
    exact (decide_eq_false (fun hno => hno hmem)).trans
      (decide_eq_false (fun hno => hno hp)).symm
  · have hnmem : ¬ e.eid ∈ ((g.edges.filter pred).filter
        (fun f => f.dst == m)).map (·.eid) := by
      intro hmem
      obtain ⟨f, hfmem, hfeq⟩ := List.mem_map.1 hmem
      have hf1 := List.mem_filter.1 (List.mem_filter.1 hfmem).1
      have hfe : f = e := List.inj_on_of_nodup_map hW2 hf1.1 he hfeq
      rw [hfe] at hf1
      exact hp hf1.2
    exact (decide_eq_true hnmem).trans (decide_eq_true hp).symm


theorem removeContrib_ids (l : List (Nat × Val)) (id : Nat) :
    (removeContrib l id).map (·.1)
      = (l.map (·.1)).filter (fun x => x ≠ id) := by
  unfold removeContrib
  exact filter_map_comm (·.1) (fun x => decide (x ≠ id)) l

theorem applyDeliver_contribs_multi_same (gm : Graph) (o' i' n : Nat)
    (v : Val) (d : ConnDecl) (hd : gm.decls i' = some d)
    (hrole : d.role = Role.multiInput) :
    getContribs ((applyDeliver gm ⟨o', i', n⟩ v).objs d.owner) i'
      = putContrib (getContribs (gm.objs d.owner) i') n v := by
  unfold applyDeliver
  dsimp only
  rw [hd]
  obtain ⟨ow, ro, ty, dep, sl, ge⟩ := d
  dsimp only at hrole ⊢
  subst hrole
  dsimp only
  rw [updObj_objs, if_pos rfl, getContribs_setContribs_same]

theorem applyDeliver_contribs_multi_other (gm : Graph) (o' i' n : Nat)
    (v : Val) (m : CId) (ow : Nat) (hne : m ≠ i') :
    getContribs ((applyDeliver gm ⟨o', i', n⟩ v).objs ow) m
      = getContribs (gm.objs ow) m := by
  unfold applyDeliver
  dsimp only
  cases hd : gm.decls i' with
  | none => rfl
  | some d =>
      obtain ⟨ow', ro, ty, dep, sl, ge⟩ := d
      cases ro
      · dsimp only
        rw [updObj_objs]
        by_cases how : ow = ow'
        · rw [if_pos how, how]
          rfl
        · rw [if_neg how]
      · rfl
      · rfl
      · dsimp only
        rw [updObj_objs]
        by_cases how : ow = ow'
        · rw [if_pos how, how]
          exact getContribs_setContribs_ne _ _ _ _ hne
        · rw [if_neg how]

theorem applyDeliver_contribs_nonmulti (gm : Graph) (o' i' n : Nat)
    (v : Val) (d : ConnDecl) (hd : gm.decls i' = some d)
    (hrole : ¬ d.role = Role.multiInput) :
    ∀ nn c, getContribs ((applyDeliver gm ⟨o', i', n⟩ v).objs nn) c
      = getContribs (gm.objs nn) c := by
  intro nn c
  unfold applyDeliver
  dsimp only
  rw [hd]
  obtain ⟨ow, ro, ty, dep, sl, ge⟩ := d
  dsimp only at hrole ⊢
  cases ro
  · dsimp only
    rw [updObj_objs]
    by_cases how : nn = ow
    · rw [if_pos how, how]
      rfl
    · rw [if_neg how]
  · rfl
  · rfl
  · exact absurd rfl hrole

theorem connect_winv_multi (g gm : Graph) (o i : CId) (dIn : ConnDecl)
    (hdi : g.decls i = some dIn) (hrole : dIn.role = Role.multiInput)
    (hW : WInv g) (v : Val)
    (hE : gm.edges = g.edges ++ [⟨o, i, g.nextId⟩])
    (hD : gm.decls = g.decls) (hN : gm.nextId = g.nextId + 1)
    (hO : gm.objs = g.objs) :
    WInv (applyDeliver gm ⟨o, i, g.nextId⟩ v) := by
  obtain ⟨hW1, hW2, hW3⟩ := hW
  have hF := applyDeliver_frame gm ⟨o, i, g.nextId⟩ v
  have hfresh : ∀ x ∈ g.edges.map (·.eid), x < g.nextId := by
    intro x hx
    obtain ⟨f, hf, hfe⟩ := List.mem_map.1 hx
    exact hfe ▸ hW1 f hf
  refine ⟨?_, ?_, ?_⟩
  · intro f hf
    rw [hF.1, hE] at hf
    rw [hF.2.2.2.1, hN]
    rcases List.mem_append.1 hf with h1 | h1
    · exact Nat.lt_succ_of_lt (hW1 f h1)
    · have hfe : f = ⟨o, i, g.nextId⟩ := by simpa using h1
      rw [hfe]
      exact Nat.lt_succ_self _
  · rw [hF.1, hE, List.map_append]
    exact nodup_append_singleton hW2
      (fun hm => Nat.lt_irrefl _ (hfresh _ hm))
  · intro m dm hdm hrm
    have hdm' : g.decls m = some dm := by rw [← hD, ← hF.2.1]; exact hdm
    unfold contribIds
    rw [contribsOf_eq hdm]
    have hEi : edgesInto (applyDeliver gm ⟨o, i, g.nextId⟩ v) m
        = (g.edges ++ [(⟨o, i, g.nextId⟩ : Edge)]).filter
            (fun f => f.dst == m) := by
      unfold edgesInto
      rw [hF.1, hE]
    rw [hEi, List.filter_append]
    by_cases hmi : m = i
    · subst hmi
      have hdd : dm = dIn := by
        rw [hdm'] at hdi
        injection hdi
      subst hdd
      have hgd : gm.decls m = some dm := by rw [hD]; exact hdm'
      rw [applyDeliver_contribs_multi_same gm o m g.nextId v dm hgd hrole]
      rw [hO]
      have hids : (getContribs (g.objs dm.owner) m).map (·.1)
          = (edgesInto g m).map (·.eid) := by
        have := hW3 m dm hdm' hrm
        unfold contribIds at this
        rw [contribsOf_eq hdm'] at this
        exact this
      have hfresh2 : g.nextId ∉ (getContribs (g.objs dm.owner) m).map (·.1) := by
        rw [hids]
        intro hm
        have hsub : ((edgesInto g m).map (·.eid)).Sublist
            (g.edges.map (·.eid)) := (List.filter_sublist g.edges).map (·.eid)
        exact Nat.lt_irrefl _ (hfresh _ (hsub.subset hm))
      rw [putContrib_ids_append v hfresh2, hids]
      have hsing : ([(⟨o, m, g.nextId⟩ : Edge)]).filter (fun f => f.dst == m)
          = [⟨o, m, g.nextId⟩] := by
        rw [filter_dst_cons_pos [] (by simp)]
        rfl
      rw [hsing, List.map_append]
      unfold edgesInto
      rfl
    · rw [applyDeliver_contribs_multi_other gm o i g.nextId v m dm.owner hmi,
        hO]
      have hids : (getContribs (g.objs dm.owner) m).map (·.1)
          = (edgesInto g m).map (·.eid) := by
        have := hW3 m dm hdm' hrm
        unfold contribIds at this
        rw [contribsOf_eq hdm'] at this
        exact this
      have hsing : ([(⟨o, i, g.nextId⟩ : Edge)]).filter (fun f => f.dst == m)
          = ([] : List Edge) := by
        rw [filter_dst_cons_neg [] (fun hh => hmi hh.symm)]
        rfl
      rw [hids, hsing, List.append_nil]
      unfold edgesInto
      rfl

theorem connect_winv_nonmulti (g gm : Graph) (o i : CId) (dIn : ConnDecl)
    (hdi : g.decls i = some dIn) (hrole : ¬ dIn.role = Role.multiInput)
    (hW : WInv g) (v : Val)
    (hE : gm.edges = g.edges.filter (fun e => e.dst ≠ i)
      ++ [⟨o, i, g.nextId⟩])
    (hD : gm.decls = g.decls) (hN : gm.nextId = g.nextId + 1)
    (hO : gm.objs = g.objs) :
    WInv (applyDeliver gm ⟨o, i, g.nextId⟩ v) := by
  obtain ⟨hW1, hW2, hW3⟩ := hW
  have hF := applyDeliver_frame gm ⟨o, i, g.nextId⟩ v
  have hgd : gm.decls i = some dIn := by rw [hD]; exact hdi
  have hcon := applyDeliver_contribs_nonmulti gm o i g.nextId v dIn hgd hrole
  have hsubE : (g.edges.filter (fun e => e.dst ≠ i)).Sublist g.edges :=
    List.filter_sublist g.edges
  refine ⟨?_, ?_, ?_⟩
  · intro f hf
    rw [hF.1, hE] at hf
    rw [hF.2.2.2.1, hN]
    rcases List.mem_append.1 hf with h1 | h1
    · exact Nat.lt_succ_of_lt (hW1 f (hsubE.subset h1))
    · have hfe : f = ⟨o, i, g.nextId⟩ := by simpa using h1
      rw [hfe]
      exact Nat.lt_succ_self _
  · rw [hF.1, hE, List.map_append]
    refine nodup_append_singleton ((hsubE.map (·.eid)).nodup hW2) ?_
    intro hm
    have hsub2 : ((g.edges.filter (fun e => e.dst ≠ i)).map (·.eid)).Sublist
        (g.edges.map (·.eid)) := hsubE.map (·.eid)
    obtain ⟨f, hf, hfe⟩ := List.mem_map.1 (hsub2.subset hm)
    exact Nat.lt_irrefl _ (hfe ▸ hW1 f hf)
  · intro m dm hdm hrm
    have hdm' : g.decls m = some dm := by rw [← hD, ← hF.2.1]; exact hdm
    have hmi : m ≠ i := by
      intro hq
      rw [hq, hdi] at hdm'
      injection hdm' with hq2
      exact hrole (hq2 ▸ hrm)
    unfold contribIds
    rw [contribsOf_eq hdm]
    rw [hcon dm.owner m, hO]
    have hids : (getContribs (g.objs dm.owner) m).map (·.1)
        = (edgesInto g m).map (·.eid) := by
      have := hW3 m dm hdm' hrm
      unfold contribIds at this
      rw [contribsOf_eq hdm'] at this
      exact this
    have hEi : edgesInto (applyDeliver gm ⟨o, i, g.nextId⟩ v) m
        = ((g.edges.filter (fun e => e.dst ≠ i))
            ++ [(⟨o, i, g.nextId⟩ : Edge)]).filter
            (fun f => f.dst == m) := by
      unfold edgesInto
      rw [hF.1, hE]
    rw [hEi, List.filter_append]
    have hsing : ([(⟨o, i, g.nextId⟩ : Edge)]).filter (fun f => f.dst == m)
        = ([] : List Edge) := by
      rw [filter_dst_cons_neg [] (fun hh => hmi hh.symm)]
      rfl
    rw [hsing, List.append_nil, filter_dst_ne_other g.edges i m hmi, hids]
    unfold edgesInto
    rfl

theorem disconnect_winv_multi (g : Graph) (o i : CId) (dIn : ConnDecl)
    (e : Edge) (hdi : g.decls i = some dIn)
    (hrole : dIn.role = Role.multiInput)
    (hfe : findEdge g o i = some e) (hW : WInv g) :
    WInv (updObj { g with edges := removeFirstEdge g.edges o i } dIn.owner
      (setContribs (g.objs dIn.owner) i
        (removeContrib (getContribs (g.objs dIn.owner) i) e.eid))) := by
  obtain ⟨hW1, hW2, hW3⟩ := hW
  unfold findEdge at hfe
  have hsubE : (removeFirstEdge g.edges o i).Sublist g.edges :=
    removeFirstEdge_sublist g.edges o i
  refine ⟨?_, ?_, ?_⟩
  · intro f hf
    exact hW1 f (hsubE.subset hf)
  · exact (hsubE.map (·.eid)).nodup hW2
  · intro m dm hdm hrm
    have hdm' : g.decls m = some dm := hdm
    unfold contribIds
    rw [contribsOf_eq hdm]
    by_cases hmi : m = i
    · subst hmi
      have hdd : dm = dIn := by
        rw [hdm'] at hdi
        injection hdi
      subst hdd
      have hobj : (updObj { g with edges := removeFirstEdge g.edges o m }
            dm.owner (setContribs (g.objs dm.owner) m
              (removeContrib (getContribs (g.objs dm.owner) m) e.eid))).objs
            dm.owner
          = setContribs (g.objs dm.owner) m
              (removeContrib (getContribs (g.objs dm.owner) m) e.eid) := by
        rw [updObj_objs, if_pos rfl]
      rw [hobj, getContribs_setContribs_same, removeContrib_ids]
      have hids : (getContribs (g.objs dm.owner) m).map (·.1)
          = (edgesInto g m).map (·.eid) := by
        have := hW3 m dm hdm' hrm
        unfold contribIds at this
        rw [contribsOf_eq hdm'] at this
        exact this
      rw [hids]
      unfold edgesInto
      exact (removeFirstEdge_filter_ids g.edges o m e hfe hW2).symm
    · have hobj : (updObj { g with edges := removeFirstEdge g.edges o i }
            dIn.owner (setContribs (g.objs dIn.owner) i
              (removeContrib (getContribs (g.objs dIn.owner) i) e.eid))).objs
            dm.owner
          = if dm.owner = dIn.owner then
              setContribs (g.objs dIn.owner) i
                (removeContrib (getContribs (g.objs dIn.owner) i) e.eid)
            else g.objs dm.owner := updObj_objs _ _ _ _
      rw [hobj]
      have hgc : getContribs (if dm.owner = dIn.owner then
            setContribs (g.objs dIn.owner) i
              (removeContrib (getContribs (g.objs dIn.owner) i) e.eid)
          else g.objs dm.owner) m = getContribs (g.objs dm.owner) m := by
        by_cases how : dm.owner = dIn.owner
        · rw [if_pos how, how]
          exact getContribs_setContribs_ne _ _ _ _ hmi
        · rw [if_neg how]
      rw [hgc]
      have hids : (getContribs (g.objs dm.owner) m).map (·.1)
          = (edgesInto g m).map (·.eid) := by
        have := hW3 m dm hdm' hrm
        unfold contribIds at this
        rw [contribsOf_eq hdm'] at this
        exact this
      rw [hids]
      unfold edgesInto
      exact congrArg (List.map (·.eid))
        (removeFirstEdge_filter_dst g.edges o i m hmi).symm

theorem removeFirst_winv_nonmulti (g : Graph) (o i : CId) (dIn : ConnDecl)
    (hdi : g.decls i = some dIn) (hrole : ¬ dIn.role = Role.multiInput)
    (hW : WInv g) :
    WInv { g with edges := removeFirstEdge g.edges o i } := by
  obtain ⟨hW1, hW2, hW3⟩ := hW
  have hsubE : (removeFirstEdge g.edges o i).Sublist g.edges :=
    removeFirstEdge_sublist g.edges o i
  refine ⟨?_, ?_, ?_⟩
  · intro f hf
    exact hW1 f (hsubE.subset hf)
  · exact (hsubE.map (·.eid)).nodup hW2
  · intro m dm hdm hrm
    have hdm' : g.decls m = some dm := hdm
    have hmi : m ≠ i := by
      intro hq
      rw [hq, hdi] at hdm'
      injection hdm' with hq2
      exact hrole (hq2 ▸ hrm)
    unfold contribIds
    rw [contribsOf_eq hdm]
    have hids : (getContribs (g.objs dm.owner) m).map (·.1)
        = (edgesInto g m).map (·.eid) := by
      have := hW3 m dm hdm' hrm
      unfold contribIds at this
      rw [contribsOf_eq hdm'] at this
      exact this
    rw [hids]
    unfold edgesInto
    exact congrArg (List.map (·.eid))
      (removeFirstEdge_filter_dst g.edges o i m hmi).symm

theorem prune_winv (g : Graph) (pred : Edge → Bool) (g' : Graph)
    (hW : WInv g)
    (hE : g'.edges = g.edges.filter (fun e => ¬ pred e))
    (hD : g'.decls = g.decls) (hN : g'.nextId = g.nextId)
    (hO : g'.objs = ((g.edges.filter pred).foldl dropContribForEdge g).objs) :
    WInv g' := by
  have hsubE : (g.edges.filter (fun e => ¬ pred e)).Sublist g.edges :=
    List.filter_sublist g.edges
  refine ⟨?_, ?_, ?_⟩
  · intro f hf
    rw [hE] at hf
    rw [hN]
    exact hW.1 f (hsubE.subset hf)
  · rw [hE]
    exact (hsubE.map (·.eid)).nodup hW.2.1
  · intro m dm hdm hrm
    have hdm' : g.decls m = some dm := by rw [← hD]; exact hdm
    unfold contribIds
    rw [contribsOf_eq hdm, hO]
    have hp := prune_corr g pred hW m dm hdm' hrm
    rw [hp]
    unfold edgesInto
    rw [hE]

theorem init_winv (dcls : CId → Option ConnDecl) (objs0 : Nat → ObjState)
    (h0 : ∀ n, (objs0 n).multis = []) : WInv (initGraph dcls objs0) := by
  refine ⟨?_, ?_, ?_⟩
  · intro e he
    simp [initGraph] at he
  · simp [initGraph]
  · intro m dm hdm hrm
    unfold contribIds
    rw [contribsOf_eq hdm]
    have hg : getContribs ((initGraph dcls objs0).objs dm.owner) m = [] := by
      unfold getContribs initGraph
      dsimp only
      rw [h0 dm.owner]
      rfl
    rw [hg]
    unfold edgesInto initGraph
    rfl


/-- Every successful operation that does not directly add or remove
MultiInput contributions preserves the registry well-formedness invariant. -/
theorem runOp_winv : ∀ (g : Graph) (op : Op) (g1 : Graph) (evs : List Event),
    noDirectMulti op = true → runOp g op = some (.ok (g1, evs)) →
    WInv g → WInv g1 := by
  intro g op g1 evs hnd h hW
  cases op with
  | setInput c v =>
      simp only [runOp] at h
      unfold setInputOp at h
      cases hd : g.decls c with
      | none => rw [hd] at h; simp at h
      | some d =>
          rw [hd] at h
          dsimp only at h
          split at h
          · simp at h
          · split at h
            · simp at h
            · obtain ⟨vis, hres⟩ := finishFire_ok h
              exact winv_fire hres
                (winv_transport hW rfl rfl rfl (updObj_slots_ids g d.owner _))
  | callTrigger c =>
      simp only [runOp] at h
      unfold callTriggerOp at h
      cases hd : g.decls c with
      | none => rw [hd] at h; simp at h
      | some d =>
          rw [hd] at h
          dsimp only at h
          split at h
          · simp at h
          · split at h
            · simp at h
            · obtain ⟨vis, hres⟩ := finishFire_ok h
              exact winv_fire hres hW
  | readOutput o =>
      simp only [runOp] at h
      unfold readOutputOp at h
      cases hd : g.decls o with
      | none => rw [hd] at h; simp at h
      | some d =>
          rw [hd] at h
          dsimp only at h
          split at h
          · simp at h
          · split at h
            · simp at h
            · simp only [Option.some.injEq, Except.ok.injEq,
                Prod.mk.injEq] at h
              obtain ⟨h1, h2⟩ := h
              rw [← h1]
              exact winv_transport hW (readValue_frame g o).1
                (readValue_frame g o).2.1 (readValue_frame g o).2.2.2
                (fun n c => by rw [readValue_objs])
  | addMulti c v => simp [noDirectMulti] at hnd
  | removeMulti c id => simp [noDirectMulti] at hnd
  | connect o i =>
      simp only [runOp] at h
      unfold connectOp at h
      cases hdo : g.decls o with
      | none =>
          rw [hdo] at h
          cases hdi : g.decls i <;> rw [hdi] at h <;> simp at h
      | some dOut =>
          rw [hdo] at h
          cases hdi : g.decls i with
          | none => rw [hdi] at h; simp at h
          | some dIn =>
              rw [hdi] at h
              dsimp only at h
              split at h
              · simp at h
              · split at h
                · simp at h
                · split at h
                  · simp at h
                  · split at h
                    · simp at h
                    · split at h
                      · simp at h
                      · by_cases hm : dIn.role = Role.multiInput
                        · rw [if_pos hm] at h
                          obtain ⟨vis, hres⟩ := finishFire_ok h
                          exact winv_fire hres
                            (connect_winv_multi g _ o i dIn hdi hm hW _
                              ((readValue_frame _ o).1)
                              ((readValue_frame _ o).2.1)
                              ((readValue_frame _ o).2.2.2)
                              (readValue_objs _ o))
                        · rw [if_neg hm] at h
                          obtain ⟨vis, hres⟩ := finishFire_ok h
                          exact winv_fire hres
                            (connect_winv_nonmulti g _ o i dIn hdi hm hW _
                              ((readValue_frame _ o).1)
                              ((readValue_frame _ o).2.1)
                              ((readValue_frame _ o).2.2.2)
                              (readValue_objs _ o))
  | disconnect o i =>
      simp only [runOp] at h
      unfold disconnectOp at h
      cases hdo : g.decls o with
      | none =>
          rw [hdo] at h
          cases hdi : g.decls i <;> rw [hdi] at h <;> simp at h
      | some dOut =>
          rw [hdo] at h
          cases hdi : g.decls i with
          | none => rw [hdi] at h; simp at h
          | some dIn =>
              rw [hdi] at h
              dsimp only at h
              split at h
              · simp at h
              · cases hfe : findEdge g o i with
                | none => rw [hfe] at h; simp at h
                | some e =>
                    rw [hfe] at h
                    dsimp only at h
                    by_cases hm : dIn.role = Role.multiInput
                    · rw [if_pos hm] at h
                      obtain ⟨vis, hres⟩ := finishFire_ok h
                      exact winv_fire hres
                        (disconnect_winv_multi g o i dIn e hdi hm hfe hW)
                    · rw [if_neg hm] at h
                      simp only [Option.some.injEq, Except.ok.injEq,
                        Prod.mk.injEq] at h
                      obtain ⟨h1, h2⟩ := h
                      rw [← h1]
                      exact removeFirst_winv_nonmulti g o i dIn hdi hm hW
  | disconnectAll c =>
      simp only [runOp] at h
      unfold disconnectAllOp at h
      cases hd : g.decls c with
      | none => rw [hd] at h; simp at h
      | some d =>
          rw [hd] at h
          dsimp only at h
          split at h
          · simp at h
          · simp only [Option.some.injEq, Except.ok.injEq, Prod.mk.injEq] at h
            obtain ⟨h1, h2⟩ := h
            rw [← h1]
            exact prune_winv g (touches c) _ hW rfl
              (foldl_dropContrib_frame _ g).1
              (foldl_dropContrib_frame _ g).2.2.2.2 rfl
  | deactivateOutput o =>
      simp only [runOp] at h
      unfold deactivateOp at h
      cases hd : g.decls o with
      | none => rw [hd] at h; simp at h
      | some d =>
          rw [hd] at h
          dsimp only at h
          split at h
          · simp at h
          · split at h
            · simp at h
            · simp only [Option.some.injEq, Except.ok.injEq,
                Prod.mk.injEq] at h
              obtain ⟨h1, h2⟩ := h
              rw [← h1]
              exact winv_transport hW rfl rfl rfl (fun n c => rfl)
  | activateOutput o =>
      simp only [runOp] at h
      unfold activateOp at h
      cases hd : g.decls o with
      | none => rw [hd] at h; simp at h
      | some d =>
          rw [hd] at h
          dsimp only at h
          split at h
          · simp at h
          · split at h
            · simp at h
            · split at h
              · obtain ⟨vis, hres⟩ := finishFire_ok h
                exact winv_fireEdges hres (outEdges_subset _ _)
                  (winv_transport hW rfl rfl rfl (fun n c => rfl))
              · simp only [Option.some.injEq, Except.ok.injEq,
                  Prod.mk.injEq] at h
                obtain ⟨h1, h2⟩ := h
                rw [← h1]
                exact winv_transport hW rfl rfl rfl (fun n c => rfl)
  | destroyConnectors owner =>
      simp only [runOp] at h
      unfold destroyOp at h
      dsimp only at h
      simp only [Option.some.injEq, Except.ok.injEq, Prod.mk.injEq] at h
      obtain ⟨h1, h2⟩ := h
      rw [← h1]
      exact prune_winv g
        (fun e => ownedBy g owner e.src || ownedBy g owner e.dst) _ hW rfl
        (foldl_dropContrib_frame _ g).1
        (foldl_dropContrib_frame _ g).2.2.2.2 rfl

/-- A successful run of contribution-neutral operations preserves the
registry well-formedness invariant. -/
theorem run_winv : ∀ (ops : List Op) (g g1 : Graph) (tr : List Event),
    (∀ op ∈ ops, noDirectMulti op = true) →
    run g ops = some (.ok (g1, tr)) → WInv g → WInv g1 := by
  intro ops
  induction ops with
  | nil =>
      intro g g1 tr _ h hW
      simp only [run, Option.some.injEq, Except.ok.injEq, Prod.mk.injEq] at h
      rw [← h.1]
      exact hW
  | cons op ops ih =>
      intro g g1 tr hnd h hW
      unfold run at h
      cases hop : runOp g op with
      | none => rw [hop] at h; cases h
      | some x =>
          rw [hop] at h
          cases x with
          | error e => simp at h
          | ok p =>
              obtain ⟨gm, evs⟩ := p
              dsimp only at h
              cases hrun : run gm ops with
              | none => rw [hrun] at h; cases h
              | some y =>
                  rw [hrun] at h
                  cases y with
                  | error e => simp at h
                  | ok q =>
                      obtain ⟨g2, evs2⟩ := q
                      simp only [Option.some.injEq, Except.ok.injEq,
                        Prod.mk.injEq] at h
                      obtain ⟨h1, h2⟩ := h
                      rw [← h1]
                      exact ih gm g2 evs2
                        (fun op' ho' => hnd op' (List.mem_cons_of_mem _ ho'))
                        hrun
                        (runOp_winv g op gm evs
                          (hnd op (List.mem_cons_self _ _)) hop hW)


/-- C8: in every state reached from a fresh runtime by operations that do
not add or remove MultiInput contributions directly, each MultiInput with
`m` inbound edges holds exactly `m` contributions, keyed by the connection
identities of those edges in connection (registration) order; and a
`disconnect` that removes one edge into a MultiInput by its connection
identity removes exactly the one matching contribution, leaving the others
in their original relative order. -/
theorem c8_multi_contributions (dcls : CId → Option ConnDecl)
    (objs0 : Nat → ObjState) (h0 : ∀ n, (objs0 n).multis = [])
    (ops : List Op) (hops : ∀ op ∈ ops, noDirectMulti op = true)
    (g : Graph) (tr : List Event)
    (hrun : run (initGraph dcls objs0) ops = some (.ok (g, tr))) :
    (∀ c d, g.decls c = some d → d.role = Role.multiInput →
      contribIds g c = (edgesInto g c).map (·.eid)) ∧
    (∀ o i e g' tr' dIn,
      runOp g (Op.disconnect o i) = some (.ok (g', tr')) →
      findEdge g o i = some e → g.decls i = some dIn →
      dIn.role = Role.multiInput →
      (contribIds g i).count e.eid = 1 ∧
      contribIds g' i = (contribIds g i).filter (fun x => x ≠ e.eid)) := by
  have hW : WInv g := run_winv ops _ g tr hops hrun (init_winv dcls objs0 h0)
  refine ⟨hW.2.2, ?_⟩
  intro o i e g' tr' dIn h hfe hdi hrole
  constructor
  · rw [hW.2.2 i dIn hdi hrole]
    have hmem : e ∈ edgesInto g i := by
      unfold findEdge at hfe
      have he1 := List.mem_of_find?_eq_some hfe
      have he2 := List.find?_some hfe
      rw [Bool.and_eq_true] at he2
      unfold edgesInto
      exact List.mem_filter.2 ⟨he1, he2.2⟩
    have hnd : ((edgesInto g i).map (·.eid)).Nodup :=
      ((List.filter_sublist g.edges).map (·.eid)).nodup hW.2.1
    exact List.count_eq_one_of_mem hnd (List.mem_map.2 ⟨e, hmem, rfl⟩)
  · simp only [runOp] at h
    unfold disconnectOp at h
    cases hdo : g.decls o with
    | none => rw [hdo, hdi] at h; simp at h
    | some dOut =>
        rw [hdo, hdi] at h
        dsimp only at h
        split at h
        · simp at h
        · rw [hfe] at h
          dsimp only at h
          obtain ⟨vis, hres⟩ := finishFire_ok h
          have hW2 : WInv (updObj
              { g with edges := removeFirstEdge g.edges o i } dIn.owner
              (setContribs (g.objs dIn.owner) i
                (removeContrib (getContribs (g.objs dIn.owner) i) e.eid))) :=
            disconnect_winv_multi g o i dIn e hdi hrole hfe hW
          have hids := (fire_contrib_ids_all _).1 _ _ _ _ _ hres
            (corr_to_edgeContribs hW2.2.2)
          have fB := (fire_frame_all _).1 _ _ _ _ _ hres
          have hde := fB.decls_eq
          dsimp only at hde
          have hdi' : g'.decls i = some dIn := by
            rw [hde]
            exact hdi
          unfold contribIds
          rw [contribsOf_eq hdi', contribsOf_eq hdi]
          have h5 := hids dIn.owner i
          dsimp only at h5
          rw [h5, updObj_objs, if_pos rfl, getContribs_setContribs_same,
            removeContrib_ids]

theorem c8_witness :
    contribIds w8res.1 2 = (edgesInto w8res.1 2).map (·.eid) ∧
    (contribIds w8res.1 2).count 0 = 1 ∧
    contribIds w8dres.1 2 = (contribIds w8res.1 2).filter (fun x => x ≠ 0) := by
  have hops : ∀ op ∈ w8ops, noDirectMulti op = true := by decide
  have hrun : run w8G w8ops = some (.ok (w8res.1, w8res.2)) := by
    simp [w8res, w8ops, w8G, w8decls, initGraph, run, runOp, connectOp,
      compatible, findEdge, readValue, fire, fireDeps, fireEdges, finishFire,
      passFuel, updObj, updOut, markDirty, setCache, applyDeliver, depsOf,
      outEdges, computeOutput, slotVal, setSlotL, getContribs, setContribs,
      putContrib]
  have hmain := c8_multi_contributions w8decls
    (fun _ => { slots := [], multis := [] }) (fun n => rfl) w8ops hops
    w8res.1 w8res.2 hrun
  have hdisc : runOp w8res.1 (Op.disconnect 1 2)
      = some (.ok (w8dres.1, w8dres.2)) := by
    simp [w8dres, w8res, w8ops, w8G, w8decls, initGraph, run, runOp,
      connectOp, disconnectOp, compatible, findEdge, removeFirstEdge,
      removeContrib, readValue, fire, fireDeps, fireEdges, finishFire,
      passFuel, updObj, updOut, markDirty, setCache, applyDeliver, depsOf,
      outEdges, computeOutput, slotVal, setSlotL, getContribs, setContribs,
      putContrib]
  have hfe : findEdge w8res.1 1 2 = some ⟨1, 2, 0⟩ := by
    simp [w8res, w8ops, w8G, w8decls, initGraph, run, runOp, connectOp,
      compatible, findEdge, readValue, fire, fireDeps, fireEdges, finishFire,
      passFuel, updObj, updOut, markDirty, setCache, applyDeliver, depsOf,
      outEdges, computeOutput, slotVal, setSlotL, getContribs, setContribs,
      putContrib]
  have hdi : w8res.1.decls 2
      = some ⟨1, Role.multiInput, none, [3], 0, fun _ => 0⟩ := by
    simp [w8res, w8ops, w8G, w8decls, initGraph, run, runOp, connectOp,
      compatible, findEdge, readValue, fire, fireDeps, fireEdges, finishFire,
      passFuel, updObj, updOut, markDirty, setCache, applyDeliver, depsOf,
      outEdges, computeOutput, slotVal, setSlotL, getContribs, setContribs,
      putContrib]
  have hpart2 := hmain.2 1 2 ⟨1, 2, 0⟩ w8dres.1 w8dres.2 _ hdisc hfe hdi rfl
  exact ⟨hmain.1 2 _ hdi rfl, hpart2.1, hpart2.2⟩


/-! ### Claim C3: connect delivers exactly once at edge creation -/

theorem firing_noDirectMulti {op : Op} (h : firingOp op = true) :
    noDirectMulti op = true := by
  cases op <;> simp_all [firingOp, noDirectMulti]

theorem readValue_countD (g : Graph) (o : CId) (eid : Nat) :
    countD (readValue g o).2.2 eid = 0 := by
  unfold readValue
  split
  · rfl
  · exact countD_getter o eid

theorem runOp_firing_frame (g : Graph) (op : Op) (g1 : Graph)
    (evs : List Event) (hf : firingOp op = true)
    (h : runOp g op = some (.ok (g1, evs))) :
    g1.edges = g.edges ∧ g1.decls = g.decls := by
  cases op with
  | setInput c v =>
      simp only [runOp] at h
      unfold setInputOp at h
      cases hd : g.decls c with
      | none => rw [hd] at h; simp at h
      | some d =>
          rw [hd] at h
          dsimp only at h
          split at h
          · simp at h
          · split at h
            · simp at h
            · obtain ⟨vis, hres⟩ := finishFire_ok h
              have fB := (fire_frame_all _).1 _ _ _ _ _ hres
              have h1 := fB.edges_eq
              have h2 := fB.decls_eq
              dsimp only at h1 h2
              exact ⟨h1, h2⟩
  | callTrigger c =>
      simp only [runOp] at h
      unfold callTriggerOp at h
      cases hd : g.decls c with
      | none => rw [hd] at h; simp at h
      | some d =>
          rw [hd] at h
          dsimp only at h
          split at h
          · simp at h
          · split at h
            · simp at h
            · obtain ⟨vis, hres⟩ := finishFire_ok h
              have fB := (fire_frame_all _).1 _ _ _ _ _ hres
              have h1 := fB.edges_eq
              have h2 := fB.decls_eq
              dsimp only at h1 h2
              exact ⟨h1, h2⟩
  | readOutput o =>
      simp only [runOp] at h
      unfold readOutputOp at h
      cases hd : g.decls o with
      | none => rw [hd] at h; simp at h
      | some d =>
          rw [hd] at h
          dsimp only at h
          split at h
          · simp at h
          · split at h
            · simp at h
            · simp only [Option.some.injEq, Except.ok.injEq,
                Prod.mk.injEq] at h
              obtain ⟨h1, h2⟩ := h
              rw [← h1]
              exact ⟨(readValue_frame g o).1, (readValue_frame g o).2.1⟩
  | addMulti c v => simp [firingOp] at hf
  | removeMulti c id => simp [firingOp] at hf
  | connect o i => simp [firingOp] at hf
  | disconnect o i => simp [firingOp] at hf
  | disconnectAll c => simp [firingOp] at hf
  | deactivateOutput o => simp [firingOp] at hf
  | activateOutput o => simp [firingOp] at hf
  | destroyConnectors owner => simp [firingOp] at hf

theorem runOp_firing_prov (g : Graph) (op : Op) (g1 : Graph)
    (evs : List Event) (hf : firingOp op = true)
    (h : runOp g op = some (.ok (g1, evs))) :
    ∀ eid, 0 < countD evs eid → FiredProv g evs eid := by
  intro eid hcnt
  cases op with
  | setInput c v =>
      simp only [runOp] at h
      unfold setInputOp at h
      cases hd : g.decls c with
      | none => rw [hd] at h; simp at h
      | some d =>
          rw [hd] at h
          dsimp only at h
          split at h
          · simp at h
          · split at h
            · simp at h
            · obtain ⟨vis, hres⟩ := finishFire_ok h
              have hp := ((fire_deliver_all _).1 _ _ _ _ _ hres).2 eid hcnt
              exact firedProv_mono rfl rfl (fun ev he => he) hp
  | callTrigger c =>
      simp only [runOp] at h
      unfold callTriggerOp at h
      cases hd : g.decls c with
      | none => rw [hd] at h; simp at h
      | some d =>
          rw [hd] at h
          dsimp only at h
          split at h
          · simp at h
          · split at h
            · simp at h
            · obtain ⟨vis, hres⟩ := finishFire_ok h
              exact ((fire_deliver_all _).1 _ _ _ _ _ hres).2 eid hcnt
  | readOutput o =>
      simp only [runOp] at h
      unfold readOutputOp at h
      cases hd : g.decls o with
      | none => rw [hd] at h; simp at h
      | some d =>
          rw [hd] at h
          dsimp only at h
          split at h
          · simp at h
          · split at h
            · simp at h
            · simp only [Option.some.injEq, Except.ok.injEq,
                Prod.mk.injEq] at h
              rw [← h.2, readValue_countD] at hcnt
              exact absurd hcnt (lt_irrefl 0)
  | addMulti c v => simp [firingOp] at hf
  | removeMulti c id => simp [firingOp] at hf
  | connect o i => simp [firingOp] at hf
  | disconnect o i => simp [firingOp] at hf
  | disconnectAll c => simp [firingOp] at hf
  | deactivateOutput o => simp [firingOp] at hf
  | activateOutput o => simp [firingOp] at hf
  | destroyConnectors owner => simp [firingOp] at hf

/-- Along a run of pure set/trigger/read operations, any delivery along a
registered edge is preceded (in the same trace) by the firing of a
connector that declares the edge's source Output as dependent. -/
theorem run_firing_deliveries : ∀ (ops : List Op) (g g2 : Graph)
    (tr : List Event) (e : Edge),
    (∀ op ∈ ops, firingOp op = true) →
    run g ops = some (.ok (g2, tr)) → WInv g → e ∈ g.edges →
    0 < countD tr e.eid →
    ∃ c, Event.fired c ∈ tr ∧ e.src ∈ depsOf g c := by
  intro ops
  induction ops with
  | nil =>
      intro g g2 tr e _ h _ _ hcnt
      simp only [run, Option.some.injEq, Except.ok.injEq, Prod.mk.injEq] at h
      rw [← h.2] at hcnt
      simp [countD] at hcnt
  | cons op ops ih =>
      intro g g2 tr e hff h hW hemem hcnt
      unfold run at h
      cases hop : runOp g op with
      | none => rw [hop] at h; cases h
      | some x =>
          rw [hop] at h
          cases x with
          | error er => simp at h
          | ok p =>
              obtain ⟨gm, evs⟩ := p
              dsimp only at h
              cases hrun2 : run gm ops with
              | none => rw [hrun2] at h; cases h
              | some y =>
                  rw [hrun2] at h
                  cases y with
                  | error er => simp at h
                  | ok q =>
                      obtain ⟨g3, evs2⟩ := q
                      simp only [Option.some.injEq, Except.ok.injEq,
                        Prod.mk.injEq] at h
                      obtain ⟨h1, h2⟩ := h
                      have hfop := hff op (List.mem_cons_self _ _)
                      have hframe := runOp_firing_frame g op gm evs hfop hop
                      rw [← h2, countD_append] at hcnt
                      by_cases hc1 : 0 < countD evs e.eid
                      · obtain ⟨e', he', heid, c, hc, hdep⟩ :=
                          runOp_firing_prov g op gm evs hfop hop e.eid hc1
                        have hee : e' = e :=
                          List.inj_on_of_nodup_map hW.2.1 he' hemem heid
                        refine ⟨c, ?_, ?_⟩
                        · rw [← h2]
                          exact List.mem_append_left _ hc
                        · rw [← hee]
                          exact hdep
                      · have hc2 : 0 < countD evs2 e.eid := by omega
                        have hWm : WInv gm := runOp_winv g op gm evs
                          (firing_noDirectMulti hfop) hop hW
                        obtain ⟨c, hc, hdep⟩ := ih gm g3 evs2 e
                          (fun op' ho' => hff op' (List.mem_cons_of_mem _ ho'))
                          hrun2 hWm (by rw [hframe.1]; exact hemem) hc2
                        refine ⟨c, ?_, ?_⟩
                        · rw [← h2]
                          exact List.mem_append_right _ hc
                        · rw [depsOf_eq_of_decls hframe.2] at hdep
                          exact hdep


/-- C3: a successful `connect(output, input)` delivers the output's value
along the new edge exactly once at edge creation (the new edge, with the
fresh connection identity, enters the registry), and in any subsequent run
of set/trigger/read operations a further delivery along that edge happens
only after a connector fires that declares the output as a dependent (an
upstream change). -/
theorem c3_connect_single_delivery :
    ∀ (g : Graph) (o i : CId) (g1 : Graph) (evs : List Event),
      WInv g →
      connectOp g o i = some (.ok (g1, evs)) →
      (countD evs g.nextId = 1 ∧
        ∃ e, e ∈ g1.edges ∧ e.eid = g.nextId ∧ e.src = o ∧ e.dst = i) ∧
      (∀ ops2 g2 tr2, (∀ op ∈ ops2, firingOp op = true) →
        run g1 ops2 = some (.ok (g2, tr2)) →
        0 < countD tr2 g.nextId →
        ∃ c, Event.fired c ∈ tr2 ∧ o ∈ depsOf g1 c) := by
  intro g o i g1 evs hW h
  have hW1 : WInv g1 := runOp_winv g (Op.connect o i) g1 evs rfl h hW
  unfold connectOp at h
  cases hdo : g.decls o with
  | none =>
      rw [hdo] at h
      cases hdi : g.decls i <;> rw [hdi] at h <;> simp at h
  | some dOut =>
      rw [hdo] at h
      cases hdi : g.decls i with
      | none => rw [hdi] at h; simp at h
      | some dIn =>
          rw [hdi] at h
          dsimp only at h
          split at h
          · simp at h
          · split at h
            · simp at h
            · split at h
              · simp at h
              · split at h
                · simp at h
                · split at h
                  · simp at h
                  · obtain ⟨vis, hres⟩ := finishFire_ok h
                    have hDP := ((fire_deliver_all _).1 _ _ _ _ _ hres).1
                    have hstable := hDP.visited_stable g.nextId
                      (List.mem_cons_self _ _)
                    dsimp only at hstable
                    have hcount : countD evs g.nextId = 1 := by
                      rw [hstable, countD_append, readValue_countD,
                        countD_delivered, if_pos rfl]
                    have fB := (fire_frame_all _).1 _ _ _ _ _ hres
                    have hE := fB.edges_eq
                    dsimp only at hE
                    have hmem : (⟨o, i, g.nextId⟩ : Edge) ∈ g1.edges := by
                      rw [hE, (applyDeliver_frame _ _ _).1,
                        (readValue_frame _ _).1]
                      exact List.mem_append_right _ (List.mem_cons_self _ _)
                    refine ⟨⟨hcount, ⟨o, i, g.nextId⟩, hmem, rfl, rfl, rfl⟩,
                      ?_⟩
                    intro ops2 g2 tr2 hff hrun2 hcnt
                    obtain ⟨c, hc, hdep⟩ := run_firing_deliveries ops2 g1 g2
                      tr2 ⟨o, i, g.nextId⟩ hff hrun2 hW1 hmem hcnt
                    exact ⟨c, hc, hdep⟩

theorem c3_witness :
    countD w3res.2 w3G.nextId = 1 ∧
    ∃ e, e ∈ w3res.1.edges ∧ e.eid = w3G.nextId ∧ e.src = 1 ∧ e.dst = 2 := by
  have hW : WInv w3G :=
    init_winv w5decls (fun _ => { slots := [], multis := [] }) (fun n => rfl)
  have hconn : connectOp w3G 1 2 = some (.ok (w3res.1, w3res.2)) := by
    simp [w3res, w3G, w5decls, initGraph, connectOp, compatible, findEdge,
      readValue, fire, fireDeps, fireEdges, finishFire, passFuel, updObj,
      updOut, markDirty, setCache, applyDeliver, depsOf, outEdges,
      computeOutput, slotVal, setSlotL]
  exact (c3_connect_single_delivery w3G 1 2 w3res.1 w3res.2 hW hconn).1


/-! ### Claim C1: cache validity and the read contract -/

theorem cleanTrace_snoc_getter_self (g : Graph) (o : CId) (T : List Event) :
    cleanTrace g o (T ++ [Event.getterCall o]) = true := by
  unfold cleanTrace
  rw [List.reverse_append]
  simp [cleanR]

theorem cleanTrace_snoc_getter_ne (g : Graph) {o o' : CId} (h : o' ≠ o)
    (T : List Event) :
    cleanTrace g o (T ++ [Event.getterCall o']) = cleanTrace g o T := by
  unfold cleanTrace
  rw [List.reverse_append]
  simp [cleanR, h]

theorem cleanTrace_snoc_fired_dep {g : Graph} {o c : CId}
    (h : o ∈ depsOf g c) (T : List Event) :
    cleanTrace g o (T ++ [Event.fired c]) = false := by
  unfold cleanTrace
  rw [List.reverse_append]
  simp [cleanR, h]

theorem cleanTrace_snoc_fired_nodep {g : Graph} {o c : CId}
    (h : o ∉ depsOf g c) (T : List Event) :
    cleanTrace g o (T ++ [Event.fired c]) = cleanTrace g o T := by
  unfold cleanTrace
  rw [List.reverse_append]
  simp [cleanR, h]

theorem cleanTrace_snoc_delivered (g : Graph) (o : CId) (x : Nat)
    (T : List Event) :
    cleanTrace g o (T ++ [Event.delivered x]) = cleanTrace g o T := by
  unfold cleanTrace
  rw [List.reverse_append]
  simp [cleanR]

theorem cleanR_congr {g g' : Graph} (hD : g'.decls = g.decls) (o : CId) :
    ∀ l, cleanR g' o l = cleanR g o l := by
  intro l
  induction l with
  | nil => rfl
  | cons ev r ih =>
      cases ev with
      | fired c => simp [cleanR, ih, depsOf_eq_of_decls hD]
      | getterCall o' => simp [cleanR, ih]
      | delivered x => simp [cleanR, ih]

theorem cleanTrace_congr {g g' : Graph} (hD : g'.decls = g.decls) (o : CId)
    (tr : List Event) : cleanTrace g' o tr = cleanTrace g o tr := by
  unfold cleanTrace
  exact cleanR_congr hD o tr.reverse

theorem quiet_congr {g g' : Graph}
    (hA : ∀ x, (g'.outs x).active = (g.outs x).active)
    (hE : g'.edges = g.edges) (o : CId) : (quiet g' o ↔ quiet g o) := by
  unfold quiet
  rw [hA o, outEdges_eq_of_edges hE]

theorem invAt_congr {g g' : Graph} (hout : g'.outs = g.outs)
    (hD : g'.decls = g.decls) (o : CId) (tr : List Event) :
    InvAt g o tr ↔ InvAt g' o tr := by
  unfold InvAt
  rw [hout, cleanTrace_congr hD]


theorem markDirty_outs_self (g : Graph) (o : CId) :
    ((markDirty g o).outs o).dirty = true := by
  unfold markDirty
  rw [updOut_outs, if_pos rfl]

theorem markDirty_outs_ne (g : Graph) (o x : CId) (h : x ≠ o) :
    (markDirty g o).outs x = g.outs x := by
  unfold markDirty
  rw [updOut_outs, if_neg h]

theorem markDirty_outs_active (g : Graph) (o x : CId) :
    ((markDirty g o).outs x).active = (g.outs x).active := by
  unfold markDirty
  rw [updOut_outs]
  by_cases hx : x = o
  · rw [if_pos hx, hx]
  · rw [if_neg hx]

theorem setCache_outs_dirty (g : Graph) (o : CId) (v : Val) :
    ((setCache g o v).outs o).dirty = false := by
  unfold setCache
  rw [updOut_outs, if_pos rfl]

theorem setCache_outs_cache (g : Graph) (o : CId) (v : Val) :
    ((setCache g o v).outs o).cache = some v := by
  unfold setCache
  rw [updOut_outs, if_pos rfl]

theorem setCache_outs_ne (g : Graph) (o x : CId) (v : Val) (h : x ≠ o) :
    (setCache g o v).outs x = g.outs x := by
  unfold setCache
  rw [updOut_outs, if_neg h]

theorem setCache_outs_active (g : Graph) (o x : CId) (v : Val) :
    ((setCache g o v).outs x).active = (g.outs x).active := by
  unfold setCache
  rw [updOut_outs]
  by_cases hx : x = o
  · rw [if_pos hx, hx]
  · rw [if_neg hx]

theorem invAt_snoc_getter_ne {g : Graph} {o o' : CId} (h : o' ≠ o)
    (T : List Event) :
    InvAt g o (T ++ [Event.getterCall o']) ↔ InvAt g o T := by
  unfold InvAt
  rw [cleanTrace_snoc_getter_ne g h]

theorem invAt_snoc_fired_nodep {g : Graph} {o c : CId}
    (h : o ∉ depsOf g c) (T : List Event) :
    InvAt g o (T ++ [Event.fired c]) ↔ InvAt g o T := by
  unfold InvAt
  rw [cleanTrace_snoc_fired_nodep h]

theorem invAt_snoc_delivered (g : Graph) (o : CId) (x : Nat)
    (T : List Event) :
    InvAt g o (T ++ [Event.delivered x]) ↔ InvAt g o T := by
  unfold InvAt
  rw [cleanTrace_snoc_delivered]


/-- The pass-level cache-validity invariant: a propagation pass keeps every
non-pending Output's dirty flag in sync with trace-side validity (pending
Outputs are those an enclosing frame still has to process; a quiet pending
Output's trace stays invalid throughout). -/
theorem fire_inv_all : ∀ fuel : Nat,
    (∀ g vis c evs r, fire fuel g vis c evs = some r →
      ∀ (tr0 : List Event) (pending : CId → Prop),
      (∀ o, pending o → quiet g o → cleanTrace g o (tr0 ++ evs) = false) →
      (∀ o, g.destroyed o = false → ¬ pending o → InvAt g o (tr0 ++ evs)) →
      ((∀ o, r.1.destroyed o = false → ¬ pending o →
          InvAt r.1 o (tr0 ++ r.2.2)) ∧
        (∀ o, quiet g o → cleanTrace g o (tr0 ++ evs) = false →
          cleanTrace g o (tr0 ++ r.2.2) = false))) ∧
    (∀ g vis es v evs r, fireEdges fuel g vis es v evs = some r →
      ∀ (tr0 : List Event) (pending : CId → Prop),
      (∀ o, pending o → quiet g o → cleanTrace g o (tr0 ++ evs) = false) →
      (∀ o, g.destroyed o = false → ¬ pending o → InvAt g o (tr0 ++ evs)) →
      ((∀ o, r.1.destroyed o = false → ¬ pending o →
          InvAt r.1 o (tr0 ++ r.2.2)) ∧
        (∀ o, quiet g o → cleanTrace g o (tr0 ++ evs) = false →
          cleanTrace g o (tr0 ++ r.2.2) = false))) ∧
    (∀ g vis os evs r, fireDeps fuel g vis os evs = some r →
      ∀ (tr0 : List Event) (pending : CId → Prop),
      (∀ o, (pending o ∨ o ∈ os) → quiet g o →
        cleanTrace g o (tr0 ++ evs) = false) →
      (∀ o, g.destroyed o = false → ¬ pending o → o ∉ os →
        InvAt g o (tr0 ++ evs)) →
      ((∀ o, r.1.destroyed o = false → ¬ pending o →
          InvAt r.1 o (tr0 ++ r.2.2)) ∧
        (∀ o, quiet g o → cleanTrace g o (tr0 ++ evs) = false →
          cleanTrace g o (tr0 ++ r.2.2) = false))) := by
  have hedgesStep : ∀ fuel : Nat,
      (∀ g vis c evs r, fire fuel g vis c evs = some r →
        ∀ (tr0 : List Event) (pending : CId → Prop),
        (∀ o, pending o → quiet g o → cleanTrace g o (tr0 ++ evs) = false) →
        (∀ o, g.destroyed o = false → ¬ pending o → InvAt g o (tr0 ++ evs)) →
        ((∀ o, r.1.destroyed o = false → ¬ pending o →
            InvAt r.1 o (tr0 ++ r.2.2)) ∧
          (∀ o, quiet g o → cleanTrace g o (tr0 ++ evs) = false →
            cleanTrace g o (tr0 ++ r.2.2) = false))) →
      (∀ g vis es v evs r, fireEdges fuel g vis es v evs = some r →
        ∀ (tr0 : List Event) (pending : CId → Prop),
        (∀ o, pending o → quiet g o → cleanTrace g o (tr0 ++ evs) = false) →
        (∀ o, g.destroyed o = false → ¬ pending o → InvAt g o (tr0 ++ evs)) →
        ((∀ o, r.1.destroyed o = false → ¬ pending o →
            InvAt r.1 o (tr0 ++ r.2.2)) ∧
          (∀ o, quiet g o → cleanTrace g o (tr0 ++ evs) = false →
            cleanTrace g o (tr0 ++ r.2.2) = false))) := by
    intro fuel pfire g vis es v evs r h tr0 pending hP hI
    induction es generalizing g vis evs with
    | nil =>
        simp only [fireEdges, Option.some.injEq] at h
        rw [← h]
        exact ⟨fun o hd hp => hI o hd hp, fun o _ hcl => hcl⟩
    | cons e es ihes =>
        rw [fireEdges] at h
        split at h
        · exact ihes g vis evs h hP hI
        · cases hf : fire fuel (applyDeliver g e v) (e.eid :: vis) e.dst
              (evs ++ [Event.delivered e.eid]) with
          | none => rw [hf] at h; cases h
          | some t =>
              rw [hf] at h
              obtain ⟨g1, vis1, evs1⟩ := t
              dsimp only at h
              have hAf := applyDeliver_frame g e v
              have hqg : ∀ o, quiet (applyDeliver g e v) o ↔ quiet g o :=
                fun o => quiet_congr (fun x => by rw [hAf.2.2.2.2]) hAf.1 o
              have hclg : ∀ o T, cleanTrace (applyDeliver g e v) o T
                  = cleanTrace g o T := fun o T => cleanTrace_congr hAf.2.1 o T
              have hPd : ∀ o, pending o → quiet (applyDeliver g e v) o →
                  cleanTrace (applyDeliver g e v) o
                    (tr0 ++ (evs ++ [Event.delivered e.eid])) = false := by
                intro o hp hq
                rw [hclg, ← List.append_assoc, cleanTrace_snoc_delivered]
                exact hP o hp ((hqg o).1 hq)
              have hId : ∀ o, (applyDeliver g e v).destroyed o = false →
                  ¬ pending o → InvAt (applyDeliver g e v) o
                    (tr0 ++ (evs ++ [Event.delivered e.eid])) := by
                intro o hd hp
                rw [hAf.2.2.1] at hd
                have h0 := hI o hd hp
                rw [← List.append_assoc]
                refine ((invAt_congr hAf.2.2.2.2 hAf.2.1 o _).1 ?_)
                exact (invAt_snoc_delivered g o e.eid _).2 h0
              obtain ⟨hA1, hB1⟩ := pfire _ _ _ _ _ hf tr0 pending hPd hId
              dsimp only at hA1 hB1
              have fBf := (fire_frame_all fuel).1 _ _ _ _ _ hf
              have hqg1 : ∀ o, quiet g1 o ↔ quiet g o := by
                intro o
                refine Iff.trans (quiet_congr ?_ ?_ o) (hqg o)
                · exact fBf.active_eq
                · exact fBf.edges_eq
              have hD1 : g1.decls = g.decls := fBf.decls_eq.trans hAf.2.1
              have hcl1 : ∀ o T, cleanTrace g1 o T = cleanTrace g o T :=
                fun o T => cleanTrace_congr hD1 o T
              have hP1 : ∀ o, pending o → quiet g1 o →
                  cleanTrace g1 o (tr0 ++ evs1) = false := by
                intro o hp hq
                rw [hcl1, ← hclg]
                refine hB1 o ((hqg o).2 ((hqg1 o).1 hq)) ?_
                rw [hclg, ← List.append_assoc, cleanTrace_snoc_delivered]
                exact hP o hp ((hqg1 o).1 hq)
              have hI1 : ∀ o, g1.destroyed o = false → ¬ pending o →
                  InvAt g1 o (tr0 ++ evs1) := fun o hd hp => hA1 o hd hp
              obtain ⟨hA2, hB2⟩ := ihes g1 vis1 evs1 h hP1 hI1
              refine ⟨hA2, ?_⟩
              intro o hq hcl
              have step1 : cleanTrace g1 o (tr0 ++ evs1) = false := by
                rw [hcl1, ← hclg]
                refine hB1 o ((hqg o).2 hq) ?_
                rw [hclg, ← List.append_assoc, cleanTrace_snoc_delivered]
                exact hcl
              have step2 := hB2 o ((hqg1 o).2 hq) step1
              rw [hcl1] at step2
              exact step2
  have hdepsStep : ∀ fuel : Nat,
      (∀ g vis es v evs r, fireEdges fuel g vis es v evs = some r →
        ∀ (tr0 : List Event) (pending : CId → Prop),
        (∀ o, pending o → quiet g o → cleanTrace g o (tr0 ++ evs) = false) →
        (∀ o, g.destroyed o = false → ¬ pending o → InvAt g o (tr0 ++ evs)) →
        ((∀ o, r.1.destroyed o = false → ¬ pending o →
            InvAt r.1 o (tr0 ++ r.2.2)) ∧
          (∀ o, quiet g o → cleanTrace g o (tr0 ++ evs) = false →
            cleanTrace g o (tr0 ++ r.2.2) = false))) →
      (∀ g vis os evs r, fireDeps fuel g vis os evs = some r →
        ∀ (tr0 : List Event) (pending : CId → Prop),
        (∀ o, (pending o ∨ o ∈ os) → quiet g o →
          cleanTrace g o (tr0 ++ evs) = false) →
        (∀ o, g.destroyed o = false → ¬ pending o → o ∉ os →
          InvAt g o (tr0 ++ evs)) →
        ((∀ o, r.1.destroyed o = false → ¬ pending o →
            InvAt r.1 o (tr0 ++ r.2.2)) ∧
          (∀ o, quiet g o → cleanTrace g o (tr0 ++ evs) = false →
            cleanTrace g o (tr0 ++ r.2.2) = false))) := by
    intro fuel pedges g vis os evs r h tr0 pending hP hI
    induction os generalizing g vis evs with
    | nil =>
        simp only [fireDeps, Option.some.injEq] at h
        rw [← h]
        refine ⟨fun o hd hp => hI o hd hp (List.not_mem_nil o),
          fun o _ hcl => hcl⟩
    | cons o os ih2 =>
        rw [fireDeps] at h
        have hmark : ∀ (hq : quiet g o),
            fireDeps fuel (markDirty g o) vis os evs = some r →
            ((∀ x, r.1.destroyed x = false → ¬ pending x →
                InvAt r.1 x (tr0 ++ r.2.2)) ∧
              (∀ x, quiet g x → cleanTrace g x (tr0 ++ evs) = false →
                cleanTrace g x (tr0 ++ r.2.2) = false)) := by
          intro hq hrec
          have hqm : ∀ x, quiet (markDirty g o) x ↔ quiet g x :=
            fun x => quiet_congr (markDirty_outs_active g o) rfl x
          have hclm : ∀ x T, cleanTrace (markDirty g o) x T
              = cleanTrace g x T := fun x T =>
            cleanTrace_congr (show (markDirty g o).decls = g.decls from rfl) x T
          have hP'' : ∀ x, (pending x ∨ x ∈ os) → quiet (markDirty g o) x →
              cleanTrace (markDirty g o) x (tr0 ++ evs) = false := by
            intro x hx hqx
            rw [hclm]
            exact hP x (hx.imp id (List.mem_cons_of_mem o)) ((hqm x).1 hqx)
          have hI'' : ∀ x, (markDirty g o).destroyed x = false →
              ¬ pending x → x ∉ os → InvAt (markDirty g o) x (tr0 ++ evs) := by
            intro x hd hp hos
            by_cases hxo : x = o
            · subst hxo
              have hdt : ((markDirty g x).outs x).dirty = true :=
                markDirty_outs_self g x
              have hcl : cleanTrace (markDirty g x) x (tr0 ++ evs) = false := by
                rw [hclm]
                exact hP x (Or.inr (List.mem_cons_self x os)) hq
              constructor
              · rw [hdt, hcl]
                simp
              · rw [hdt]
                simp
            · have hox := markDirty_outs_ne g o x hxo
              have h0 := hI x hd hp
                (fun hmem => (List.mem_cons.1 hmem).elim hxo hos)
              unfold InvAt at h0 ⊢
              rw [hox, hclm]
              exact h0
          obtain ⟨hA, hB⟩ := ih2 (markDirty g o) vis evs hrec hP'' hI''
          refine ⟨hA, ?_⟩
          intro x hqx hclx
          have := hB x ((hqm x).2 hqx) (by rw [hclm]; exact hclx)
          rw [hclm] at this
          exact this
        split at h
        · next hact =>
            split at h
            · next hedg =>
                exact hmark (Or.inr hedg) h
            · next e es hedg =>
                cases hfe : fireEdges fuel (setCache g o (computeOutput g o))
                    vis (outEdges g o) (computeOutput g o)
                    (evs ++ [Event.getterCall o]) with
                | none => rw [hfe] at h; cases h
                | some t =>
                    rw [hfe] at h
                    obtain ⟨g2, vis2, evs2⟩ := t
                    dsimp only at h
                    have hnq : ¬ quiet g o := by
                      intro hq
                      rcases hq with hi | he
                      · rw [hact] at hi; cases hi
                      · rw [hedg] at he; cases he
                    have hqs : ∀ x, quiet (setCache g o (computeOutput g o)) x
                        ↔ quiet g x := fun x =>
                      quiet_congr (fun y => setCache_outs_active g o y _) rfl x
                    have hcls : ∀ x T,
                        cleanTrace (setCache g o (computeOutput g o)) x T
                          = cleanTrace g x T :=
                      fun x T => cleanTrace_congr
                        (show (setCache g o (computeOutput g o)).decls
                          = g.decls from rfl) x T
                    have hclE : ∀ x, quiet g x →
                        cleanTrace g x (tr0 ++ evs) = false →
                        cleanTrace (setCache g o (computeOutput g o)) x
                          (tr0 ++ (evs ++ [Event.getterCall o])) = false := by
                      intro x hqx hclx
                      have hxo : x ≠ o := fun hh => hnq (hh ▸ hqx)
                      rw [hcls, ← List.append_assoc,
                        cleanTrace_snoc_getter_ne g (Ne.symm hxo)]
                      exact hclx
                    have hPE : ∀ x, (pending x ∨ x ∈ os) →
                        quiet (setCache g o (computeOutput g o)) x →
                        cleanTrace (setCache g o (computeOutput g o)) x
                          (tr0 ++ (evs ++ [Event.getterCall o])) = false := by
                      intro x hx hqx
                      have hqx' := (hqs x).1 hqx
                      exact hclE x hqx'
                        (hP x (hx.imp id (List.mem_cons_of_mem o)) hqx')
                    have hIE : ∀ x,
                        (setCache g o (computeOutput g o)).destroyed x = false →
                        ¬ (pending x ∨ x ∈ os) →
                        InvAt (setCache g o (computeOutput g o)) x
                          (tr0 ++ (evs ++ [Event.getterCall o])) := by
                      intro x hd hnx
                      rw [not_or] at hnx
                      by_cases hxo : x = o
                      · subst hxo
                        constructor
                        · rw [setCache_outs_dirty, hcls, ← List.append_assoc,
                            cleanTrace_snoc_getter_self]
                          simp
                        · intro _
                          rw [setCache_outs_cache]
                          rfl
                      · have h0 := hI x hd hnx.1
                          (fun hmem => (List.mem_cons.1 hmem).elim hxo hnx.2)
                        unfold InvAt at h0 ⊢
                        rw [setCache_outs_ne g o x _ hxo, hcls,
                          ← List.append_assoc,
                          cleanTrace_snoc_getter_ne g (Ne.symm hxo)]
                        exact h0
                    obtain ⟨hAE, hBE⟩ := pedges _ _ _ _ _ _ hfe tr0
                      (fun x => pending x ∨ x ∈ os) hPE hIE
                    dsimp only at hAE hBE
                    have fBE := (fire_frame_all fuel).2.1 _ _ _ _ _ _ hfe
                    have hq2 : ∀ x, quiet g2 x ↔ quiet g x := by
                      intro x
                      refine Iff.trans
                        (quiet_congr fBE.active_eq fBE.edges_eq x) (hqs x)
                    have hD2 : g2.decls = g.decls := fBE.decls_eq
                    have hcl2 : ∀ x T, cleanTrace g2 x T = cleanTrace g x T :=
                      fun x T => cleanTrace_congr hD2 x T
                    have hP2 : ∀ x, (pending x ∨ x ∈ os) → quiet g2 x →
                        cleanTrace g2 x (tr0 ++ evs2) = false := by
                      intro x hx hqx
                      have hqx' := (hq2 x).1 hqx
                      have hstart := hPE x hx ((hqs x).2 hqx')
                      have := hBE x ((hqs x).2 hqx') hstart
                      rw [hcls] at this
                      rw [hcl2]
                      exact this
                    have hI2 : ∀ x, g2.destroyed x = false → ¬ pending x →
                        x ∉ os → InvAt g2 x (tr0 ++ evs2) := by
                      intro x hd hp hos
                      exact hAE x hd (fun hor => hor.elim hp hos)
                    obtain ⟨hA3, hB3⟩ := ih2 g2 vis2 evs2 h hP2 hI2
                    refine ⟨hA3, ?_⟩
                    intro x hqx hclx
                    have hstep1 := hclE x hqx hclx
                    have hstep2 := hBE x ((hqs x).2 hqx) hstep1
                    rw [hcls] at hstep2
                    have hstep3 := hB3 x ((hq2 x).2 hqx)
                      (by rw [hcl2]; exact hstep2)
                    rw [hcl2] at hstep3
                    exact hstep3
        · next hact =>
            have hia : (g.outs o).active = false := by
              simpa using hact
            exact hmark (Or.inl hia) h
  intro fuel
  induction fuel with
  | zero =>
      have pfire : ∀ g vis c evs r, fire 0 g vis c evs = some r →
          ∀ (tr0 : List Event) (pending : CId → Prop),
          (∀ o, pending o → quiet g o → cleanTrace g o (tr0 ++ evs) = false) →
          (∀ o, g.destroyed o = false → ¬ pending o →
            InvAt g o (tr0 ++ evs)) →
          ((∀ o, r.1.destroyed o = false → ¬ pending o →
              InvAt r.1 o (tr0 ++ r.2.2)) ∧
            (∀ o, quiet g o → cleanTrace g o (tr0 ++ evs) = false →
              cleanTrace g o (tr0 ++ r.2.2) = false)) := by
        intro g vis c evs r h
        simp [fire] at h
      have pedges := hedgesStep 0 pfire
      exact ⟨pfire, pedges, hdepsStep 0 pedges⟩
  | succ fuel ih =>
      obtain ⟨ihF, ihE, ihD⟩ := ih
      have pfire : ∀ g vis c evs r, fire (fuel + 1) g vis c evs = some r →
          ∀ (tr0 : List Event) (pending : CId → Prop),
          (∀ o, pending o → quiet g o → cleanTrace g o (tr0 ++ evs) = false) →
          (∀ o, g.destroyed o = false → ¬ pending o →
            InvAt g o (tr0 ++ evs)) →
          ((∀ o, r.1.destroyed o = false → ¬ pending o →
              InvAt r.1 o (tr0 ++ r.2.2)) ∧
            (∀ o, quiet g o → cleanTrace g o (tr0 ++ evs) = false →
              cleanTrace g o (tr0 ++ r.2.2) = false)) := by
        intro g vis c evs r h tr0 pending hP hI
        rw [fire] at h
        have hP' : ∀ o, (pending o ∨ o ∈ depsOf g c) → quiet g o →
            cleanTrace g o (tr0 ++ (evs ++ [Event.fired c])) = false := by
          intro o hpo hq
          rw [← List.append_assoc]
          by_cases hdep : o ∈ depsOf g c
          · exact cleanTrace_snoc_fired_dep hdep _
          · rw [cleanTrace_snoc_fired_nodep hdep]
            rcases hpo with hp | hmem
            · exact hP o hp hq
            · exact absurd hmem hdep
        have hI' : ∀ o, g.destroyed o = false → ¬ pending o →
            o ∉ depsOf g c →
            InvAt g o (tr0 ++ (evs ++ [Event.fired c])) := by
          intro o hd hp hnd
          rw [← List.append_assoc]
          exact (invAt_snoc_fired_nodep hnd _).2 (hI o hd hp)
        obtain ⟨hA, hB⟩ := ihD _ _ _ _ _ h tr0 pending hP' hI'
        refine ⟨hA, ?_⟩
        intro o hq hcl
        refine hB o hq ?_
        rw [← List.append_assoc]
        by_cases hdep : o ∈ depsOf g c
        · exact cleanTrace_snoc_fired_dep hdep _
        · rw [cleanTrace_snoc_fired_nodep hdep]
          exact hcl
      have pedges := hedgesStep (fuel + 1) pfire
      exact ⟨pfire, pedges, hdepsStep (fuel + 1) pedges⟩


theorem inv_transport_fields {g g' : Graph} (tr : List Event)
    (h : Inv g tr)
    (hd : ∀ x, (g'.outs x).dirty = (g.outs x).dirty)
    (hc : ∀ x, (g'.outs x).cache = (g.outs x).cache)
    (hD : g'.decls = g.decls) (hX : g'.destroyed = g.destroyed) :
    Inv g' tr := by
  intro o hdo
  rw [hX] at hdo
  obtain ⟨h1, h2⟩ := h o hdo
  refine ⟨?_, ?_⟩
  · rw [hd o, cleanTrace_congr hD]
    exact h1
  · rw [hd o, hc o]
    exact h2

theorem fire_inv_empty {fuel : Nat} {g : Graph} {vis : List Nat} {c : CId}
    {r : Graph × List Nat × List Event} (tr : List Event)
    (hf : fire fuel g vis c [] = some r) (hInv : Inv g tr) :
    Inv r.1 (tr ++ r.2.2) := by
  have hmain := ((fire_inv_all fuel).1 _ _ _ _ _ hf tr (fun _ => False)
    (fun o hF _ => hF.elim)
    (fun o hd _ => by rw [List.append_nil]; exact hInv o hd)).1
  intro o hd
  exact hmain o hd (fun f => f)

theorem readValue_inv (g : Graph) (o : CId) (tr : List Event)
    (hInv : Inv g tr) :
    Inv (readValue g o).2.1 (tr ++ (readValue g o).2.2) := by
  unfold readValue
  split
  · dsimp only
    rw [List.append_nil]
    exact hInv
  · dsimp only
    intro o' hd'
    by_cases ho : o' = o
    · subst ho
      constructor
      · rw [setCache_outs_dirty,
          cleanTrace_congr (show (setCache g o' (computeOutput g o')).decls
            = g.decls from rfl),
          cleanTrace_snoc_getter_self]
        simp
      · intro _
        rw [setCache_outs_cache]
        rfl
    · have h0 := hInv o' hd'
      constructor
      · rw [setCache_outs_ne g o o' _ ho,
          cleanTrace_congr (show (setCache g o (computeOutput g o)).decls
            = g.decls from rfl),
          cleanTrace_snoc_getter_ne g (Ne.symm ho)]
        exact h0.1
      · rw [setCache_outs_ne g o o' _ ho]
        exact h0.2

theorem inv_applyDeliver_delivered (gm : Graph) (e : Edge) (v : Val)
    (T : List Event) (h : Inv gm T) :
    ∀ x, (applyDeliver gm e v).destroyed x = false →
      InvAt (applyDeliver gm e v) x (T ++ [Event.delivered e.eid]) := by
  intro x hdx
  have hAf := applyDeliver_frame gm e v
  rw [hAf.2.2.1] at hdx
  refine (invAt_congr hAf.2.2.2.2 hAf.2.1 x _).1 ?_
  exact (invAt_snoc_delivered gm x e.eid T).2 (h x hdx)

/-- Every successful operation preserves the C1 invariant, relative to the
concatenated event history. -/
theorem runOp_inv : ∀ (g : Graph) (op : Op) (g1 : Graph) (evs : List Event)
    (tr : List Event), runOp g op = some (.ok (g1, evs)) →
    Inv g tr → Inv g1 (tr ++ evs) := by
  intro g op g1 evs tr h hInv
  cases op with
  | setInput c v =>
      simp only [runOp] at h
      unfold setInputOp at h
      cases hd : g.decls c with
      | none => rw [hd] at h; simp at h
      | some d =>
          rw [hd] at h
          dsimp only at h
          split at h
          · simp at h
          · split at h
            · simp at h
            · obtain ⟨vis, hres⟩ := finishFire_ok h
              exact fire_inv_empty tr hres
                (inv_transport_fields tr hInv (fun x => rfl) (fun x => rfl)
                  rfl rfl)
  | callTrigger c =>
      simp only [runOp] at h
      unfold callTriggerOp at h
      cases hd : g.decls c with
      | none => rw [hd] at h; simp at h
      | some d =>
          rw [hd] at h
          dsimp only at h
          split at h
          · simp at h
          · split at h
            · simp at h
            · obtain ⟨vis, hres⟩ := finishFire_ok h
              exact fire_inv_empty tr hres hInv
  | readOutput o =>
      simp only [runOp] at h
      unfold readOutputOp at h
      cases hd : g.decls o with
      | none => rw [hd] at h; simp at h
      | some d =>
          rw [hd] at h
          dsimp only at h
          split at h
          · simp at h
          · split at h
            · simp at h
            · simp only [Option.some.injEq, Except.ok.injEq,
                Prod.mk.injEq] at h
              obtain ⟨h1, h2⟩ := h
              rw [← h1, ← h2]
              exact readValue_inv g o tr hInv
  | addMulti c v =>
      simp only [runOp] at h
      unfold addMultiOp at h
      cases hd : g.decls c with
      | none => rw [hd] at h; simp at h
      | some d =>
          rw [hd] at h
          dsimp only at h
          split at h
          · simp at h
          · split at h
            · simp at h
            · obtain ⟨vis, hres⟩ := finishFire_ok h
              exact fire_inv_empty tr hres
                (inv_transport_fields tr hInv (fun x => rfl) (fun x => rfl)
                  rfl rfl)
  | removeMulti c id =>
      simp only [runOp] at h
      unfold removeMultiOp at h
      cases hd : g.decls c with
      | none => rw [hd] at h; simp at h
      | some d =>
          rw [hd] at h
          dsimp only at h
          split at h
          · simp at h
          · split at h
            · simp at h
            · split at h
              · simp at h
              · obtain ⟨vis, hres⟩ := finishFire_ok h
                exact fire_inv_empty tr hres
                  (inv_transport_fields tr hInv (fun x => rfl) (fun x => rfl)
                    rfl rfl)
  | connect o i =>
      simp only [runOp] at h
      unfold connectOp at h
      cases hdo : g.decls o with
      | none =>
          rw [hdo] at h
          cases hdi : g.decls i <;> rw [hdi] at h <;> simp at h
      | some dOut =>
          rw [hdo] at h
          cases hdi : g.decls i with
          | none => rw [hdi] at h; simp at h
          | some dIn =>
              rw [hdi] at h
              dsimp only at h
              split at h
              · simp at h
              · split at h
                · simp at h
                · split at h
                  · simp at h
                  · split at h
                    · simp at h
                    · split at h
                      · simp at h
                      · by_cases hm : dIn.role = Role.multiInput
                        · rw [if_pos hm] at h
                          obtain ⟨vis, hres⟩ := finishFire_ok h
                          have hInv2 := readValue_inv
                            { g with
                              edges := g.edges ++ [(⟨o, i, g.nextId⟩ : Edge)],
                              nextId := g.nextId + 1 } o tr
                            (inv_transport_fields tr hInv (fun x => rfl)
                              (fun x => rfl) rfl rfl)
                          have hmain := ((fire_inv_all _).1 _ _ _ _ _ hres
                            tr (fun _ => False) (fun x hF _ => hF.elim)
                            (fun x hd _ => by
                              rw [← List.append_assoc]
                              exact inv_applyDeliver_delivered _ _ _ _
                                hInv2 x hd)).1
                          intro x hd
                          exact hmain x hd (fun f => f)
                        · rw [if_neg hm] at h
                          obtain ⟨vis, hres⟩ := finishFire_ok h
                          have hInv2 := readValue_inv
                            { decls := g.decls, outs := g.outs,
                              edges := g.edges.filter (fun e => e.dst ≠ i)
                                ++ [(⟨o, i, g.nextId⟩ : Edge)],
                              objs := g.objs, destroyed := g.destroyed,
                              nextId := g.nextId + 1 } o tr
                            (inv_transport_fields tr hInv (fun x => rfl)
                              (fun x => rfl) rfl rfl)
                          have hmain := ((fire_inv_all _).1 _ _ _ _ _ hres
                            tr (fun _ => False) (fun x hF _ => hF.elim)
                            (fun x hd _ => by
                              rw [← List.append_assoc]
                              exact inv_applyDeliver_delivered _ _ _ _
                                hInv2 x hd)).1
                          intro x hd
                          exact hmain x hd (fun f => f)
  | disconnect o i =>
      simp only [runOp] at h
      unfold disconnectOp at h
      cases hdo : g.decls o with
      | none =>
          rw [hdo] at h
          cases hdi : g.decls i <;> rw [hdi] at h <;> simp at h
      | some dOut =>
          rw [hdo] at h
          cases hdi : g.decls i with
          | none => rw [hdi] at h; simp at h
          | some dIn =>
              rw [hdi] at h
              dsimp only at h
              split at h
              · simp at h
              · cases hfe : findEdge g o i with
                | none => rw [hfe] at h; simp at h
                | some e =>
                    rw [hfe] at h
                    dsimp only at h
                    by_cases hm : dIn.role = Role.multiInput
                    · rw [if_pos hm] at h
                      obtain ⟨vis, hres⟩ := finishFire_ok h
                      exact fire_inv_empty tr hres
                        (inv_transport_fields tr hInv (fun x => rfl)
                          (fun x => rfl) rfl rfl)
                    · rw [if_neg hm] at h
                      simp only [Option.some.injEq, Except.ok.injEq,
                        Prod.mk.injEq] at h
                      obtain ⟨h1, h2⟩ := h
                      rw [← h1, ← h2, List.append_nil]
                      exact inv_transport_fields tr hInv (fun x => rfl)
                        (fun x => rfl) rfl rfl
  | disconnectAll c =>
      simp only [runOp] at h
      unfold disconnectAllOp at h
      cases hd : g.decls c with
      | none => rw [hd] at h; simp at h
      | some d =>
          rw [hd] at h
          dsimp only at h
          split at h
          · simp at h
          · simp only [Option.some.injEq, Except.ok.injEq, Prod.mk.injEq] at h
            obtain ⟨h1, h2⟩ := h
            rw [← h1, ← h2, List.append_nil]
            have hfr := foldl_dropContrib_frame (g.edges.filter (touches c)) g
            refine inv_transport_fields tr hInv ?_ ?_ ?_ ?_
            · intro x
              rw [show (List.foldl dropContribForEdge g
                (g.edges.filter (touches c))).outs = g.outs from hfr.2.2.2.1]
            · intro x
              rw [show (List.foldl dropContribForEdge g
                (g.edges.filter (touches c))).outs = g.outs from hfr.2.2.2.1]
            · exact hfr.1
            · exact hfr.2.1
  | deactivateOutput o =>
      simp only [runOp] at h
      unfold deactivateOp at h
      cases hd : g.decls o with
      | none => rw [hd] at h; simp at h
      | some d =>
          rw [hd] at h
          dsimp only at h
          split at h
          · simp at h
          · split at h
            · simp at h
            · simp only [Option.some.injEq, Except.ok.injEq,
                Prod.mk.injEq] at h
              obtain ⟨h1, h2⟩ := h
              rw [← h1, ← h2, List.append_nil]
              refine inv_transport_fields tr hInv ?_ ?_ rfl rfl
              · intro x
                rw [updOut_outs]
                by_cases hx : x = o
                · rw [if_pos hx, hx]
                · rw [if_neg hx]
              · intro x
                rw [updOut_outs]
                by_cases hx : x = o
                · rw [if_pos hx, hx]
                · rw [if_neg hx]
  | activateOutput o =>
      simp only [runOp] at h
      unfold activateOp at h
      cases hd : g.decls o with
      | none => rw [hd] at h; simp at h
      | some d =>
          rw [hd] at h
          dsimp only at h
          split at h
          · simp at h
          · split at h
            · simp at h
            · split at h
              · obtain ⟨vis, hres⟩ := finishFire_ok h
                have hDx : (setCache (updOut g o
                    { g.outs o with active := true }) o
                    (computeOutput (updOut g o
                      { g.outs o with active := true }) o)).decls
                    = g.decls := rfl
                have hI0 : ∀ x, (setCache (updOut g o
                      { g.outs o with active := true }) o
                      (computeOutput (updOut g o
                        { g.outs o with active := true }) o)).destroyed x
                      = false →
                    InvAt (setCache (updOut g o
                      { g.outs o with active := true }) o
                      (computeOutput (updOut g o
                        { g.outs o with active := true }) o)) x
                      (tr ++ [Event.getterCall o]) := by
                  intro x hdx
                  by_cases hx : x = o
                  · subst hx
                    constructor
                    · rw [setCache_outs_dirty, cleanTrace_snoc_getter_self]
                      simp
                    · intro _
                      rw [setCache_outs_cache]
                      rfl
                  · have h0 := hInv x hdx
                    constructor
                    · rw [setCache_outs_ne _ o x _ hx, updOut_outs, if_neg hx,
                        cleanTrace_snoc_getter_ne _ (Ne.symm hx),
                        cleanTrace_congr hDx]
                      exact h0.1
                    · rw [setCache_outs_ne _ o x _ hx, updOut_outs, if_neg hx]
                      exact h0.2
                have hmain := ((fire_inv_all _).2.1 _ _ _ _ _ _ hres
                  tr (fun _ => False) (fun x hF _ => hF.elim)
                  (fun x hdx _ => hI0 x hdx)).1
                intro x hdx
                exact hmain x hdx (fun f => f)
              · simp only [Option.some.injEq, Except.ok.injEq,
                  Prod.mk.injEq] at h
                obtain ⟨h1, h2⟩ := h
                rw [← h1, ← h2, List.append_nil]
                refine inv_transport_fields tr hInv ?_ ?_ rfl rfl
                · intro x
                  rw [updOut_outs]
                  by_cases hx : x = o
                  · rw [if_pos hx, hx]
                  · rw [if_neg hx]
                · intro x
                  rw [updOut_outs]
                  by_cases hx : x = o
                  · rw [if_pos hx, hx]
                  · rw [if_neg hx]
  | destroyConnectors owner =>
      simp only [runOp] at h
      unfold destroyOp at h
      dsimp only at h
      simp only [Option.some.injEq, Except.ok.injEq, Prod.mk.injEq] at h
      obtain ⟨h1, h2⟩ := h
      rw [← h2, List.append_nil]
      have hfr := foldl_dropContrib_frame (g.edges.filter
        (fun e => ownedBy g owner e.src || ownedBy g owner e.dst)) g
      intro x hdx
      have hdd : g1.destroyed x = (g.destroyed x || ownedBy g owner x) := by
        rw [← h1]
      rw [hdd] at hdx
      rw [Bool.or_eq_false_iff] at hdx
      have h0 := hInv x hdx.1
      have houts : g1.outs x = g.outs x := by
        rw [← h1]
        show (if ownedBy g owner x = true then _ else _) = g.outs x
        rw [if_neg (by simp [hdx.2])]
        exact congrFun hfr.2.2.2.1 x
      have hdecls : g1.decls = g.decls := by
        rw [← h1]
        exact hfr.1
      constructor
      · rw [houts, cleanTrace_congr hdecls]
        exact h0.1
      · rw [houts]
        exact h0.2

/-- A successful run preserves the C1 invariant, appending its trace. -/
theorem run_inv : ∀ (ops : List Op) (g g2 : Graph) (tr tr2 : List Event),
    run g ops = some (.ok (g2, tr2)) → Inv g tr → Inv g2 (tr ++ tr2) := by
  intro ops
  induction ops with
  | nil =>
      intro g g2 tr tr2 h hInv
      simp only [run, Option.some.injEq, Except.ok.injEq, Prod.mk.injEq] at h
      rw [← h.1, ← h.2, List.append_nil]
      exact hInv
  | cons op ops ih =>
      intro g g2 tr tr2 h hInv
      unfold run at h
      cases hop : runOp g op with
      | none => rw [hop] at h; cases h
      | some x =>
          rw [hop] at h
          cases x with
          | error er => simp at h
          | ok p =>
              obtain ⟨gm, evs⟩ := p
              dsimp only at h
              cases hrun2 : run gm ops with
              | none => rw [hrun2] at h; cases h
              | some y =>
                  rw [hrun2] at h
                  cases y with
                  | error er => simp at h
                  | ok q =>
                      obtain ⟨g3, evs2⟩ := q
                      simp only [Option.some.injEq, Except.ok.injEq,
                        Prod.mk.injEq] at h
                      obtain ⟨h1, h2⟩ := h
                      rw [← h1, ← h2, ← List.append_assoc]
                      exact ih gm g3 (tr ++ evs) evs2 hrun2
                        (runOp_inv g op gm evs tr hop hInv)

/-- A fresh runtime satisfies the C1 invariant on the empty history. -/
theorem init_inv (dcls : CId → Option ConnDecl) (objs0 : Nat → ObjState) :
    Inv (initGraph dcls objs0) [] := by
  intro o _
  constructor
  · constructor
    · intro hdirty
      exact Bool.noConfusion hdirty
    · intro hcl
      exact Bool.noConfusion hcl
  · intro hdirty
    exact Bool.noConfusion hdirty


/-- C1: in every reachable state the C1 invariant holds: an Output's cached
value is valid (dirty flag clear) exactly when no declared dependent has
fired since the Output's last recomputation, and a clean Output holds a
cached value; reading a clean Output returns the cached value with no
getter call, while reading a dirty Output invokes the getter exactly once,
stores the result, marks the Output clean and returns that result. -/
theorem c1_cache_validity (dcls : CId → Option ConnDecl)
    (objs0 : Nat → ObjState) (ops : List Op) (g : Graph) (tr : List Event)
    (hrun : run (initGraph dcls objs0) ops = some (.ok (g, tr))) :
    Inv g tr ∧
    (∀ o, g.destroyed o = false →
      ((g.outs o).dirty = false →
        (g.outs o).cache = some (readValue g o).1 ∧
        (readValue g o).2.1 = g ∧
        countGetter (readValue g o).2.2 o = 0) ∧
      ((g.outs o).dirty = true →
        (readValue g o).1 = computeOutput g o ∧
        ((readValue g o).2.1.outs o).dirty = false ∧
        ((readValue g o).2.1.outs o).cache = some (computeOutput g o) ∧
        countGetter (readValue g o).2.2 o = 1)) := by
  have hInv : Inv g tr := by
    have h0 := run_inv ops (initGraph dcls objs0) g [] tr hrun
      (init_inv dcls objs0)
    rwa [List.nil_append] at h0
  refine ⟨hInv, ?_⟩
  intro o hd
  constructor
  · intro hdirty
    obtain ⟨v, hv⟩ := Option.isSome_iff_exists.1 ((hInv o hd).2 hdirty)
    unfold readValue
    rw [hdirty, hv]
    exact ⟨rfl, rfl, rfl⟩
  · intro hdirty
    unfold readValue
    rw [hdirty]
    refine ⟨rfl, setCache_outs_dirty g o _, setCache_outs_cache g o _, ?_⟩
    simp [countGetter]

theorem c1_witness :
    ((wc1res.1.outs 1).dirty = true ∧
      cleanTrace wc1res.1 1 wc1res.2 = false) ∧
    (readValue wc1res.1 1).1 = computeOutput wc1res.1 1 ∧
    ((readValue wc1res.1 1).2.1.outs 1).dirty = false ∧
    countGetter (readValue wc1res.1 1).2.2 1 = 1 := by
  have hrun : run (initGraph wc4decls (fun _ => { slots := [], multis := [] }))
      [Op.setInput 0 5] = some (.ok (wc1res.1, wc1res.2)) := by
    simp [wc1res, wc4decls, initGraph, run, runOp, setInputOp, fire,
      fireDeps, fireEdges, finishFire, passFuel, updObj, updOut, markDirty,
      setCache, applyDeliver, depsOf, outEdges, computeOutput, slotVal,
      setSlotL]
  have hmain := c1_cache_validity wc4decls
    (fun _ => { slots := [], multis := [] }) [Op.setInput 0 5]
    wc1res.1 wc1res.2 hrun
  have hd : wc1res.1.destroyed 1 = false := by
    simp [wc1res, wc4decls, initGraph, run, runOp, setInputOp, fire,
      fireDeps, fireEdges, finishFire, passFuel, updObj, updOut, markDirty,
      setCache, applyDeliver, depsOf, outEdges, computeOutput, slotVal,
      setSlotL]
  have hdirty : (wc1res.1.outs 1).dirty = true := by
    simp [wc1res, wc4decls, initGraph, run, runOp, setInputOp, fire,
      fireDeps, fireEdges, finishFire, passFuel, updObj, updOut, markDirty,
      setCache, applyDeliver, depsOf, outEdges, computeOutput, slotVal,
      setSlotL]
  have hiff := (hmain.1 1 hd).1
  have hread := (hmain.2 1 hd).2 hdirty
  refine ⟨⟨hdirty, ?_⟩, hread.1, hread.2.1, hread.2.2.2⟩
  cases hcl : cleanTrace wc1res.1 1 wc1res.2 with
  | false => rfl
  | true =>
      have hq := hiff.2 hcl
      rw [hdirty] at hq
      exact Bool.noConfusion hq

end SuMPF
